import Mathlib

/-!
# Kinematic creature engine of `src/script.js`

A shallow embedding of the Segment / LimbSystem / LegSystem / Creature classes
of `src/script.js`, and the properties of the specification proved about it.

Modelling conventions.

* JavaScript numbers are the elements of a linearly ordered field `K` with a
  floor function; arithmetic is exact.  The functions of the `Math` object that
  are not field operations (`Math.PI`, `Math.cos`, `Math.sin`, `Math.atan2`,
  and the square root written `** 0.5`) are the fields of a record `JSMath K`
  that every operation takes as its first argument.  The definitions of the
  embedding are computable; over `ℚ` they can be run.  What the theorems
  assume of the record is collected in `JSMath.Exact`, which the functions of
  the real numbers, `realMath`, satisfy (`realMath_exact`).
* A division whose divisor is a program variable (`/ dist`, `/ this.stiffness`)
  is `jsDiv`: with a zero divisor JavaScript produces `NaN` or an infinity,
  which is no element of `K`, and the operation ends in `Fault.divByZero`.
* Objects live in a heap: `World.segs` maps a segment id to the Segment
  object, and references to segments are ids.  `Segment.parent` is a `Ref`,
  the Creature or a segment id.
* The recursion over `children` takes a fuel argument bounding its depth.
* What a method reads from outside the heap is a parameter: the values of
  `Math.random()` in `LegSystem.update`, and in `Creature.follow` the mouse
  position `Input.mouse` that a plain `LimbSystem.update` moves to.  Drawing
  is left out.
* The wraps of `updateRelative` and `Creature.follow` take `Math.floor` of a
  computed value, so their result can change with the last bit of that value.
  The definitions whose name ends in `Fl` (`wrapRelFl`, `newRelFl`,
  `updateRelativeFl`, `Creature.newHeadingFl`) round the result of every
  arithmetic operation by a function `fl`, of which `Rounding` assumes a
  relative error of at most `u`; with `fl` the identity they are the exact
  definitions.  The properties of the wraps (C2, C16, C19) are proved for every
  such rounding.
-/

set_option linter.unusedSectionVars false

namespace Cursor

/-- How a call can fail to produce a numeric state. -/
inductive Fault where
  /-- a division by zero: JavaScript continues with `NaN` / `Infinity` -/
  | divByZero
  /-- a property of `undefined` is read: JavaScript throws a `TypeError` -/
  | typeError
  /-- the recursion is deeper than the fuel given to the model -/
  | outOfFuel
  deriving DecidableEq, Repr

/-- A reference to a node of the kinematic tree: the Creature (whose
`isSegment` is undefined) or a Segment, by id. -/
inductive Ref where
  | creature
  | seg (id : Nat)
  deriving DecidableEq, Repr

/-- The members of the JavaScript `Math` object the engine uses, and `** 0.5`. -/
structure JSMath (K : Type) where
  /-- the constant `Math.PI` -/
  PI : K
  /-- the function `Math.cos` -/
  cos : K → K
  /-- the function `Math.sin` -/
  sin : K → K
  /-- the function `Math.atan2(y, x)` -/
  atan2 : K → K → K
  /-- the power `x ** 0.5` -/
  sqrt : K → K

/-- The class `Segment` (script.js 96-193): one link of a kinematic chain. -/
structure Segment (K : Type) where
  parent : Ref
  children : List Nat
  size : K
  relAngle : K
  defAngle : K
  absAngle : K
  range : K
  stiffness : K
  x : K
  y : K

/-- The class `LimbSystem` (script.js 202-267); `endSeg` is the field `end`. -/
structure LimbSystem (K : Type) where
  endSeg : Nat
  length : Int
  speed : K
  nodes : List Nat
  hip : Ref

/-- The class `LegSystem` (script.js 273-334), a LimbSystem with gait state. -/
structure LegSystem (K : Type) extends LimbSystem K where
  goalX : K
  goalY : K
  step : Nat
  forwardness : K
  reach : K
  swing : K
  swingOffset : K

/-- An element of `creature.systems`: a plain LimbSystem or a LegSystem. -/
inductive System (K : Type) where
  | limb (s : LimbSystem K)
  | leg (s : LegSystem K)

/-- The class `Creature` (script.js 340-464): the root of the tree. -/
structure Creature (K : Type) where
  x : K
  y : K
  absAngle : K
  fSpeed : K
  fAccel : K
  fFric : K
  fRes : K
  fThresh : K
  rSpeed : K
  rAccel : K
  rFric : K
  rRes : K
  rThresh : K
  speed : K
  children : List Nat
  systems : List (System K)

/-- The heap: the one Creature, the Segment objects by id, and the global
counter `segmentCount` (ids `0 .. segmentCount - 1` are in use). -/
structure World (K : Type) where
  creature : Creature K
  segs : Nat → Segment K
  segmentCount : Nat

section Defs

variable {K : Type} [LinearOrderedField K] [FloorRing K]

/-- JavaScript `a / b` for a divisor that is a program variable. -/
def jsDiv (a b : K) : Except Fault K :=
  if b = 0 then .error .divByZero else .ok (a / b)

/-- The field `x` of the node a reference points to. -/
def World.nodeX (w : World K) : Ref → K
  | .creature => w.creature.x
  | .seg i => (w.segs i).x

/-- The field `y` of the node a reference points to. -/
def World.nodeY (w : World K) : Ref → K
  | .creature => w.creature.y
  | .seg i => (w.segs i).y

/-- The field `absAngle` of the node a reference points to. -/
def World.nodeAbsAngle (w : World K) : Ref → K
  | .creature => w.creature.absAngle
  | .seg i => (w.segs i).absAngle

/-- Overwrite the Segment object with id `i`. -/
def World.setSeg (w : World K) (i : Nat) (s : Segment K) : World K :=
  { w with segs := Function.update w.segs i s }

/-- Run `f c` for every `c` of a list in order, threading the heap: the loop
`for (var i = 0; i < this.children.length; i++) this.children[i].f(...)`. -/
def forEach (f : Nat → World K → Except Fault (World K)) :
    List Nat → World K → Except Fault (World K)
  | [], w => .ok w
  | c :: cs, w =>
    match f c w with
    | .error e => .error e
    | .ok w1 => forEach f cs w1

/-- The wrap of `updateRelative` (script.js 125-129): `relAngle` minus the
multiple of `2 * PI` that brings it next to `defAngle`. -/
def wrapRel (M : JSMath K) (s : Segment K) : K :=
  s.relAngle - 2 * M.PI * ((⌊(s.relAngle - s.defAngle) / 2 / M.PI + 1 / 2⌋ : ℤ) : K)

/-- The new `relAngle` of `updateRelative` (script.js 125-140): the wrap, and
under `flex` the pull by `1 / stiffness` followed by the clamp to the range. -/
def newRel (M : JSMath K) (s : Segment K) (flex : Bool) : Except Fault K :=
  if flex then
    match jsDiv (wrapRel M s - s.defAngle) s.stiffness with
    | .error e => .error e
    | .ok q => .ok (min (s.defAngle + s.range / 2) (max (s.defAngle - s.range / 2) (q + s.defAngle)))
  else .ok (wrapRel M s)

/-- The body of `updateRelative` before its loop (script.js 125-145): the new
`relAngle`, then `absAngle` and `(x, y)` from the parent. -/
def updateSelf (M : JSMath K) (i : Nat) (flex : Bool) (w : World K) : Except Fault (World K) :=
  let s := w.segs i
  match newRel M s flex with
  | .error e => .error e
  | .ok r =>
    let a := w.nodeAbsAngle s.parent + r
    .ok (w.setSeg i { s with
      relAngle := r
      absAngle := a
      x := w.nodeX s.parent + M.cos a * s.size
      y := w.nodeY s.parent + M.sin a * s.size })

/-- The method `Segment.updateRelative(iter, flex)` (script.js 123-152) of
segment `i`. -/
def updateRelative (M : JSMath K) : Nat → Nat → Bool → Bool → World K → Except Fault (World K)
  | 0, _, _, _, _ => .error .outOfFuel
  | fuel + 1, i, iter, flex, w =>
    match updateSelf M i flex w with
    | .error e => .error e
    | .ok w1 =>
      if iter then
        forEach (fun c w2 => updateRelative M fuel c iter flex w2) (w1.segs i).children w1
      else .ok w1

/-- The body of `Segment.follow` before the call of `updateRelative`
(script.js 176-183): the end is put at distance `size` from the parent along
the current direction and the angles are read off. -/
def followSelf (M : JSMath K) (i : Nat) (w : World K) : Except Fault (World K) :=
  let s := w.segs i
  let x := w.nodeX s.parent
  let y := w.nodeY s.parent
  let dist := M.sqrt ((s.x - x) ^ 2 + (s.y - y) ^ 2)
  match jsDiv (s.size * (s.x - x)) dist, jsDiv (s.size * (s.y - y)) dist with
  | .ok dx, .ok dy =>
    let nx := x + dx
    let ny := y + dy
    let a := M.atan2 (ny - y) (nx - x)
    .ok (w.setSeg i { s with
      x := nx
      y := ny
      absAngle := a
      relAngle := a - w.nodeAbsAngle s.parent })
  | .error e, _ => .error e
  | _, .error e => .error e

/-- The method `Segment.follow(iter)` (script.js 175-192) of segment `i`. -/
def follow (M : JSMath K) : Nat → Nat → Bool → World K → Except Fault (World K)
  | 0, _, _, _ => .error .outOfFuel
  | fuel + 1, i, iter, w =>
    match followSelf M i w with
    | .error e => .error e
    | .ok w1 =>
      match updateRelative M 1 i false true w1 with
      | .error e => .error e
      | .ok w2 =>
        if iter then
          forEach (fun c w3 => follow M fuel c true w3) (w2.segs i).children w2
        else .ok w2

/-- What `follow` does to its own segment: `followSelf`, then the call
`this.updateRelative(false, true)` (script.js 176-185). -/
def followStep (M : JSMath K) (i : Nat) (w : World K) : Except Fault (World K) :=
  match followSelf M i w with
  | .error e => .error e
  | .ok w1 => updateRelative M 1 i false true w1

/-- The recursion scheme that `updateRelative` and `follow` share, with the
work on the segment itself as a parameter: `self` on segment `i`, then, when
`iter`, the same pass on each child (`updateRelative_eq_treePass`,
`follow_eq_treePass`). -/
def treePass (self : Nat → World K → Except Fault (World K)) :
    Nat → Nat → Bool → World K → Except Fault (World K)
  | 0, _, _, _ => .error .outOfFuel
  | fuel + 1, i, iter, w =>
    match self i w with
    | .error e => .error e
    | .ok w1 =>
      if iter then
        forEach (fun c w2 => treePass self fuel c iter w2) (w1.segs i).children w1
      else .ok w1

/-- The loop of the `LimbSystem` constructor (script.js 213-221).  `k` counts
the iterations still allowed by `i < length`; `node` is the loop variable
`node`, `nodes` is `this.nodes` and `len` is `this.length`.  The result is
`this.nodes` and `this.length` after the loop. -/
def collectNodes (w : World K) : Nat → Nat → Nat → List Nat → Int → List Nat × Int
  | 0, _, _, nodes, len => (nodes, len)
  | k + 1, i, node, nodes, len =>
    match (w.segs node).parent with
    | .creature => (node :: nodes, (i : Int) + 1)
    | .seg p => collectNodes w k (i + 1) p (node :: nodes) len

/-- The constructor `new LimbSystem(end, length, speed, creature)` (script.js
203-224) for an integer `length`: the new object, and the heap in which it has
been pushed onto `creature.systems`.  With no node collected `this.nodes[0]`
is undefined and reading its `parent` throws. -/
def LimbSystem.new (endSeg : Nat) (length : Int) (speed : K) (w : World K) :
    Except Fault (LimbSystem K × World K) :=
  let r := collectNodes w length.toNat 0 endSeg [] (max 1 length)
  match r.1 with
  | [] => .error .typeError
  | n0 :: rest =>
    let sys : LimbSystem K :=
      { endSeg := endSeg
        length := r.2
        speed := speed
        nodes := n0 :: rest
        hip := (w.segs n0).parent }
    .ok (sys, { w with creature := { w.creature with systems := w.creature.systems ++ [System.limb sys] } })

/-- The first loop of `moveTo` (script.js 239-247) over the nodes still to be
placed, tip first; `x`, `y` and `len` are the loop's variables. -/
def placeNodes (M : JSMath K) : List Nat → K → K → K → World K → World K
  | [], _, _, _, w => w
  | i :: rest, x, y, len, w =>
    let node := w.segs i
    let ang := M.atan2 (node.y - y) (node.x - x)
    let nx := x + len * M.cos ang
    let ny := y + len * M.sin ang
    placeNodes M rest nx ny node.size (w.setSeg i { node with x := nx, y := ny })

/-- The second loop of `moveTo` (script.js 250-260) over the nodes still to be
visited, root first; `nodes` is `this.nodes`. -/
def rederive (M : JSMath K) (nodes : List Nat) : List Nat → World K → Except Fault (World K)
  | [], w => .ok w
  | i :: rest, w =>
    let node := w.segs i
    let a := M.atan2 (node.y - w.nodeY node.parent) (node.x - w.nodeX node.parent)
    let w1 := w.setSeg i { node with absAngle := a, relAngle := a - w.nodeAbsAngle node.parent }
    match forEach (fun c w2 =>
        if c ∈ nodes then .ok w2 else updateRelative M (w2.segmentCount + 1) c true false w2)
        node.children w1 with
    | .error e => .error e
    | .ok w3 => rederive M nodes rest w3

/-- The method `LimbSystem.moveTo(x, y)` (script.js 231-261). -/
def LimbSystem.moveTo (M : JSMath K) (sys : LimbSystem K) (x y : K) (w : World K) :
    Except Fault (World K) :=
  match sys.nodes with
  | [] => .error .typeError
  | n0 :: _ =>
    match updateRelative M (w.segmentCount + 1) n0 true true w with
    | .error e => .error e
    | .ok w1 =>
      let e := w1.segs sys.endSeg
      let dist := M.sqrt ((x - e.x) ^ 2 + (y - e.y) ^ 2)
      let len := max 0 (dist - sys.speed)
      rederive M sys.nodes sys.nodes (placeNodes M sys.nodes.reverse x y len w1)

/-- The method `LegSystem.update` (script.js 295-333); `r1` and `r2` are the
values of the two calls of `Math.random()` of the STANDING branch. -/
def LegSystem.update (M : JSMath K) (r1 r2 : K) (sys : LegSystem K) (w : World K) :
    Except Fault (LegSystem K × World K) :=
  match sys.toLimbSystem.moveTo M sys.goalX sys.goalY w with
  | .error e => .error e
  | .ok w1 =>
    let e := w1.segs sys.endSeg
    if sys.step = 0 then
      let dist := M.sqrt ((e.x - sys.goalX) ^ 2 + (e.y - sys.goalY) ^ 2)
      if dist > 1 then
        .ok ({ sys with
          step := 1
          goalX := w1.nodeX sys.hip
            + sys.reach * M.cos (sys.swing + w1.nodeAbsAngle sys.hip + sys.swingOffset)
            + (2 * r1 - 1) * sys.reach / 2
          goalY := w1.nodeY sys.hip
            + sys.reach * M.sin (sys.swing + w1.nodeAbsAngle sys.hip + sys.swingOffset)
            + (2 * r2 - 1) * sys.reach / 2 }, w1)
      else .ok (sys, w1)
    else if sys.step = 1 then
      let theta := M.atan2 (e.y - w1.nodeY sys.hip) (e.x - w1.nodeX sys.hip) - w1.nodeAbsAngle sys.hip
      let dist := M.sqrt ((e.x - w1.nodeX sys.hip) ^ 2 + (e.y - w1.nodeY sys.hip) ^ 2)
      let forwardness2 := dist * M.cos theta
      let dF := sys.forwardness - forwardness2
      if dF * dF < 1 then
        .ok ({ sys with
          forwardness := forwardness2
          step := 0
          goalX := w1.nodeX sys.hip + (e.x - w1.nodeX sys.hip)
          goalY := w1.nodeY sys.hip + (e.y - w1.nodeY sys.hip) }, w1)
      else .ok ({ sys with forwardness := forwardness2 }, w1)
    else .ok (sys, w1)

/-- The constructor `new LegSystem(end, length, speed, creature)` (script.js
274-293) for an integer `length`: the LimbSystem constructor, then the gait
state.  The object pushed onto `creature.systems` is the LegSystem. -/
def LegSystem.new (M : JSMath K) (endSeg : Nat) (length : Int) (speed : K) (w : World K) :
    Except Fault (LegSystem K × World K) :=
  match LimbSystem.new endSeg length speed w with
  | .error e => .error e
  | .ok (limb, _) =>
    let e := w.segs endSeg
    let hx := w.nodeX limb.hip
    let hy := w.nodeY limb.hip
    let relAngle0 := w.creature.absAngle - M.atan2 (e.y - hy) (e.x - hx)
    let relAngle := relAngle0 - 2 * M.PI * ((⌊relAngle0 / 2 / M.PI + 1 / 2⌋ : ℤ) : K)
    let leg : LegSystem K :=
      { toLimbSystem := limb
        goalX := e.x
        goalY := e.y
        step := 0
        forwardness := 0
        reach := 9 / 10 * M.sqrt ((e.x - hx) ^ 2 + (e.y - hy) ^ 2)
        swing := -relAngle + (2 * (if relAngle < 0 then 1 else 0) - 1) * M.PI / 2
        swingOffset := w.creature.absAngle - w.nodeAbsAngle limb.hip }
    .ok (leg, { w with creature := { w.creature with systems := w.creature.systems ++ [System.leg leg] } })

/-- The value of `this.systems[i].step == 0` added to `sum` in
`Creature.follow` (script.js 391): 1 for a LegSystem whose `step` is 0, and 0
otherwise; a plain LimbSystem has no `step`, and `undefined == 0` is false. -/
def System.standing : System K → K
  | .limb _ => 0
  | .leg s => if s.step = 0 then 1 else 0

/-- The system is a LegSystem whose `step` is 0 (STANDING). -/
def System.isStanding : System K → Bool
  | .limb _ => false
  | .leg s => s.step == 0

/-- The variable `dist` of `Creature.follow` (script.js 383). -/
def Creature.targetDist (M : JSMath K) (c : Creature K) (x y : K) : K :=
  M.sqrt ((c.x - x) ^ 2 + (c.y - y) ^ 2)

/-- The variable `accel` of `Creature.follow` (script.js 387-394). -/
def Creature.accel (c : Creature K) : K :=
  if c.systems.length > 0 then
    c.fAccel * (c.systems.foldl (fun sum s => sum + s.standing) 0 / (c.systems.length : K))
  else c.fAccel

/-- The field `fSpeed` after script.js 395-396. -/
def Creature.newFSpeed (M : JSMath K) (c : Creature K) (x y : K) : K :=
  (c.fSpeed + c.accel * (if c.targetDist M x y > c.fThresh then 1 else 0)) * (1 - c.fRes)

/-- The variable `dif` of `Creature.follow` after its wrap (script.js 400-401). -/
def Creature.headingError (M : JSMath K) (c : Creature K) (x y : K) : K :=
  let dif := c.absAngle - M.atan2 (y - c.y) (x - c.x)
  dif - 2 * M.PI * ((⌊dif / (2 * M.PI) + 1 / 2⌋ : ℤ) : K)

/-- The field `rSpeed` after the rotational acceleration and the resistance
(script.js 402-405). -/
def Creature.turnedRSpeed (M : JSMath K) (c : Creature K) (x y : K) : K :=
  (if |c.headingError M x y| > c.rThresh ∧ c.targetDist M x y > c.fThresh then
    c.rSpeed - c.rAccel * (2 * (if c.headingError M x y > 0 then 1 else 0) - 1)
  else c.rSpeed) * (1 - c.rRes)

/-- The field `rSpeed` after the friction floor (script.js 406-410). -/
def Creature.newRSpeed (M : JSMath K) (c : Creature K) (x y : K) : K :=
  if |c.turnedRSpeed M x y| > c.rFric then
    c.turnedRSpeed M x y - c.rFric * (2 * (if c.turnedRSpeed M x y > 0 then 1 else 0) - 1)
  else 0

/-- The field `absAngle` after script.js 413-414. -/
def Creature.newHeading (M : JSMath K) (c : Creature K) (x y : K) : K :=
  let a := c.absAngle + c.newRSpeed M x y
  a - 2 * M.PI * ((⌊a / (2 * M.PI) + 1 / 2⌋ : ℤ) : K)

/-- The Creature after the body integration of `Creature.follow` (script.js
383-416). -/
def Creature.integrate (M : JSMath K) (c : Creature K) (x y : K) : Creature K :=
  let speed := max 0 (c.newFSpeed M x y - c.fFric)
  { c with
    fSpeed := c.newFSpeed M x y
    speed := speed
    rSpeed := c.newRSpeed M x y
    absAngle := c.newHeading M x y
    x := c.x + speed * M.cos (c.newHeading M x y)
    y := c.y + speed * M.sin (c.newHeading M x y) }

/-- The call `this.systems[i].update(x, y)`: a plain LimbSystem moves to the
mouse position `Input.mouse` (script.js 263-266), a LegSystem runs its gait
with the two random draws `draw`. -/
def System.update (M : JSMath K) (mouse draw : K × K) (s : System K) (w : World K) :
    Except Fault (System K × World K) :=
  match s with
  | .limb l =>
    match l.moveTo M mouse.1 mouse.2 w with
    | .error e => .error e
    | .ok w1 => .ok (System.limb l, w1)
  | .leg l =>
    match l.update M draw.1 draw.2 w with
    | .error e => .error e
    | .ok (l1, w1) => .ok (System.leg l1, w1)

/-- The loop over `this.systems` of `Creature.follow` (script.js 423-425) from
index `i` on: the updated systems and the heap; `draws i` are the random draws
of system `i`. -/
def updateSystems (M : JSMath K) (mouse : K × K) (draws : Nat → K × K) :
    Nat → List (System K) → World K → Except Fault (List (System K) × World K)
  | _, [], w => .ok ([], w)
  | i, s :: rest, w =>
    match s.update M mouse (draws i) w with
    | .error e => .error e
    | .ok (s1, w1) =>
      match updateSystems M mouse draws (i + 1) rest w1 with
      | .error e => .error e
      | .ok (rest1, w2) => .ok (s1 :: rest1, w2)

/-- The method `Creature.follow(x, y)` (script.js 382-430) without its drawing:
the body integration, then with `absAngle` raised by `PI` the call
`follow(true, true)` on every child and `update` on every system, then
`absAngle` lowered by `PI`. -/
def Creature.follow (M : JSMath K) (mouse : K × K) (draws : Nat → K × K) (x y : K)
    (w : World K) : Except Fault (World K) :=
  let c1 := w.creature.integrate M x y
  let w1 : World K := { w with creature := { c1 with absAngle := c1.absAngle + M.PI } }
  match forEach (fun c w2 => Cursor.follow M (w2.segmentCount + 1) c true w2)
      w1.creature.children w1 with
  | .error e => .error e
  | .ok w2 =>
    match updateSystems M mouse draws 0 w2.creature.systems w2 with
    | .error e => .error e
    | .ok (systems, w3) =>
      .ok { w3 with creature := { w3.creature with
        systems := systems
        absAngle := w3.creature.absAngle - M.PI } }

/-- The variable `forwardness2` of `LegSystem.update` (script.js 319-324) in
the heap `w1` that `moveTo` left: the hip-to-end distance times the cosine of
the direction of the hip-to-end vector minus `hip.absAngle`. -/
def LegSystem.forwardness2 (M : JSMath K) (sys : LegSystem K) (w1 : World K) : K :=
  let e := w1.segs sys.endSeg
  let theta := M.atan2 (e.y - w1.nodeY sys.hip) (e.x - w1.nodeX sys.hip) - w1.nodeAbsAngle sys.hip
  let dist := M.sqrt ((e.x - w1.nodeX sys.hip) ^ 2 + (e.y - w1.nodeY sys.hip) ^ 2)
  dist * M.cos theta

/-! ### Specification vocabulary -/

/-- What the theorems assume of the `Math` functions: they are the exact real
functions. -/
structure JSMath.Exact (M : JSMath K) : Prop where
  pi_pos : 0 < M.PI
  cos_sq_add_sin_sq : ∀ a, M.cos a ^ 2 + M.sin a ^ 2 = 1
  cos_zero : M.cos 0 = 1
  sin_zero : M.sin 0 = 0
  cos_pi : M.cos M.PI = -1
  sin_pi : M.sin M.PI = 0
  sqrt_nonneg : ∀ a, 0 ≤ M.sqrt a
  sq_sqrt : ∀ a, 0 ≤ a → M.sqrt a ^ 2 = a
  sqrt_mul_cos_atan2 : ∀ x y, M.sqrt (x ^ 2 + y ^ 2) * M.cos (M.atan2 y x) = x
  sqrt_mul_sin_atan2 : ∀ x y, M.sqrt (x ^ 2 + y ^ 2) * M.sin (M.atan2 y x) = y
  atan2_zero_neg : ∀ x, x < 0 → M.atan2 0 x = M.PI
  atan2_zero_pos : ∀ x, 0 < x → M.atan2 0 x = 0

/-- Segment `j` is `i` or is reached from `i` along `children` links. -/
inductive Desc (w : World K) : Nat → Nat → Prop
  | refl (i : Nat) : Desc w i i
  | step {i c j : Nat} : c ∈ (w.segs i).children → Desc w c j → Desc w i j

/-- The heap is a forest as the `Segment` constructor builds it: a child's
`parent` is the segment in whose `children` it is, children are segments in
use, and a segment is created after its parent. -/
structure World.WF (w : World K) : Prop where
  child_parent : ∀ p c, c ∈ (w.segs p).children → (w.segs c).parent = Ref.seg p
  child_lt : ∀ p c, c ∈ (w.segs p).children → c < w.segmentCount
  parent_lt : ∀ j q, (w.segs j).parent = Ref.seg q → q < j

/-- The list `nodes` is a parent chain hanging from `hip`. -/
def IsChain (w : World K) : Ref → List Nat → Prop
  | _, [] => True
  | h, n :: ns => (w.segs n).parent = h ∧ IsChain w (Ref.seg n) ns

/-- The invariant of a LimbSystem in a heap: `nodes` is a non-empty parent
chain from `hip` whose last element is `end`. -/
structure LimbSystem.WF (sys : LimbSystem K) (w : World K) : Prop where
  chain : IsChain w sys.hip sys.nodes
  last : sys.nodes.getLast? = some sys.endSeg

/-- The distance `((x1 - x2) ** 2 + (y1 - y2) ** 2) ** 0.5` of two points. -/
def distance (M : JSMath K) (x1 y1 x2 y2 : K) : K :=
  M.sqrt ((x1 - x2) ^ 2 + (y1 - y2) ^ 2)

/-- The Segment invariant of the specification for segment `i`: `absAngle` is
the parent's plus `relAngle`, and `(x, y)` is the parent's position moved by
`size` in direction `absAngle`. -/
def Consistent (M : JSMath K) (w : World K) (i : Nat) : Prop :=
  let s := w.segs i
  s.absAngle = w.nodeAbsAngle s.parent + s.relAngle ∧
  s.x = w.nodeX s.parent + s.size * M.cos s.absAngle ∧
  s.y = w.nodeY s.parent + s.size * M.sin s.absAngle

/-- The heap `w2` differs from `w1` only in the mutable fields `relAngle`,
`absAngle`, `x`, `y` of segments. -/
structure SameShape (w1 w2 : World K) : Prop where
  creature : w2.creature = w1.creature
  count : w2.segmentCount = w1.segmentCount
  parent : ∀ j, (w2.segs j).parent = (w1.segs j).parent
  children : ∀ j, (w2.segs j).children = (w1.segs j).children
  size : ∀ j, (w2.segs j).size = (w1.segs j).size
  defAngle : ∀ j, (w2.segs j).defAngle = (w1.segs j).defAngle
  range : ∀ j, (w2.segs j).range = (w1.segs j).range
  stiffness : ∀ j, (w2.segs j).stiffness = (w1.segs j).stiffness

/-- The range-clamp interval: `relAngle` is in
`[defAngle - range / 2, defAngle + range / 2]`. -/
def InRange (s : Segment K) : Prop :=
  s.defAngle - s.range / 2 ≤ s.relAngle ∧ s.relAngle ≤ s.defAngle + s.range / 2

/-- The wrap interval as the specification gives it: `relAngle` is in
`(defAngle - PI, defAngle + PI]`. -/
def InWrapSpec (M : JSMath K) (s : Segment K) : Prop :=
  s.defAngle - M.PI < s.relAngle ∧ s.relAngle ≤ s.defAngle + M.PI

/-- The image of the wrap of `updateRelative` in exact arithmetic: `relAngle`
is in `[defAngle - PI, defAngle + PI)`. -/
def InWrap (M : JSMath K) (s : Segment K) : Prop :=
  s.defAngle - M.PI ≤ s.relAngle ∧ s.relAngle < s.defAngle + M.PI

/-- The rigid-length invariant for segment `i`: its end is at distance `size`
from its parent's position. -/
def AtLength (M : JSMath K) (w : World K) (i : Nat) : Prop :=
  distance M (w.segs i).x (w.segs i).y (w.nodeX (w.segs i).parent) (w.nodeY (w.segs i).parent)
    = (w.segs i).size

/-- The angles of segment `i` are read off the positions: `absAngle` is the
direction from the parent's position to the segment's end, and `relAngle` is
`absAngle - parent.absAngle`. -/
def AnglesFromPosition (M : JSMath K) (w : World K) (i : Nat) : Prop :=
  let s := w.segs i
  s.absAngle = M.atan2 (s.y - w.nodeY s.parent) (s.x - w.nodeX s.parent) ∧
  s.relAngle = s.absAngle - w.nodeAbsAngle s.parent

/-- Segment `j` is `d` Segment links below the Creature. -/
inductive HasDepth (w : World K) : Nat → Nat → Prop
  | root {j : Nat} : (w.segs j).parent = Ref.creature → HasDepth w j 1
  | link {j p d : Nat} : (w.segs j).parent = Ref.seg p → HasDepth w p d → HasDepth w j (d + 1)

/-- The work of a pass on one segment changes that segment only, and only its
mutable fields. -/
def LocalStep (self : Nat → World K → Except Fault (World K)) : Prop :=
  ∀ i w w1, self i w = .ok w1 → SameShape w w1 ∧ ∀ j, j ≠ i → w1.segs j = w.segs j

/-- A property of a segment in a heap that is read off the segment and the
node its `parent` points to. -/
def LocalProp (R : World K → Nat → Prop) : Prop :=
  ∀ w w' j, SameShape w w' → w'.segs j = w.segs j →
    (∀ q, (w.segs j).parent = Ref.seg q → w'.segs q = w.segs q) → R w j → R w' j

/-- The `relAngle` that `Segment.follow` leaves on a segment `s` whose parent
is at `(px, py)` with `absAngle` `pa` (script.js 176-185): the direction from
the parent's position to the end of `s`, put at distance `size`, minus `pa`,
and then the rule of `updateRelative` under `flex`.  The field `relAngle` of
`s` is not read. -/
def followRel (M : JSMath K) (s : Segment K) (px py pa : K) : Except Fault K :=
  let dist := M.sqrt ((s.x - px) ^ 2 + (s.y - py) ^ 2)
  match jsDiv (s.size * (s.x - px)) dist, jsDiv (s.size * (s.y - py)) dist with
  | .ok dx, .ok dy =>
    newRel M { s with relAngle := M.atan2 (py + dy - py) (px + dx - px) - pa } true
  | .error e, _ => .error e
  | _, .error e => .error e

/-- The heap as the children of the Creature see it during the loops of
`Creature.follow`: the heading raised by `PI` (script.js 418). -/
def World.raised (M : JSMath K) (w : World K) : World K :=
  { w with creature := { w.creature with absAngle := w.creature.absAngle + M.PI } }

/-- The lists of children are as the `Segment` constructor builds them: every
child of the Creature has the Creature as `parent`, and no list of children
holds a segment twice. -/
structure World.Forest (w : World K) : Prop where
  roots : ∀ c ∈ w.creature.children, (w.segs c).parent = Ref.creature
  roots_nodup : w.creature.children.Nodup
  children_nodup : ∀ p, (w.segs p).children.Nodup

/-- Segment `j` is in `wnew` as the work `self` of a pass leaves it when it
runs on a heap in which `j` is as in `wold` and the segment its `parent`
points to is as in `wnew`. -/
def Visited (self : Nat → World K → Except Fault (World K)) (wold wnew : World K) (j : Nat) :
    Prop :=
  ∃ wa wb, self j wa = .ok wb ∧ SameShape wold wa ∧ wa.segs j = wold.segs j ∧
    (∀ q, (wold.segs j).parent = Ref.seg q → wa.segs q = wnew.segs q) ∧
    wnew.segs j = wb.segs j

/-! ### Rounding -/

/-- What is assumed of the rounding `fl` of an exact result to a JavaScript
number: the relative error is at most the unit roundoff `u` (`2 ^ -53` for
IEEE doubles, barring overflow and underflow), and `u ≤ 1 / 16`.  The identity
with `u = 0` is exact arithmetic. -/
structure Rounding (fl : K → K) (u : K) : Prop where
  u_nonneg : 0 ≤ u
  u_small : u ≤ 1 / 16
  err : ∀ x, |fl x - x| ≤ u * |x|

/-- The wrap of `updateRelative` (script.js 125-129) with the result of every
arithmetic operation rounded by `fl`; `Math.floor` and the literal `1 / 2` are
exact. -/
def wrapRelFl (M : JSMath K) (fl : K → K) (s : Segment K) : K :=
  fl (s.relAngle - fl (fl (2 * M.PI)
    * ((⌊fl (fl (fl (fl (s.relAngle - s.defAngle) / 2) / M.PI) + 1 / 2)⌋ : ℤ) : K)))

/-- The new `relAngle` of `updateRelative` (script.js 125-140) with the result
of every arithmetic operation rounded by `fl`; `Math.min` and `Math.max` are
exact. -/
def newRelFl (M : JSMath K) (fl : K → K) (s : Segment K) (flex : Bool) : Except Fault K :=
  if flex then
    match jsDiv (fl (wrapRelFl M fl s - s.defAngle)) s.stiffness with
    | .error e => .error e
    | .ok q => .ok (min (fl (s.defAngle + fl (s.range / 2)))
        (max (fl (s.defAngle - fl (s.range / 2))) (fl (fl q + s.defAngle))))
  else .ok (wrapRelFl M fl s)

/-- The field `absAngle` that `Creature.follow` leaves (script.js 413-414, 418,
426) for the new angular speed `rSpeed`, with the result of every arithmetic
operation rounded by `fl`: the heading is advanced and wrapped, raised by `PI`
for the loops over the children and the systems, and lowered by `PI`. -/
def Creature.newHeadingFl (M : JSMath K) (fl : K → K) (c : Creature K) (rSpeed : K) : K :=
  let a := fl (c.absAngle + rSpeed)
  let b := fl (a - fl (fl (2 * M.PI) * ((⌊fl (fl (a / fl (2 * M.PI)) + 1 / 2)⌋ : ℤ) : K)))
  fl (fl (b + M.PI) - M.PI)

/-- The body of `updateRelative` before its loop (script.js 125-145) with the
result of every arithmetic operation rounded by `fl`; `Math.cos` and
`Math.sin` are the functions of `M`. -/
def updateSelfFl (M : JSMath K) (fl : K → K) (i : Nat) (flex : Bool) (w : World K) :
    Except Fault (World K) :=
  let s := w.segs i
  match newRelFl M fl s flex with
  | .error e => .error e
  | .ok r =>
    let a := fl (w.nodeAbsAngle s.parent + r)
    .ok (w.setSeg i { s with
      relAngle := r
      absAngle := a
      x := fl (w.nodeX s.parent + fl (M.cos a * s.size))
      y := fl (w.nodeY s.parent + fl (M.sin a * s.size)) })

/-- The method `Segment.updateRelative(iter, flex)` (script.js 123-152) of
segment `i` with the result of every arithmetic operation rounded by `fl`. -/
def updateRelativeFl (M : JSMath K) (fl : K → K) :
    Nat → Nat → Bool → Bool → World K → Except Fault (World K)
  | 0, _, _, _, _ => .error .outOfFuel
  | fuel + 1, i, iter, flex, w =>
    match updateSelfFl M fl i flex w with
    | .error e => .error e
    | .ok w1 =>
      if iter then
        forEach (fun c w2 => updateRelativeFl M fl fuel c iter flex w2) (w1.segs i).children w1
      else .ok w1

/-! ### Concrete heaps -/

/-- A Creature at the origin heading along the x axis, at rest, owning the
given children and no systems. -/
def Creature.atOrigin (children : List Nat) : Creature K :=
  { x := 0, y := 0, absAngle := 0, fSpeed := 0, fAccel := 0, fFric := 0, fRes := 0, fThresh := 0,
    rSpeed := 0, rAccel := 0, rFric := 0, rRes := 0, rThresh := 0, speed := 0,
    children := children, systems := [] }

/-- The heap with one segment, id 0, hanging from a Creature at the origin;
its numeric fields are those of `s`. -/
def World.single (s : Segment K) : World K :=
  { creature := Creature.atOrigin [0]
    segs := fun _ => { s with parent := Ref.creature, children := [] }
    segmentCount := 1 }

/-- The heap with two segments in a chain: 0 hangs from a Creature at the
origin and 1 hangs from 0; their numeric fields are those of `s0` and `s1`. -/
def World.chain2 (s0 s1 : Segment K) : World K :=
  { creature := Creature.atOrigin [0]
    segs := fun j =>
      if j = 0 then { s0 with parent := Ref.creature, children := [1] }
      else if j = 1 then { s1 with parent := Ref.seg 0, children := [] }
      else { s1 with parent := Ref.creature, children := [] }
    segmentCount := 2 }

/-- A segment as `new Segment(creature, size, 0, range, stiffness)` leaves it
below a Creature at the origin: at rest along the x axis from `x0`. -/
def Segment.atRest (x0 size range stiffness : K) : Segment K :=
  { parent := Ref.creature, children := [], size := size, relAngle := 0, defAngle := 0,
    absAngle := 0, range := range, stiffness := stiffness, x := x0 + size, y := 0 }

/-- A segment with rest angle 0 whose `relAngle` is `r`, of size `size`,
not yet positioned. -/
def Segment.turned (r size range stiffness : K) : Segment K :=
  { parent := Ref.creature, children := [], size := size, relAngle := r, defAngle := 0,
    absAngle := r, range := range, stiffness := stiffness, x := 0, y := 0 }

/-- Scenario A of the specification: a single Segment below a Creature at
the origin with heading 0, of size 10, rest angle 0, range `PI`, stiffness 1,
whose `relAngle` has been set to `PI / 4`. -/
def scenarioA (M : JSMath K) : World K :=
  World.single (Segment.turned (M.PI / 4) 10 M.PI 1)

/-- Scenario B of the specification: two chain segments of size 5 at rest
angle 0 below a Creature at the origin with heading 0, so that the end starts
at `(10, 0)`. -/
def scenarioB (range stiffness : K) : World K :=
  World.chain2 (Segment.atRest 0 5 range stiffness) (Segment.atRest 5 5 range stiffness)

/-- The LimbSystem of Scenario B, as `new LimbSystem(end, 2, 100, creature)`
builds it over `scenarioB`. -/
def scenarioBLimb : LimbSystem K :=
  { endSeg := 1, length := 2, speed := 100, nodes := [0, 1], hip := Ref.creature }

/-- A LegSystem over the chain of Scenario B, standing, whose goal is the rest
position `(10, 0)` of its end effector. -/
def scenarioBLeg : LegSystem K :=
  { endSeg := 1, length := 2, speed := 100, nodes := [0, 1], hip := Ref.creature,
    goalX := 10, goalY := 0, step := 0, forwardness := 0, reach := 9, swing := 0,
    swingOffset := 0 }

/-- The leg of `scenarioBLeg` in the middle of a step. -/
def scenarioBStepping : LegSystem K :=
  { (scenarioBLeg : LegSystem K) with step := 1 }

/-- A Creature at the origin whose heading is exactly `-PI`, at rest, with no
segments and no systems. -/
def headingEdge (M : JSMath K) : World K :=
  { creature := { (Creature.atOrigin [] : Creature K) with absAngle := -M.PI }
    segs := fun _ => Segment.atRest 0 1 1 1
    segmentCount := 0 }

/-- A Creature at rest at the origin with heading 0, rotational acceleration 1
and the negative threshold `rThresh == -1`, with no segments and no systems. -/
def eagerTurner : World K :=
  { creature := { (Creature.atOrigin [] : Creature K) with rAccel := 1, rThresh := -1 }
    segs := fun _ => Segment.atRest 0 1 1 1
    segmentCount := 0 }

/-- A tentacle: one segment of size 1 at rest below a Creature at the origin
with forward acceleration 1, carrying one plain LimbSystem of length 1, as
`new LimbSystem(end, 1, 1, creature)` builds it. -/
def tentacle : World K :=
  { creature := { (Creature.atOrigin [0] : Creature K) with
      fAccel := 1
      systems := [System.limb
        { endSeg := 0, length := 1, speed := 1, nodes := [0], hip := Ref.creature }] }
    segs := fun _ => { (Segment.atRest 0 1 1 1 : Segment K) with
      parent := Ref.creature, children := [] }
    segmentCount := 1 }

end Defs

/-- The `Math` functions over the real numbers. -/
noncomputable def realMath : JSMath ℝ where
  PI := Real.pi
  cos := Real.cos
  sin := Real.sin
  atan2 := fun y x => Complex.arg ⟨x, y⟩
  sqrt := Real.sqrt

/-! ## Theorems -/

section Lemmas

/-- The real functions are exact. -/
theorem realMath_exact : realMath.Exact where
  pi_pos := Real.pi_pos
  cos_sq_add_sin_sq := fun a => Real.cos_sq_add_sin_sq a
  cos_zero := Real.cos_zero
  sin_zero := Real.sin_zero
  cos_pi := Real.cos_pi
  sin_pi := Real.sin_pi
  sqrt_nonneg := fun a => Real.sqrt_nonneg a
  sq_sqrt := fun a h => Real.sq_sqrt h
  sqrt_mul_cos_atan2 := fun x y => by
    have h := Complex.abs_mul_cos_arg (⟨x, y⟩ : ℂ)
    simpa [realMath, Complex.abs_apply, Complex.normSq_apply, sq] using h
  sqrt_mul_sin_atan2 := fun x y => by
    have h := Complex.abs_mul_sin_arg (⟨x, y⟩ : ℂ)
    simpa [realMath, Complex.abs_apply, Complex.normSq_apply, sq] using h
  atan2_zero_neg := fun x hx => by
    have h : (⟨x, 0⟩ : ℂ) = ((x : ℝ) : ℂ) := rfl
    simp only [realMath, h]
    exact Complex.arg_ofReal_of_neg hx
  atan2_zero_pos := fun x hx => by
    have h : (⟨x, 0⟩ : ℂ) = ((x : ℝ) : ℂ) := rfl
    simp only [realMath, h]
    exact Complex.arg_ofReal_of_nonneg hx.le

end Lemmas

/-! ### The heap and the loop over children -/

section Heap

variable {K : Type}

theorem setSeg_segs_self (w : World K) (i : Nat) (s : Segment K) :
    (w.setSeg i s).segs i = s := by
  simp [World.setSeg]

theorem setSeg_segs_ne (w : World K) {i j : Nat} (s : Segment K) (h : j ≠ i) :
    (w.setSeg i s).segs j = w.segs j := by
  simp [World.setSeg, Function.update_noteq h]

theorem SameShape.rfl' (w : World K) : SameShape w w :=
  ⟨rfl, rfl, fun _ => rfl, fun _ => rfl, fun _ => rfl, fun _ => rfl, fun _ => rfl, fun _ => rfl⟩

theorem SameShape.andThen {w1 w2 w3 : World K} (h : SameShape w1 w2) (h' : SameShape w2 w3) :
    SameShape w1 w3 :=
  ⟨h'.creature.trans h.creature, h'.count.trans h.count,
   fun j => (h'.parent j).trans (h.parent j), fun j => (h'.children j).trans (h.children j),
   fun j => (h'.size j).trans (h.size j), fun j => (h'.defAngle j).trans (h.defAngle j),
   fun j => (h'.range j).trans (h.range j), fun j => (h'.stiffness j).trans (h.stiffness j)⟩

theorem SameShape.symm {w1 w2 : World K} (h : SameShape w1 w2) : SameShape w2 w1 :=
  ⟨h.creature.symm, h.count.symm, fun j => (h.parent j).symm, fun j => (h.children j).symm,
   fun j => (h.size j).symm, fun j => (h.defAngle j).symm, fun j => (h.range j).symm,
   fun j => (h.stiffness j).symm⟩

/-- Overwriting the mutable fields of one segment keeps the shape. -/
theorem setSeg_sameShape (w : World K) (i : Nat) (s : Segment K)
    (hp : s.parent = (w.segs i).parent) (hc : s.children = (w.segs i).children)
    (hz : s.size = (w.segs i).size) (hd : s.defAngle = (w.segs i).defAngle)
    (hr : s.range = (w.segs i).range) (hs : s.stiffness = (w.segs i).stiffness) :
    SameShape w (w.setSeg i s) := by
  refine ⟨rfl, rfl, ?_, ?_, ?_, ?_, ?_, ?_⟩ <;> intro j <;>
    by_cases hj : j = i <;> simp [World.setSeg, hj, hp, hc, hz, hd, hr, hs]

theorem SameShape.nodeX_creature {w1 w2 : World K} (h : SameShape w1 w2) :
    w2.nodeX Ref.creature = w1.nodeX Ref.creature := by
  simp [World.nodeX, h.creature]

theorem SameShape.wf {w1 w2 : World K} (h : SameShape w1 w2) (hw : w1.WF) : w2.WF where
  child_parent := fun p c hc => by
    rw [h.parent]; exact hw.child_parent p c (by rwa [h.children] at hc)
  child_lt := fun p c hc => by
    rw [h.count]; exact hw.child_lt p c (by rwa [h.children] at hc)
  parent_lt := fun j q hq => hw.parent_lt j q (by rwa [h.parent] at hq)

theorem SameShape.desc {w1 w2 : World K} (h : SameShape w1 w2) {i j : Nat}
    (hd : Desc w1 i j) : Desc w2 i j := by
  induction hd with
  | refl i => exact Desc.refl i
  | step hc _ ih => exact Desc.step (by rwa [h.children]) ih

theorem Desc.append {w : World K} {i j k : Nat} (h1 : Desc w i j) (h2 : Desc w j k) :
    Desc w i k := by
  induction h1 with
  | refl i => exact h2
  | step hc _ ih => exact Desc.step hc (ih h2)

theorem Desc.le {w : World K} (hw : w.WF) {i j : Nat} (h : Desc w i j) : i ≤ j := by
  induction h with
  | refl i => exact le_rfl
  | step hc _ ih => exact le_trans (hw.parent_lt _ _ (hw.child_parent _ _ hc)).le ih

/-- A proper descendant is the child of a descendant. -/
theorem Desc.exists_parent {w : World K} {i j : Nat} (h : Desc w i j) (hne : j ≠ i) :
    ∃ p, Desc w i p ∧ j ∈ (w.segs p).children := by
  induction h with
  | refl i => exact absurd rfl hne
  | @step i c j hc hd ih =>
    by_cases hj : j = c
    · exact ⟨i, Desc.refl i, hj ▸ hc⟩
    · obtain ⟨p, hp, hjp⟩ := ih hj
      exact ⟨p, Desc.step hc hp, hjp⟩

/-- An invariant that every iteration keeps holds after the loop. -/
theorem forEach_inv {f : Nat → World K → Except Fault (World K)} {P : World K → Prop} :
    ∀ (cs : List Nat) (w w' : World K),
      (∀ c ∈ cs, ∀ w1 w2, P w1 → f c w1 = .ok w2 → P w2) →
      P w → forEach f cs w = .ok w' → P w'
  | [], w, w', _, hP, h => by
    simp only [forEach, Except.ok.injEq] at h
    exact h ▸ hP
  | c :: cs, w, w', hstep, hP, h => by
    simp only [forEach] at h
    cases hc : f c w with
    | error e => simp [hc] at h
    | ok w1 =>
      simp only [hc] at h
      exact forEach_inv cs w1 w' (fun c' hc' => hstep c' (List.mem_cons_of_mem _ hc'))
        (hstep c (List.mem_cons_self _ _) w w1 hP hc) h

/-- The loop returns when every iteration returns from a state of the invariant. -/
theorem forEach_ok {f : Nat → World K → Except Fault (World K)} {P : World K → Prop} :
    ∀ (cs : List Nat) (w : World K),
      (∀ c ∈ cs, ∀ w1, P w1 → ∃ w2, f c w1 = .ok w2 ∧ P w2) →
      P w → ∃ w', forEach f cs w = .ok w' ∧ P w'
  | [], w, _, hP => ⟨w, rfl, hP⟩
  | c :: cs, w, hstep, hP => by
    obtain ⟨w1, hc, hP1⟩ := hstep c (List.mem_cons_self _ _) w hP
    obtain ⟨w', h, hP'⟩ := forEach_ok cs w1
      (fun c' hc' => hstep c' (List.mem_cons_of_mem _ hc')) hP1
    exact ⟨w', by simp only [forEach, hc, h], hP'⟩

/-- The loop with the list of the children already visited as part of the
invariant. -/
theorem forEach_inv_acc {f : Nat → World K → Except Fault (World K)}
    {I : List Nat → World K → Prop} :
    ∀ (cs pre : List Nat) (w w' : World K),
      (∀ c ∈ cs, ∀ pre w1 w2, I pre w1 → f c w1 = .ok w2 → I (c :: pre) w2) →
      I pre w → forEach f cs w = .ok w' → I (cs.reverse ++ pre) w'
  | [], pre, w, w', _, hI, h => by
    simp only [forEach, Except.ok.injEq] at h
    simpa [← h] using hI
  | c :: cs, pre, w, w', hstep, hI, h => by
    simp only [forEach] at h
    cases hc : f c w with
    | error e => simp [hc] at h
    | ok w1 =>
      simp only [hc] at h
      have := forEach_inv_acc cs (c :: pre) w1 w'
        (fun c' hc' => hstep c' (List.mem_cons_of_mem _ hc'))
        (hstep c (List.mem_cons_self _ _) pre w w1 hI hc) h
      simpa using this

/-- A pass keeps the shape and changes only the descendants of its segment. -/
theorem treePass_spec {self : Nat → World K → Except Fault (World K)} (hl : LocalStep self) :
    ∀ (fuel i : Nat) (iter : Bool) (w w' : World K), treePass self fuel i iter w = .ok w' →
      SameShape w w' ∧ ∀ j, ¬ Desc w i j → w'.segs j = w.segs j
  | 0, _, _, _, _, h => by simp [treePass] at h
  | fuel + 1, i, iter, w, w', h => by
    simp only [treePass] at h
    cases hs : self i w with
    | error e => simp [hs] at h
    | ok w1 =>
      simp only [hs] at h
      obtain ⟨hsh, hfr⟩ := hl i w w1 hs
      have hbase : SameShape w w1 ∧ ∀ j, ¬ Desc w i j → w1.segs j = w.segs j :=
        ⟨hsh, fun j hj => hfr j (fun e => hj (by rw [e]; exact Desc.refl i))⟩
      cases iter with
      | false =>
        simp only [Bool.false_eq_true, if_false, Except.ok.injEq] at h
        exact h ▸ hbase
      | true =>
        simp only [if_true] at h
        refine forEach_inv (P := fun w2 => SameShape w w2 ∧ ∀ j, ¬ Desc w i j → w2.segs j = w.segs j)
          _ w1 w' ?_ hbase h
        intro c hc w2 w3 ⟨hsh2, hfr2⟩ hstep
        obtain ⟨hsh3, hfr3⟩ := treePass_spec hl fuel c true w2 w3 hstep
        refine ⟨hsh2.andThen hsh3, fun j hj => ?_⟩
        rw [hfr3 j ?_, hfr2 j hj]
        intro hd
        apply hj
        have hc' : c ∈ (w.segs i).children := by rwa [hsh.children] at hc
        exact Desc.step hc' (hsh2.symm.desc hd)

/-- A pass leaves its own segment as the work on that segment left it. -/
theorem treePass_self {self : Nat → World K → Except Fault (World K)} (hl : LocalStep self)
    (fuel i : Nat) (iter : Bool) (w w' : World K) (hw : w.WF)
    (h : treePass self fuel i iter w = .ok w') :
    ∃ w1, self i w = .ok w1 ∧ w'.segs i = w1.segs i := by
  cases fuel with
  | zero => simp [treePass] at h
  | succ fuel =>
    simp only [treePass] at h
    cases hs : self i w with
    | error e => simp [hs] at h
    | ok w1 =>
      simp only [hs] at h
      refine ⟨w1, rfl, ?_⟩
      obtain ⟨hsh, -⟩ := hl i w w1 hs
      cases iter with
      | false =>
        simp only [Bool.false_eq_true, if_false, Except.ok.injEq] at h
        rw [h]
      | true =>
        simp only [if_true] at h
        refine (forEach_inv (P := fun w2 => SameShape w1 w2 ∧ w2.segs i = w1.segs i)
          _ w1 w' ?_ ⟨SameShape.rfl' w1, rfl⟩ h).2
        intro c hc w2 w3 ⟨hsh2, he2⟩ hstep
        obtain ⟨hsh3, hfr3⟩ := treePass_spec hl fuel c true w2 w3 hstep
        refine ⟨hsh2.andThen hsh3, ?_⟩
        rw [hfr3 i ?_, he2]
        intro hd
        have hw2 : w2.WF := (hsh.andThen hsh2).wf hw
        have hc2 : c ∈ (w2.segs i).children := by rwa [hsh2.children]
        have h1 := hw2.parent_lt _ _ (hw2.child_parent _ _ hc2)
        have h2 := hd.le hw2
        omega

/-- A child of a segment is not an ancestor of it, nor of its parent. -/
theorem not_desc_of_child {w : World K} (hw : w.WF) {i c j : Nat}
    (hc : c ∈ (w.segs i).children) (hj : j ≤ i) : ¬ Desc w c j := by
  intro hd
  have h1 := hw.parent_lt _ _ (hw.child_parent _ _ hc)
  have h2 := hd.le hw
  omega

/-- With propagation, a local property that the work on a segment establishes
holds after the pass for every descendant of the segment. -/
theorem treePass_all {self : Nat → World K → Except Fault (World K)} (hl : LocalStep self)
    {R : World K → Nat → Prop} (hR : LocalProp R)
    (hself : ∀ i w w1, w.WF → self i w = .ok w1 → R w1 i) :
    ∀ (fuel i : Nat) (w w' : World K), w.WF → treePass self fuel i true w = .ok w' →
      ∀ j, Desc w i j → R w' j
  | 0, _, _, _, _, h => by simp [treePass] at h
  | fuel + 1, i, w, w', hw, h => by
    simp only [treePass] at h
    cases hs : self i w with
    | error e => simp [hs] at h
    | ok w1 =>
      simp only [hs, if_true] at h
      obtain ⟨hsh, -⟩ := hl i w w1 hs
      have hRi : R w1 i := hself i w w1 hw hs
      have key := forEach_inv_acc
        (I := fun pre w2 => SameShape w w2 ∧ R w2 i ∧
          (∀ c ∈ pre, c ∈ (w.segs i).children) ∧ ∀ c ∈ pre, ∀ j, Desc w c j → R w2 j)
        (w1.segs i).children [] w1 w' ?_ ⟨hsh, hRi, by simp, by simp⟩ h
      · obtain ⟨-, hi, -, hall⟩ := key
        intro j hd
        cases hd with
        | refl => exact hi
        | step hc hd' =>
          refine hall _ ?_ j hd'
          simp only [List.append_nil, List.mem_reverse]
          rwa [hsh.children]
      · intro c hc pre w2 w3 ⟨hsh2, hi2, hpre, hall2⟩ hstep
        have hcw : c ∈ (w.segs i).children := by rwa [hsh.children] at hc
        have hw2 : w2.WF := hsh2.wf hw
        obtain ⟨hsh3, hfr3⟩ := treePass_spec hl fuel c true w2 w3 hstep
        have ih := treePass_all hl hR hself fuel c w2 w3 hw2 hstep
        have hnd : ∀ q, q ≤ i → ¬ Desc w2 c q := fun q hq hd =>
          not_desc_of_child hw hcw hq (hsh2.symm.desc hd)
        refine ⟨hsh2.andThen hsh3, ?_, ?_, ?_⟩
        · refine hR w2 w3 i hsh3 (hfr3 i (hnd i le_rfl)) (fun q hq => hfr3 q (hnd q ?_)) hi2
          exact (hw2.parent_lt _ _ hq).le
        · intro c' hc'
          rcases List.mem_cons.1 hc' with rfl | hc'
          · exact hcw
          · exact hpre c' hc'
        · intro c' hc' j hd
          by_cases hdj : Desc w2 c j
          · exact ih j hdj
          · have hRj : R w2 j := by
              rcases List.mem_cons.1 hc' with rfl | hc''
              · exact absurd (hsh2.desc hd) hdj
              · exact hall2 c' hc'' j hd
            have hc'w : c' ∈ (w.segs i).children := by
              rcases List.mem_cons.1 hc' with rfl | hc''
              · exact hcw
              · exact hpre c' hc''
            refine hR w2 w3 j hsh3 (hfr3 j hdj) (fun q hq => hfr3 q ?_) hRj
            intro hdq
            by_cases hjc : j = c'
            · subst hjc
              have hp := hw.child_parent _ _ hc'w
              rw [← hsh2.parent, hq] at hp
              injection hp with hp
              exact hnd q hp.le hdq
            · obtain ⟨p, -, hjp⟩ := hd.exists_parent hjc
              have hp := hw.child_parent _ _ hjp
              rw [← hsh2.parent, hq] at hp
              injection hp with hp
              subst hp
              have hjq : j ∈ (w2.segs q).children := by rwa [hsh2.children]
              exact hdj (hdq.append (Desc.step hjq (Desc.refl j)))

/-- A pass returns when the work on each descendant does and the fuel covers
the segments in use. -/
theorem treePass_ok {self : Nat → World K → Except Fault (World K)} (hl : LocalStep self)
    (w0 : World K) (hw : w0.WF) (S : Nat → Prop)
    (hS : ∀ c w2, SameShape w0 w2 → S c → ∃ w3, self c w2 = .ok w3) :
    ∀ (fuel i : Nat) (iter : Bool) (w : World K), SameShape w0 w → (∀ j, Desc w0 i j → S j) →
      w0.segmentCount ≤ fuel + i → 0 < fuel → ∃ w', treePass self fuel i iter w = .ok w'
  | 0, _, _, _, _, _, _, h => absurd h (lt_irrefl 0)
  | fuel + 1, i, iter, w, hsh, hd, hn, _ => by
    obtain ⟨w1, hs⟩ := hS i w hsh (hd i (Desc.refl i))
    obtain ⟨hsh1, -⟩ := hl i w w1 hs
    cases iter with
    | false => exact ⟨w1, by simp [treePass, hs]⟩
    | true =>
      obtain ⟨w', h, -⟩ := forEach_ok (f := fun c w2 => treePass self fuel c true w2)
        (P := fun w2 => SameShape w0 w2) (w1.segs i).children w1 (by
          intro c hc w2 hsh2
          have hc0 : c ∈ (w0.segs i).children := by
            rwa [hsh1.children, hsh.children] at hc
          have h1 := hw.parent_lt _ _ (hw.child_parent _ _ hc0)
          have h2 := hw.child_lt _ _ hc0
          obtain ⟨w3, h3⟩ := treePass_ok hl w0 hw S hS fuel c true w2 hsh2
            (fun j hj => hd j (Desc.step hc0 hj)) (by omega) (by omega)
          exact ⟨w3, h3, hsh2.andThen (treePass_spec hl fuel c true w2 w3 h3).1⟩)
        (hsh.andThen hsh1)
      exact ⟨w', by simp [treePass, hs, h]⟩

end Heap

/-! ### Segments -/

section SegmentLemmas

variable {K : Type} [LinearOrderedField K] [FloorRing K]

theorem updateRelative_eq_treePass (M : JSMath K) (flex : Bool) :
    ∀ (fuel i : Nat) (iter : Bool) (w : World K),
      updateRelative M fuel i iter flex w
        = treePass (fun i w => updateSelf M i flex w) fuel i iter w
  | 0, _, _, _ => rfl
  | fuel + 1, i, iter, w => by
    simp only [updateRelative, treePass]
    cases updateSelf M i flex w with
    | error e => rfl
    | ok w1 =>
      have h : (fun c w2 => updateRelative M fuel c iter flex w2)
          = (fun c w2 => treePass (fun i w => updateSelf M i flex w) fuel c iter w2) := by
        funext c w2
        exact updateRelative_eq_treePass M flex fuel c iter w2
      simp only [h]

theorem updateRelative_noiter (M : JSMath K) (fuel i : Nat) (flex : Bool) (w : World K) :
    updateRelative M (fuel + 1) i false flex w = updateSelf M i flex w := by
  simp only [updateRelative]
  cases updateSelf M i flex w <;> simp

theorem follow_eq_treePass (M : JSMath K) :
    ∀ (fuel i : Nat) (iter : Bool) (w : World K),
      follow M fuel i iter w = treePass (followStep M) fuel i iter w
  | 0, _, _, _ => rfl
  | fuel + 1, i, iter, w => by
    simp only [follow, treePass, followStep]
    cases followSelf M i w with
    | error e => rfl
    | ok w1 =>
      simp only
      cases updateRelative M 1 i false true w1 with
      | error e => rfl
      | ok w2 =>
        cases iter with
        | false => simp
        | true =>
          have h : (fun c w3 => follow M fuel c true w3)
              = (fun c w3 => treePass (followStep M) fuel c true w3) := by
            funext c w3
            exact follow_eq_treePass M fuel c true w3
          simp only [h, if_true]

/-- The state after `updateSelf`: segment `i` with its four mutable fields
recomputed from the new `relAngle` `r`. -/
theorem updateSelf_eq (M : JSMath K) (i : Nat) (flex : Bool) (w w1 : World K)
    (h : updateSelf M i flex w = .ok w1) :
    ∃ r, newRel M (w.segs i) flex = .ok r ∧
      w1 = w.setSeg i { w.segs i with
        relAngle := r
        absAngle := w.nodeAbsAngle (w.segs i).parent + r
        x := w.nodeX (w.segs i).parent + M.cos (w.nodeAbsAngle (w.segs i).parent + r) * (w.segs i).size
        y := w.nodeY (w.segs i).parent + M.sin (w.nodeAbsAngle (w.segs i).parent + r) * (w.segs i).size } := by
  simp only [updateSelf] at h
  cases hr : newRel M (w.segs i) flex with
  | error e => simp [hr] at h
  | ok r =>
    simp only [hr, Except.ok.injEq] at h
    exact ⟨r, rfl, h.symm⟩

/-- The state `updateRelative` without propagation returns for a new
`relAngle` `r`. -/
theorem updateRelative_of_newRel (M : JSMath K) (i : Nat) (flex : Bool) (w : World K) (r : K)
    (h : newRel M (w.segs i) flex = .ok r) :
    updateRelative M 1 i false flex w = .ok (w.setSeg i { w.segs i with
      relAngle := r
      absAngle := w.nodeAbsAngle (w.segs i).parent + r
      x := w.nodeX (w.segs i).parent + M.cos (w.nodeAbsAngle (w.segs i).parent + r) * (w.segs i).size
      y := w.nodeY (w.segs i).parent + M.sin (w.nodeAbsAngle (w.segs i).parent + r) * (w.segs i).size }) := by
  rw [updateRelative_noiter]
  simp only [updateSelf, h]

theorem updateSelf_local (M : JSMath K) (flex : Bool) :
    LocalStep (fun i w => updateSelf M i flex w) := by
  intro i w w1 h
  obtain ⟨r, -, rfl⟩ := updateSelf_eq M i flex w w1 h
  exact ⟨setSeg_sameShape _ _ _ rfl rfl rfl rfl rfl rfl, fun j hj => setSeg_segs_ne _ _ hj⟩

/-- The state after `followSelf`, for a non-zero distance to the parent. -/
theorem followSelf_eq (M : JSMath K) (i : Nat) (w w1 : World K)
    (h : followSelf M i w = .ok w1) :
    distance M (w.segs i).x (w.segs i).y (w.nodeX (w.segs i).parent) (w.nodeY (w.segs i).parent) ≠ 0 ∧
    ∃ s : Segment K, w1 = w.setSeg i s ∧ s.parent = (w.segs i).parent ∧
      s.children = (w.segs i).children ∧ s.size = (w.segs i).size ∧
      s.defAngle = (w.segs i).defAngle ∧ s.range = (w.segs i).range ∧
      s.stiffness = (w.segs i).stiffness := by
  simp only [followSelf, jsDiv] at h
  by_cases hd : M.sqrt (((w.segs i).x - w.nodeX (w.segs i).parent) ^ 2
      + ((w.segs i).y - w.nodeY (w.segs i).parent) ^ 2) = 0
  · simp [hd] at h
  · simp only [hd, if_false, Except.ok.injEq] at h
    exact ⟨hd, _, h.symm, rfl, rfl, rfl, rfl, rfl, rfl⟩

theorem followSelf_ok (M : JSMath K) (i : Nat) (w : World K)
    (hd : distance M (w.segs i).x (w.segs i).y (w.nodeX (w.segs i).parent)
      (w.nodeY (w.segs i).parent) ≠ 0) :
    ∃ w1, followSelf M i w = .ok w1 := by
  simp only [distance] at hd
  simp [followSelf, jsDiv, hd]

theorem followSelf_local (M : JSMath K) : LocalStep (followSelf M) := by
  intro i w w1 h
  obtain ⟨-, s, rfl, hp, hc, hz, hd, hr, hs⟩ := followSelf_eq M i w w1 h
  exact ⟨setSeg_sameShape _ _ _ hp hc hz hd hr hs, fun j hj => setSeg_segs_ne _ _ hj⟩

/-- The work of `follow` on its segment ends with `updateSelf` under `flex`. -/
theorem followStep_eq (M : JSMath K) (i : Nat) (w w2 : World K)
    (h : followStep M i w = .ok w2) :
    ∃ w1, followSelf M i w = .ok w1 ∧ updateSelf M i true w1 = .ok w2 := by
  simp only [followStep] at h
  cases hf : followSelf M i w with
  | error e => simp [hf] at h
  | ok w1 =>
    simp only [hf, updateRelative_noiter] at h
    exact ⟨w1, rfl, h⟩

theorem followStep_local (M : JSMath K) : LocalStep (followStep M) := by
  intro i w w2 h
  obtain ⟨w1, h1, h2⟩ := followStep_eq M i w w2 h
  obtain ⟨hs1, hf1⟩ := followSelf_local M i w w1 h1
  obtain ⟨hs2, hf2⟩ := updateSelf_local M true i w1 w2 h2
  exact ⟨hs1.andThen hs2, fun j hj => (hf2 j hj).trans (hf1 j hj)⟩

/-! ### The arithmetic of the new `relAngle` -/

/-- The wrap puts `relAngle` in `[defAngle - PI, defAngle + PI)`. -/
theorem wrapRel_bounds (M : JSMath K) (hpi : 0 < M.PI) (s : Segment K) :
    s.defAngle - M.PI ≤ wrapRel M s ∧ wrapRel M s < s.defAngle + M.PI := by
  unfold wrapRel
  have h1 := Int.floor_le ((s.relAngle - s.defAngle) / 2 / M.PI + 1 / 2)
  have h2 := Int.lt_floor_add_one ((s.relAngle - s.defAngle) / 2 / M.PI + 1 / 2)
  generalize ((⌊(s.relAngle - s.defAngle) / 2 / M.PI + 1 / 2⌋ : ℤ) : K) = k at h1 h2
  have h3 : (s.relAngle - s.defAngle) / 2 / M.PI * (2 * M.PI) = s.relAngle - s.defAngle := by
    field_simp
  generalize (s.relAngle - s.defAngle) / 2 / M.PI = t at h1 h2 h3
  have h4 := mul_le_mul_of_nonneg_right h1 (by linarith : (0 : K) ≤ 2 * M.PI)
  have h5 := mul_lt_mul_of_pos_right h2 (by linarith : (0 : K) < 2 * M.PI)
  constructor <;> linarith

theorem newRel_noflex (M : JSMath K) (s : Segment K) : newRel M s false = .ok (wrapRel M s) := by
  simp [newRel]

theorem newRel_flex (M : JSMath K) (s : Segment K) (hs : s.stiffness ≠ 0) :
    newRel M s true = .ok (min (s.defAngle + s.range / 2)
      (max (s.defAngle - s.range / 2) ((wrapRel M s - s.defAngle) / s.stiffness + s.defAngle))) := by
  simp [newRel, jsDiv, hs]

theorem newRel_flex_zero (M : JSMath K) (s : Segment K) (hs : s.stiffness = 0) :
    newRel M s true = .error .divByZero := by
  simp [newRel, jsDiv, hs]

/-- Under `flex` the new `relAngle` is in the range-clamp interval. -/
theorem newRel_inRange (M : JSMath K) (s : Segment K) (hr : 0 ≤ s.range) (r : K)
    (h : newRel M s true = .ok r) :
    s.defAngle - s.range / 2 ≤ r ∧ r ≤ s.defAngle + s.range / 2 := by
  by_cases hs : s.stiffness = 0
  · simp [newRel_flex_zero M s hs] at h
  · rw [newRel_flex M s hs, Except.ok.injEq] at h
    subst h
    refine ⟨le_min (by linarith) (le_max_left _ _), min_le_left _ _⟩

/-- The new `relAngle` is in `[defAngle - PI, defAngle + PI)`. -/
theorem newRel_inWrap (M : JSMath K) (hpi : 0 < M.PI) (s : Segment K) (flex : Bool)
    (hr : 0 ≤ s.range) (hs : 1 ≤ s.stiffness) (r : K) (h : newRel M s flex = .ok r) :
    s.defAngle - M.PI ≤ r ∧ r < s.defAngle + M.PI := by
  obtain ⟨h1, h2⟩ := wrapRel_bounds M hpi s
  cases flex with
  | false =>
    rw [newRel_noflex, Except.ok.injEq] at h
    exact h ▸ ⟨h1, h2⟩
  | true =>
    have hs0 : s.stiffness ≠ 0 := by intro h0; rw [h0] at hs; linarith
    have hpos : 0 < s.stiffness := by linarith
    rw [newRel_flex M s hs0, Except.ok.injEq] at h
    subst h
    have hq1 : -M.PI ≤ (wrapRel M s - s.defAngle) / s.stiffness := by
      rw [le_div_iff₀ hpos]
      nlinarith
    have hq2 : (wrapRel M s - s.defAngle) / s.stiffness < M.PI := by
      rw [div_lt_iff₀ hpos]
      nlinarith
    constructor
    · refine le_min (by linarith) (le_trans ?_ (le_max_right _ _))
      linarith
    · rcases le_total (s.defAngle - s.range / 2)
        ((wrapRel M s - s.defAngle) / s.stiffness + s.defAngle) with hm | hm
      · rw [max_eq_right hm]
        exact lt_of_le_of_lt (min_le_right _ _) (by linarith)
      · rw [max_eq_left hm]
        exact lt_of_le_of_lt (min_le_right _ _) (by linarith)

/-! ### What a pass does to its own segment, and when it returns -/

theorem updateSelf_ok (M : JSMath K) (i : Nat) (flex : Bool) (w : World K)
    (hs : flex = true → (w.segs i).stiffness ≠ 0) : ∃ w1, updateSelf M i flex w = .ok w1 := by
  cases flex with
  | false => simp [updateSelf, newRel_noflex]
  | true => simp [updateSelf, newRel_flex M _ (hs rfl)]

/-- After `updateRelative`, with or without propagation, the segment is as
`updateSelf` leaves it. -/
theorem updateRelative_node (M : JSMath K) (fuel i : Nat) (iter flex : Bool) (w w' : World K)
    (hw : w.WF) (h : updateRelative M fuel i iter flex w = .ok w') :
    ∃ w1, updateSelf M i flex w = .ok w1 ∧ w'.segs i = w1.segs i := by
  rw [updateRelative_eq_treePass] at h
  exact treePass_self (updateSelf_local M flex) fuel i iter w w' hw h

/-- After `follow`, with or without propagation, the segment is as
`followSelf` and then `updateSelf` under `flex` leave it. -/
theorem follow_node (M : JSMath K) (fuel i : Nat) (iter : Bool) (w w' : World K)
    (hw : w.WF) (h : follow M fuel i iter w = .ok w') :
    ∃ w1 w2, followSelf M i w = .ok w1 ∧ updateSelf M i true w1 = .ok w2 ∧
      w'.segs i = w2.segs i := by
  rw [follow_eq_treePass] at h
  obtain ⟨w2, h2, he⟩ := treePass_self (followStep_local M) fuel i iter w w' hw h
  obtain ⟨w1, h1, h12⟩ := followStep_eq M i w w2 h2
  exact ⟨w1, w2, h1, h12, he⟩

/-- The new `relAngle` of a segment after `updateSelf`. -/
theorem updateSelf_relAngle (M : JSMath K) (i : Nat) (flex : Bool) (w w1 : World K)
    (h : updateSelf M i flex w = .ok w1) :
    newRel M (w.segs i) flex = .ok (w1.segs i).relAngle ∧
      (w1.segs i).defAngle = (w.segs i).defAngle ∧ (w1.segs i).range = (w.segs i).range ∧
      (w1.segs i).stiffness = (w.segs i).stiffness := by
  obtain ⟨r, hr, rfl⟩ := updateSelf_eq M i flex w w1 h
  simp [setSeg_segs_self, hr]

/-- `updateRelative` returns when no division by a zero stiffness occurs and
the fuel covers the segments in use. -/
theorem updateRelative_ok (M : JSMath K) (fuel i : Nat) (iter flex : Bool) (w : World K)
    (hw : w.WF) (hs : flex = true → ∀ j, Desc w i j → (w.segs j).stiffness ≠ 0)
    (hn : w.segmentCount ≤ fuel + i) (hf : 0 < fuel) :
    ∃ w', updateRelative M fuel i iter flex w = .ok w' := by
  rw [updateRelative_eq_treePass]
  refine treePass_ok (updateSelf_local M flex) w hw
    (fun j => flex = true → (w.segs j).stiffness ≠ 0) ?_ fuel i iter w (SameShape.rfl' w)
    (fun j hj hfl => hs hfl j hj) hn hf
  intro c w2 hsh hc
  exact updateSelf_ok M c flex w2 (fun hfl => by rw [hsh.stiffness]; exact hc hfl)

/-- `follow` without propagation returns when the segment is off its parent
and its stiffness is not zero. -/
theorem follow_ok (M : JSMath K) (fuel i : Nat) (w : World K)
    (hd : distance M (w.segs i).x (w.segs i).y (w.nodeX (w.segs i).parent)
      (w.nodeY (w.segs i).parent) ≠ 0)
    (hs : (w.segs i).stiffness ≠ 0) :
    ∃ w', follow M (fuel + 1) i false w = .ok w' := by
  obtain ⟨w1, h1⟩ := followSelf_ok M i w hd
  obtain ⟨hsh, -⟩ := followSelf_local M i w w1 h1
  obtain ⟨w2, h2⟩ := updateSelf_ok M i true w1 (fun _ => by rw [hsh.stiffness]; exact hs)
  exact ⟨w2, by simp [follow, h1, updateRelative_noiter, h2]⟩

theorem single_wf (s : Segment K) : (World.single s).WF where
  child_parent := fun p c hc => by simp [World.single] at hc
  child_lt := fun p c hc => by simp [World.single] at hc
  parent_lt := fun j q hq => by simp [World.single] at hq

end SegmentLemmas

/-! ### C1, C2: the range clamp and the wrap in exact arithmetic -/

section SegmentClaims

variable {K : Type} [LinearOrderedField K] [FloorRing K]

theorem inRange_of_updateSelf (M : JSMath K) (i : Nat) (w1 w2 : World K)
    (hr : 0 ≤ (w1.segs i).range) (h : updateSelf M i true w1 = .ok w2) :
    InRange (w2.segs i) := by
  obtain ⟨hn, hd, hrg, -⟩ := updateSelf_relAngle M i true w1 w2 h
  have := newRel_inRange M (w1.segs i) hr _ hn
  simpa [InRange, hd, hrg] using this

theorem inWrap_of_updateSelf (M : JSMath K) (hpi : 0 < M.PI) (i : Nat) (flex : Bool)
    (w1 w2 : World K) (hr : 0 ≤ (w1.segs i).range) (hs : 1 ≤ (w1.segs i).stiffness)
    (h : updateSelf M i flex w1 = .ok w2) : InWrap M (w2.segs i) := by
  obtain ⟨hn, hd, -, -⟩ := updateSelf_relAngle M i flex w1 w2 h
  have := newRel_inWrap M hpi (w1.segs i) flex hr hs _ hn
  simpa [InWrap, hd] using this

/-- The range clamp wherever the code produces numbers: for a segment `i` with
`range ≥ 0` and `stiffness ≥ 1` in a well-formed heap, `relAngle` lies in
`[defAngle - range/2, defAngle + range/2]` after every `updateRelative(iter,
true)` and after every `follow(iter)` that produces a state.
`updateRelative(false, true)` always produces one, with propagation it does
when no descendant has stiffness 0 (and the fuel covers the tree), and
`follow(false)` does when the segment's end is off its parent's position; on
the parent's position it divides 0 by 0. -/
theorem range_clamp (M : JSMath K) (w : World K) (i : Nat) (hw : w.WF)
    (hr : 0 ≤ (w.segs i).range) (hs : 1 ≤ (w.segs i).stiffness) :
    (∀ fuel iter w', updateRelative M fuel i iter true w = .ok w' → InRange (w'.segs i)) ∧
    (∀ fuel iter w', follow M fuel i iter w = .ok w' → InRange (w'.segs i)) ∧
    (∃ w', updateRelative M 1 i false true w = .ok w') ∧
    (∀ fuel, (∀ j, Desc w i j → (w.segs j).stiffness ≠ 0) → w.segmentCount ≤ fuel + i →
      0 < fuel → ∃ w', updateRelative M fuel i true true w = .ok w') ∧
    (distance M (w.segs i).x (w.segs i).y (w.nodeX (w.segs i).parent)
        (w.nodeY (w.segs i).parent) ≠ 0 → ∃ w', follow M 1 i false w = .ok w') := by
  have hs0 : (w.segs i).stiffness ≠ 0 := by intro h0; rw [h0] at hs; linarith
  refine ⟨?_, ?_, ?_, ?_, ?_⟩
  · intro fuel iter w' h
    obtain ⟨w1, h1, he⟩ := updateRelative_node M fuel i iter true w w' hw h
    rw [he]
    exact inRange_of_updateSelf M i w w1 hr h1
  · intro fuel iter w' h
    obtain ⟨w1, w2, h1, h2, he⟩ := follow_node M fuel i iter w w' hw h
    obtain ⟨hsh, -⟩ := followSelf_local M i w w1 h1
    rw [he]
    exact inRange_of_updateSelf M i w1 w2 (by rw [hsh.range]; exact hr) h2
  · rw [updateRelative_noiter]
    exact updateSelf_ok M i true w (fun _ => hs0)
  · intro fuel hd hn hf
    exact updateRelative_ok M fuel i true true w hw (fun _ => hd) hn hf
  · intro hd
    exact follow_ok M 0 i w hd hs0

/-- The range clamp, checked on a segment of size 1 at rest below a Creature at
the origin. -/
theorem range_clamp_witness :
    (∃ w', updateRelative realMath 1 0 false true
        (World.single (Segment.atRest (0 : ℝ) 1 1 1)) = .ok w') ∧
    (∀ fuel iter w', follow realMath fuel 0 iter (World.single (Segment.atRest (0 : ℝ) 1 1 1)) = .ok w' →
      InRange (w'.segs 0)) :=
  have h := range_clamp realMath (World.single (Segment.atRest (0 : ℝ) 1 1 1)) 0 (single_wf _)
    (by simp [World.single, Segment.atRest]) (by simp [World.single, Segment.atRest])
  ⟨h.2.2.1, h.2.1⟩

/-- C1 fails on the code: a segment of size 0 (range 1 ≥ 0, stiffness 1 ≥ 1)
lies on its parent after its construction; `follow(false)` divides 0 by 0
(script.js 178-181) and leaves no `relAngle` in
`[defAngle - range / 2, defAngle + range / 2]`, against what the comments of
`updateRelative` and `follow` promise (script.js 132, 171-172, 179). -/
theorem range_clamp_fault :
    (0 : ℝ) ≤ ((World.single (Segment.atRest (0 : ℝ) 0 1 1)).segs 0).range ∧
    (1 : ℝ) ≤ ((World.single (Segment.atRest (0 : ℝ) 0 1 1)).segs 0).stiffness ∧
    follow realMath 1 0 false (World.single (Segment.atRest (0 : ℝ) 0 1 1)) = .error .divByZero ∧
    ¬ ∃ w', follow realMath 1 0 false (World.single (Segment.atRest (0 : ℝ) 0 1 1)) = .ok w' ∧
      InRange (w'.segs 0) := by
  have h : follow realMath 1 0 false (World.single (Segment.atRest (0 : ℝ) 0 1 1))
      = .error .divByZero := by
    simp [follow, followSelf, jsDiv, World.single, Segment.atRest, World.nodeX, World.nodeY,
      Creature.atOrigin, realMath]
  refine ⟨by simp [World.single, Segment.atRest], by simp [World.single, Segment.atRest], h, ?_⟩
  rintro ⟨w', hw', -⟩
  rw [h] at hw'
  cases hw'

/-- C2 as stated fails: a `relAngle` of exactly `defAngle - PI` (here `-PI`,
with rest angle 0, range 1, stiffness 1) is left where it is by
`updateRelative(false, false)`, and is not strictly greater than
`defAngle - PI`. -/
theorem angle_wrap_counterexample :
    ∃ w', updateRelative realMath 1 0 false false
        (World.single (Segment.turned (-Real.pi) 1 1 1)) = .ok w' ∧
      (w'.segs 0).relAngle = -Real.pi ∧ ¬ InWrapSpec realMath (w'.segs 0) := by
  have hfl : (-Real.pi - 0) / 2 / Real.pi + 1 / 2 = 0 := by
    have := Real.pi_ne_zero
    field_simp
    ring
  have hw : wrapRel realMath ((World.single (Segment.turned (-Real.pi) 1 1 1)).segs 0)
      = -Real.pi := by
    simp only [wrapRel, World.single, Segment.turned, realMath, hfl]
    simp
  obtain ⟨w1, h1⟩ := updateSelf_ok realMath 0 false
    (World.single (Segment.turned (-Real.pi) 1 1 1)) (by simp)
  obtain ⟨hn, hd, -, -⟩ := updateSelf_relAngle realMath 0 false _ w1 h1
  rw [newRel_noflex, Except.ok.injEq, hw] at hn
  refine ⟨w1, by rw [updateRelative_noiter]; exact h1, hn.symm, ?_⟩
  simp only [InWrapSpec, ← hn, hd]
  simp [World.single, Segment.turned, realMath]

end SegmentClaims

/-! ### C3: segment consistency and rigid length -/

section Consistency

variable {K : Type} [LinearOrderedField K] [FloorRing K]

/-- The fields of the node a reference points to are those of the old heap
when the node was not changed. -/
theorem node_eq {w w' : World K} (hsh : SameShape w w') (r : Ref)
    (hq : ∀ q, r = Ref.seg q → w'.segs q = w.segs q) :
    w'.nodeX r = w.nodeX r ∧ w'.nodeY r = w.nodeY r ∧ w'.nodeAbsAngle r = w.nodeAbsAngle r := by
  cases r with
  | creature => simp [World.nodeX, World.nodeY, World.nodeAbsAngle, hsh.creature]
  | seg q => simp [World.nodeX, World.nodeY, World.nodeAbsAngle, hq q rfl]

theorem setSeg_node_ne (w : World K) (i : Nat) (s : Segment K) (r : Ref) (hr : r ≠ Ref.seg i) :
    (w.setSeg i s).nodeX r = w.nodeX r ∧ (w.setSeg i s).nodeY r = w.nodeY r ∧
      (w.setSeg i s).nodeAbsAngle r = w.nodeAbsAngle r := by
  cases r with
  | creature => simp [World.nodeX, World.nodeY, World.nodeAbsAngle, World.setSeg]
  | seg q =>
    have hqi : q ≠ i := fun h => hr (by rw [h])
    simp [World.nodeX, World.nodeY, World.nodeAbsAngle, setSeg_segs_ne w s hqi]

theorem WF.parent_ne {w : World K} (hw : w.WF) (i : Nat) : (w.segs i).parent ≠ Ref.seg i :=
  fun h => lt_irrefl i (hw.parent_lt i i h)

theorem consistent_local (M : JSMath K) : LocalProp (Consistent M) := by
  intro w w' j hsh hj hq hc
  obtain ⟨hx, hy, ha⟩ := node_eq hsh (w.segs j).parent hq
  simp only [Consistent, hj, hx, hy, ha] at hc ⊢
  exact hc

/-- The work of `updateRelative` on a segment makes it consistent. -/
theorem updateSelf_consistent (M : JSMath K) (i : Nat) (flex : Bool) (w w1 : World K)
    (hw : w.WF) (h : updateSelf M i flex w = .ok w1) : Consistent M w1 i := by
  obtain ⟨r, -, rfl⟩ := updateSelf_eq M i flex w w1 h
  obtain ⟨hx, hy, ha⟩ := setSeg_node_ne w i
    { w.segs i with
      relAngle := r
      absAngle := w.nodeAbsAngle (w.segs i).parent + r
      x := w.nodeX (w.segs i).parent + M.cos (w.nodeAbsAngle (w.segs i).parent + r) * (w.segs i).size
      y := w.nodeY (w.segs i).parent + M.sin (w.nodeAbsAngle (w.segs i).parent + r) * (w.segs i).size }
    (w.segs i).parent (WF.parent_ne hw i)
  simp only [Consistent, setSeg_segs_self, hx, hy, ha]
  refine ⟨trivial, ?_, ?_⟩ <;> ring

/-- The work of `follow` on a segment makes it consistent. -/
theorem followStep_consistent (M : JSMath K) (i : Nat) (w w2 : World K)
    (hw : w.WF) (h : followStep M i w = .ok w2) : Consistent M w2 i := by
  obtain ⟨w1, h1, h2⟩ := followStep_eq M i w w2 h
  exact updateSelf_consistent M i true w1 w2 ((followSelf_local M i w w1 h1).1.wf hw) h2

theorem JSMath.Exact.sqrt_sq {M : JSMath K} (hM : M.Exact) (a : K) (ha : 0 ≤ a) :
    M.sqrt (a ^ 2) = a := by
  have h1 := hM.sq_sqrt (a ^ 2) (sq_nonneg a)
  have h2 := hM.sqrt_nonneg (a ^ 2)
  nlinarith [sq_nonneg (M.sqrt (a ^ 2) - a), sq_nonneg (M.sqrt (a ^ 2) + a)]

/-- The distance from a point to the point `len` away from it in any
direction is `len`. -/
theorem JSMath.Exact.distance_polar {M : JSMath K} (hM : M.Exact) (x y len a : K)
    (hl : 0 ≤ len) : distance M (x + len * M.cos a) (y + len * M.sin a) x y = len := by
  have h := hM.cos_sq_add_sin_sq a
  have : (x + len * M.cos a - x) ^ 2 + (y + len * M.sin a - y) ^ 2 = len ^ 2 := by
    have : (x + len * M.cos a - x) ^ 2 + (y + len * M.sin a - y) ^ 2
        = len ^ 2 * (M.cos a ^ 2 + M.sin a ^ 2) := by ring
    rw [this, h, mul_one]
  rw [distance, this, hM.sqrt_sq len hl]

/-- A consistent segment of non-negative size is at distance `size` from its
parent. -/
theorem atLength_of_consistent {M : JSMath K} (hM : M.Exact) (w : World K) (j : Nat)
    (hc : Consistent M w j) (hz : 0 ≤ (w.segs j).size) : AtLength M w j := by
  obtain ⟨-, hx, hy⟩ := hc
  unfold AtLength
  rw [hx, hy]
  exact hM.distance_polar _ _ _ _ hz

/-- Consistency wherever the code produces numbers: in a well-formed heap,
after every `updateRelative` (any flags) and every `follow` of segment `i` that
produces a state, segment `i` has
`absAngle == parent.absAngle + relAngle` and `(x, y) == parent.(x, y) +
size * (cos, sin)(absAngle)`, so with `size ≥ 0` it is at distance `size` from
its parent; with propagation the same holds for every descendant.
`updateRelative` produces a state when no segment it constrains has stiffness 0
(and the fuel covers the tree), `follow(false)` when moreover the segment's end
is off its parent's position; on the parent's position it divides 0 by 0. -/
theorem segment_consistency (M : JSMath K) (hM : M.Exact) (w : World K) (i : Nat) (hw : w.WF)
    (hz : ∀ j, Desc w i j → 0 ≤ (w.segs j).size) :
    (∀ fuel iter flex w', updateRelative M fuel i iter flex w = .ok w' →
      (Consistent M w' i ∧ AtLength M w' i) ∧
      (iter = true → ∀ j, Desc w i j → Consistent M w' j ∧ AtLength M w' j)) ∧
    (∀ fuel iter w', follow M fuel i iter w = .ok w' →
      (Consistent M w' i ∧ AtLength M w' i) ∧
      (iter = true → ∀ j, Desc w i j → Consistent M w' j ∧ AtLength M w' j)) ∧
    (∀ fuel iter flex, (flex = true → ∀ j, Desc w i j → (w.segs j).stiffness ≠ 0) →
      w.segmentCount ≤ fuel + i → 0 < fuel →
      ∃ w', updateRelative M fuel i iter flex w = .ok w') ∧
    (distance M (w.segs i).x (w.segs i).y (w.nodeX (w.segs i).parent)
        (w.nodeY (w.segs i).parent) ≠ 0 → (w.segs i).stiffness ≠ 0 →
      ∃ w', follow M 1 i false w = .ok w') := by
  have all : ∀ (self : Nat → World K → Except Fault (World K)), LocalStep self →
      (∀ i w w1, w.WF → self i w = .ok w1 → Consistent M w1 i) →
      ∀ fuel iter w', treePass self fuel i iter w = .ok w' →
        (Consistent M w' i ∧ AtLength M w' i) ∧
        (iter = true → ∀ j, Desc w i j → Consistent M w' j ∧ AtLength M w' j) := by
    intro self hl hself fuel iter w' h
    obtain ⟨hsh, -⟩ := treePass_spec hl fuel i iter w w' h
    have hsz : ∀ j, Desc w i j → 0 ≤ (w'.segs j).size := fun j hj => by
      rw [hsh.size]; exact hz j hj
    have hall : iter = true → ∀ j, Desc w i j → Consistent M w' j ∧ AtLength M w' j := by
      intro hi j hj
      subst hi
      have hc := treePass_all hl (consistent_local M) hself fuel i w w' hw h j hj
      exact ⟨hc, atLength_of_consistent hM w' j hc (hsz j hj)⟩
    refine ⟨?_, hall⟩
    obtain ⟨w1, h1, he⟩ := treePass_self hl fuel i iter w w' hw h
    cases iter with
    | true => exact hall rfl i (Desc.refl i)
    | false =>
      cases fuel with
      | zero => simp [treePass] at h
      | succ fuel =>
        simp only [treePass, h1, Bool.false_eq_true, if_false, Except.ok.injEq] at h
        subst h
        have hc := hself i w w1 hw h1
        exact ⟨hc, atLength_of_consistent hM w1 i hc (hsz i (Desc.refl i))⟩
  refine ⟨?_, ?_, ?_, ?_⟩
  · intro fuel iter flex w' h
    rw [updateRelative_eq_treePass] at h
    exact all _ (updateSelf_local M flex)
      (fun i w w1 hw' h' => updateSelf_consistent M i flex w w1 hw' h') fuel iter w' h
  · intro fuel iter w' h
    rw [follow_eq_treePass] at h
    exact all _ (followStep_local M) (followStep_consistent M) fuel iter w' h
  · intro fuel iter flex hs hn hf
    exact updateRelative_ok M fuel i iter flex w hw hs hn hf
  · intro hd hs
    exact follow_ok M 0 i w hd hs

/-- Consistency, checked on a segment of size 1 at rest below a Creature at the
origin. -/
theorem segment_consistency_witness :
    (∃ w', updateRelative realMath 1 0 true true
        (World.single (Segment.atRest (0 : ℝ) 1 1 1)) = .ok w') ∧
    (∀ fuel iter flex w', updateRelative realMath fuel 0 iter flex
        (World.single (Segment.atRest (0 : ℝ) 1 1 1)) = .ok w' →
      (Consistent realMath w' 0 ∧ AtLength realMath w' 0) ∧
      (iter = true → ∀ j, Desc (World.single (Segment.atRest (0 : ℝ) 1 1 1)) 0 j →
        Consistent realMath w' j ∧ AtLength realMath w' j)) :=
  have h := segment_consistency realMath realMath_exact
    (World.single (Segment.atRest (0 : ℝ) 1 1 1)) 0
    (single_wf _) (fun j _ => by simp [World.single, Segment.atRest])
  ⟨h.2.2.1 1 true true (fun _ j _ => by simp [World.single, Segment.atRest])
    (by simp [World.single]) (by decide), h.1⟩

/-- C3 fails on the code: a segment of size 0 ≥ 0 lies on its parent after its
construction; `follow(false)` divides 0 by 0 (script.js 178-181) and yields no
state in which `absAngle == parent.absAngle + relAngle` and the end is at
distance `size` from the parent, against the description of `follow`
(script.js 171-172, 179). -/
theorem segment_consistency_fault :
    (0 : ℝ) ≤ ((World.single (Segment.atRest (0 : ℝ) 0 2 1)).segs 0).size ∧
    follow realMath 1 0 false (World.single (Segment.atRest (0 : ℝ) 0 2 1))
      = .error .divByZero ∧
    ¬ ∃ w', follow realMath 1 0 false (World.single (Segment.atRest (0 : ℝ) 0 2 1)) = .ok w' ∧
      Consistent realMath w' 0 := by
  have h1 : follow realMath 1 0 false (World.single (Segment.atRest (0 : ℝ) 0 2 1))
      = .error .divByZero := by
    simp [follow, followSelf, jsDiv, World.single, Segment.atRest, World.nodeX, World.nodeY,
      Creature.atOrigin, realMath]
  refine ⟨by simp [World.single, Segment.atRest], h1, ?_⟩
  rintro ⟨w', hw', -⟩
  rw [h1] at hw'
  cases hw'

end Consistency

/-! ### C8, C9: the LimbSystem constructor -/

section Constructor

variable {K : Type}

/-- In a parent chain, consecutive elements are child and parent. -/
theorem IsChain.get_parent {w : World K} : ∀ {h : Ref} {l : List Nat} (_ : IsChain w h l)
    (i a b : Nat), l[i]? = some a → l[i + 1]? = some b → (w.segs b).parent = Ref.seg a
  | _, [], _, _, _, _, ha, _ => by simp at ha
  | _, [_], _, i, _, _, _, hb => by
    cases i <;> simp at hb
  | _, n :: m :: rest, hc, 0, a, b, ha, hb => by
    simp only [List.getElem?_cons_zero, List.getElem?_cons_succ, Option.some.injEq] at ha hb
    subst ha hb
    exact hc.2.1
  | _, n :: m :: rest, hc, i + 1, a, b, ha, hb => by
    rw [List.getElem?_cons_succ] at ha hb
    exact IsChain.get_parent hc.2 i a b ha hb

/-- Being a parent chain depends on the `parent` fields only. -/
theorem IsChain.of_parent_eq {w w' : World K}
    (hp : ∀ j, (w'.segs j).parent = (w.segs j).parent) :
    ∀ {h : Ref} {l : List Nat}, IsChain w h l → IsChain w' h l
  | _, [], _ => trivial
  | _, _ :: _, hc => ⟨(hp _).trans hc.1, IsChain.of_parent_eq hp hc.2⟩

/-- What the constructor's loop returns, from an iteration that starts at
`node` with `nodes` collected so far. -/
theorem collectNodes_spec (w : World K) (endSeg : Nat) :
    ∀ (k i node : Nat) (nodes : List Nat) (len : Int),
      IsChain w (Ref.seg node) nodes →
      ((nodes = [] ∧ node = endSeg) ∨ nodes.getLast? = some endSeg) →
      (∀ n0 rest, (collectNodes w k i node nodes len).1 = n0 :: rest →
        IsChain w (w.segs n0).parent (n0 :: rest)) ∧
      ((0 < k ∨ nodes ≠ []) → (collectNodes w k i node nodes len).1.getLast? = some endSeg) ∧
      ((0 < k ∨ nodes ≠ []) → (collectNodes w k i node nodes len).1 ≠ [])
  | 0, i, node, nodes, len, hc, hl => by
    simp only [collectNodes, lt_irrefl, false_or]
    refine ⟨?_, ?_, fun h => h⟩
    · intro n0 rest he
      subst he
      exact ⟨rfl, hc.2⟩
    · intro hne
      rcases hl with ⟨h, -⟩ | h
      · exact absurd h hne
      · exact h
  | k + 1, i, node, nodes, len, hc, hl => by
    have hlast : (node :: nodes).getLast? = some endSeg := by
      rcases hl with ⟨h1, h2⟩ | h
      · simp [h1, h2]
      · cases nodes with
        | nil => simp at h
        | cons a t => simpa [List.getLast?_cons_cons] using h
    simp only [collectNodes]
    cases hp : (w.segs node).parent with
    | creature =>
      refine ⟨?_, fun _ => hlast, fun _ => by simp⟩
      intro n0 rest he
      simp only [List.cons.injEq] at he
      obtain ⟨rfl, rfl⟩ := he
      exact ⟨rfl, hc⟩
    | seg p =>
      have hc' : IsChain w (Ref.seg p) (node :: nodes) := ⟨hp, hc⟩
      obtain ⟨h1, h2, h3⟩ := collectNodes_spec w endSeg k (i + 1) p (node :: nodes) len hc'
        (Or.inr hlast)
      exact ⟨h1, fun _ => h2 (Or.inr (by simp)), fun _ => h3 (Or.inr (by simp))⟩

/-- The number of nodes the constructor's loop collects and the `length` it
leaves, for a start `d` links below the Creature with `k` iterations allowed. -/
theorem collectNodes_length (w : World K) :
    ∀ (k i node d : Nat) (nodes : List Nat) (len : Int), HasDepth w node d →
      (collectNodes w k i node nodes len).1.length = nodes.length + min k d ∧
      (collectNodes w k i node nodes len).2 = (if k < d then len else ((i + d : Nat) : Int)) ∧
      (d ≤ k → ∀ n0 rest, (collectNodes w k i node nodes len).1 = n0 :: rest →
        (w.segs n0).parent = Ref.creature)
  | 0, i, node, d, nodes, len, hd => by
    have hd1 : 0 < d := by cases hd <;> omega
    simp only [collectNodes, Nat.zero_min, add_zero, hd1, if_true, true_and]
    intro h
    omega
  | k + 1, i, node, d, nodes, len, hd => by
    simp only [collectNodes]
    cases hd with
    | root hp =>
      simp only [hp, List.length_cons]
      refine ⟨by simp, by simp, ?_⟩
      intro _ n0 rest he
      simp only [List.cons.injEq] at he
      rw [← he.1]
      exact hp
    | @link _ p d' hp hd' =>
      simp only [hp]
      obtain ⟨h1, h2, h3⟩ := collectNodes_length w k (i + 1) p d' (node :: nodes) len hd'
      refine ⟨?_, ?_, fun h => h3 (by omega)⟩
      · rw [h1, List.length_cons, Nat.succ_min_succ]
        omega
      · rw [h2]
        by_cases hk : k < d'
        · simp [hk]
        · simp only [hk, if_false, Nat.add_lt_add_iff_right]
          congr 1
          omega

/-- For a requested length `L ≥ 1` the constructor's loop collects a
non-empty parent chain that ends in `end`. -/
theorem collectNodes_chain (w : World K) (endSeg : Nat) (L : Int) (hL : 1 ≤ L) :
    ∃ n0 rest, (collectNodes w L.toNat 0 endSeg [] (max 1 L)).1 = n0 :: rest ∧
      IsChain w (w.segs n0).parent (n0 :: rest) ∧ (n0 :: rest).getLast? = some endSeg := by
  have hk : 0 < L.toNat := by omega
  obtain ⟨h1, h2, h3⟩ := collectNodes_spec w endSeg L.toNat 0 endSeg [] (max 1 L) trivial
    (Or.inl ⟨rfl, rfl⟩)
  have hlast := h2 (Or.inl hk)
  cases hr : (collectNodes w L.toNat 0 endSeg [] (max 1 L)).1 with
  | nil => exact absurd hr (h3 (Or.inl hk))
  | cons n0 rest =>
    rw [hr] at hlast
    exact ⟨n0, rest, rfl, h1 n0 rest hr, hlast⟩

/-- The object the constructor returns when its loop has collected
`n0 :: rest`. -/
theorem new_of_nodes (w : World K) (endSeg : Nat) (L : Int) (speed : K) (n0 : Nat)
    (rest : List Nat) (hr : (collectNodes w L.toNat 0 endSeg [] (max 1 L)).1 = n0 :: rest) :
    LimbSystem.new endSeg L speed w = .ok
      ({ endSeg := endSeg
         length := (collectNodes w L.toNat 0 endSeg [] (max 1 L)).2
         speed := speed
         nodes := n0 :: rest
         hip := (w.segs n0).parent },
       { w with creature := { w.creature with systems := w.creature.systems ++ [System.limb
          { endSeg := endSeg
            length := (collectNodes w L.toNat 0 endSeg [] (max 1 L)).2
            speed := speed
            nodes := n0 :: rest
            hip := (w.segs n0).parent }] } }) := by
  simp only [LimbSystem.new, hr]

/-- C8: for an integer requested length `L ≥ 1` the constructor returns a
LimbSystem whose `nodes` is non-empty and a strict parent chain ordered root to
tip (`nodes[i+1].parent == nodes[i]`, `nodes[0].parent == hip`) ending in
`end`, and it appends the new system to `creature.systems`; the segments are
untouched. -/
theorem limb_chain_structure (w : World K) (endSeg : Nat) (L : Int) (speed : K) (hL : 1 ≤ L) :
    ∃ sys w', LimbSystem.new endSeg L speed w = .ok (sys, w') ∧
      sys.nodes ≠ [] ∧
      (∀ i a b, sys.nodes[i]? = some a → sys.nodes[i + 1]? = some b →
        (w'.segs b).parent = Ref.seg a) ∧
      (∀ a, sys.nodes.head? = some a → (w'.segs a).parent = sys.hip) ∧
      sys.nodes.getLast? = some endSeg ∧ sys.endSeg = endSeg ∧
      w'.creature.systems = w.creature.systems ++ [System.limb sys] ∧
      w'.segs = w.segs ∧ sys.WF w' := by
  obtain ⟨n0, rest, hr, hchain, hlast⟩ := collectNodes_chain w endSeg L hL
  refine ⟨_, _, new_of_nodes w endSeg L speed n0 rest hr, by simp, ?_, ?_, hlast, rfl, rfl, rfl,
    ⟨by refine IsChain.of_parent_eq (w := w) ?_ hchain; intro j; rfl, hlast⟩⟩
  · intro i a b ha hb
    exact IsChain.get_parent (w := w) hchain i a b ha hb
  · intro a ha
    simp only [List.head?_cons, Option.some.injEq] at ha
    rw [← ha]

/-- C8, checked on the tip of a two-segment chain with requested length 2. -/
theorem limb_chain_structure_witness :
    ∃ sys w', LimbSystem.new 1 2 (1 : ℚ)
        (World.chain2 (Segment.atRest (0 : ℚ) 5 1 1) (Segment.atRest 5 5 1 1)) = .ok (sys, w') ∧
      sys.nodes ≠ [] ∧ sys.nodes.getLast? = some 1 ∧
      w'.creature.systems = [System.limb sys] :=
  have ⟨sys, w', h, hne, _, _, hl, _, hs, _, _⟩ := limb_chain_structure
    (World.chain2 (Segment.atRest (0 : ℚ) 5 1 1) (Segment.atRest 5 5 1 1)) 1 2 (1 : ℚ) (by decide)
  ⟨sys, w', h, hne, hl, by simpa [World.chain2, Creature.atOrigin] using hs⟩

/-- C9: for an end segment `d` links below the Creature and an integer
requested length `L ≥ 1`, the constructor returns, with
`nodes.length == this.length == min(L, d)`; when `L ≥ d` the chain is cut at
`d` nodes and the hip is the Creature. -/
theorem chain_truncation (w : World K) (endSeg d : Nat) (L : Int) (speed : K)
    (hd : HasDepth w endSeg d) (hL : 1 ≤ L) :
    ∃ sys w', LimbSystem.new endSeg L speed w = .ok (sys, w') ∧
      (sys.nodes.length : Int) = min L d ∧ sys.length = min L d ∧
      ((d : Int) ≤ L → sys.nodes.length = d ∧ sys.hip = Ref.creature) := by
  obtain ⟨n0, rest, hr, -, -⟩ := collectNodes_chain w endSeg L hL
  obtain ⟨h1, h2, h3⟩ := collectNodes_length w L.toNat 0 endSeg d [] (max 1 L) hd
  rw [hr] at h1 h3
  simp only [List.length_nil, zero_add] at h1
  refine ⟨_, _, new_of_nodes w endSeg L speed n0 rest hr, ?_, ?_, ?_⟩
  · simp only [h1]
    omega
  · simp only [h2]
    by_cases hk : L.toNat < d
    · simp only [hk, if_true]
      omega
    · simp only [hk, if_false]
      omega
  · intro hdL
    exact ⟨by simp only [h1]; omega, h3 (by omega) n0 rest rfl⟩

/-- C9, checked on the tip of a two-segment chain with requested length 5:
the chain is cut at 2 nodes. -/
theorem chain_truncation_witness :
    ∃ sys w', LimbSystem.new 1 5 (1 : ℚ)
        (World.chain2 (Segment.atRest (0 : ℚ) 5 1 1) (Segment.atRest 5 5 1 1)) = .ok (sys, w') ∧
      sys.nodes.length = 2 ∧ sys.length = 2 ∧ sys.hip = Ref.creature :=
  have ⟨sys, w', h, _, hlen, htr⟩ := chain_truncation
    (World.chain2 (Segment.atRest (0 : ℚ) 5 1 1) (Segment.atRest 5 5 1 1)) 1 2 5 (1 : ℚ)
    (HasDepth.link (p := 0) (by simp [World.chain2]) (HasDepth.root (by simp [World.chain2])))
    (by decide)
  ⟨sys, w', h, (htr (by decide)).1, by simpa using hlen, (htr (by decide)).2⟩

end Constructor

/-! ### C7: Scenario A -/

section ScenarioA

variable {K : Type} [LinearOrderedField K] [FloorRing K]

/-- In Scenario A the new `relAngle` is `PI / 4`: it is inside the range
`[-PI / 2, PI / 2]` and the clamp leaves it. -/
theorem scenarioA_newRel (M : JSMath K) (hpi : 0 < M.PI) :
    newRel M ((scenarioA M).segs 0) true = .ok (M.PI / 4) := by
  have hne : M.PI ≠ 0 := ne_of_gt hpi
  have hfl : (⌊(M.PI / 4 - 0) / 2 / M.PI + 1 / 2⌋ : ℤ) = 0 := by
    rw [Int.floor_eq_zero_iff]
    have : (M.PI / 4 - 0) / 2 / M.PI + 1 / 2 = 5 / 8 := by
      field_simp
      ring
    rw [this]
    constructor <;> norm_num
  have hw : wrapRel M ((scenarioA M).segs 0) = M.PI / 4 := by
    simp only [wrapRel, scenarioA, World.single, Segment.turned, hfl]
    simp
  rw [newRel_flex M _ (by simp [scenarioA, World.single, Segment.turned]), hw]
  simp only [scenarioA, World.single, Segment.turned, sub_zero, div_one, add_zero, zero_add,
    zero_sub]
  rw [max_eq_right (by linarith), min_eq_right (by linarith)]

/-- C7 (amended): in Scenario A one call `updateRelative(false, true)` leaves
`relAngle == PI / 4` (inside the range, so not clamped) and puts the end at
`(10 * cos(PI / 4), 10 * sin(PI / 4))`. -/
theorem scenario_A (M : JSMath K) (hpi : 0 < M.PI) :
    ∃ w', updateRelative M 1 0 false true (scenarioA M) = .ok w' ∧
      (w'.segs 0).relAngle = M.PI / 4 ∧
      (w'.segs 0).x = 10 * M.cos (M.PI / 4) ∧ (w'.segs 0).y = 10 * M.sin (M.PI / 4) := by
  have hn := scenarioA_newRel M hpi
  refine ⟨_, updateRelative_of_newRel M 0 true _ _ hn, ?_, ?_, ?_⟩
  · simp only [setSeg_segs_self]
  · simp only [setSeg_segs_self]
    simp [scenarioA, World.single, Segment.turned, World.nodeX, World.nodeAbsAngle,
      Creature.atOrigin, mul_comm]
  · simp only [setSeg_segs_self]
    simp [scenarioA, World.single, Segment.turned, World.nodeY, World.nodeAbsAngle,
      Creature.atOrigin, mul_comm]

/-- C7, over the real numbers. -/
theorem scenario_A_witness :
    ∃ w', updateRelative realMath 1 0 false true (scenarioA realMath) = .ok w' ∧
      (w'.segs 0).relAngle = Real.pi / 4 ∧
      (w'.segs 0).x = 10 * Real.cos (Real.pi / 4) ∧ (w'.segs 0).y = 10 * Real.sin (Real.pi / 4) :=
  scenario_A realMath Real.pi_pos

/-- C7 as stated fails: in Scenario A the call returns a state whose
`relAngle` is `PI / 4`, not `PI / 2`, so the end is not at `(0, 10)`. -/
theorem scenario_A_counterexample :
    ∃ w', updateRelative realMath 1 0 false true (scenarioA realMath) = .ok w' ∧
      ¬ ((w'.segs 0).relAngle = Real.pi / 2 ∧ (w'.segs 0).x = 0 ∧ (w'.segs 0).y = 10) := by
  have hn := scenarioA_newRel realMath Real.pi_pos
  refine ⟨_, updateRelative_of_newRel realMath 0 true _ _ hn, ?_⟩
  simp only [setSeg_segs_self]
  rintro ⟨h, -, -⟩
  have hpi := Real.pi_pos
  simp only [realMath] at h
  linarith

end ScenarioA

/-! ### The chain of a LimbSystem -/

section Chain

variable {K : Type}

/-- Ids grow along a parent chain. -/
theorem IsChain.lt_of_mem {w : World K} (hw : w.WF) :
    ∀ {n : Nat} {l : List Nat}, IsChain w (Ref.seg n) l → ∀ m ∈ l, n < m
  | _, [], _, _, hm => by simp at hm
  | n, a :: t, hc, m, hm => by
    have hna : n < a := hw.parent_lt _ _ hc.1
    rcases List.mem_cons.1 hm with rfl | hm
    · exact hna
    · exact lt_trans hna (IsChain.lt_of_mem hw hc.2 m hm)

/-- A parent chain is strictly increasing in the ids. -/
theorem IsChain.pairwise {w : World K} (hw : w.WF) :
    ∀ {h : Ref} {l : List Nat}, IsChain w h l → l.Pairwise (· < ·)
  | _, [], _ => List.Pairwise.nil
  | _, _ :: _, hc =>
    List.Pairwise.cons (fun m hm => IsChain.lt_of_mem hw hc.2 m hm) (IsChain.pairwise hw hc.2)

/-- The parent of a chain node is the hip, for the first node, or a chain
node. -/
theorem IsChain.parent_mem {w : World K} :
    ∀ {h : Ref} {l : List Nat}, IsChain w h l → ∀ k ∈ l,
      (l.head? = some k ∧ (w.segs k).parent = h) ∨ ∃ q ∈ l, (w.segs k).parent = Ref.seg q
  | _, [], _, _, hk => by simp at hk
  | h, a :: t, hc, k, hk => by
    rcases List.mem_cons.1 hk with rfl | hk
    · exact Or.inl ⟨rfl, hc.1⟩
    · right
      rcases IsChain.parent_mem hc.2 k hk with ⟨-, hp⟩ | ⟨q, hq, hp⟩
      · exact ⟨a, List.mem_cons_self _ _, hp⟩
      · exact ⟨q, List.mem_cons_of_mem _ hq, hp⟩

/-- The subtree of a child off the chain holds no chain node. -/
theorem chain_not_desc {w : World K} (hw : w.WF) {h : Ref} {l : List Nat} (hc : IsChain w h l)
    {m c : Nat} (hm : m ∈ l) (hcm : c ∈ (w.segs m).children) (hcl : c ∉ l) :
    ∀ k, k ∈ l → ¬ Desc w c k := by
  intro k
  induction k using Nat.strong_induction_on with
  | _ k ih =>
    intro hk hd
    have hkc : k ≠ c := fun e => hcl (e ▸ hk)
    obtain ⟨p, hdp, hkp⟩ := hd.exists_parent hkc
    have hpar := hw.child_parent _ _ hkp
    have hpk : p < k := hw.parent_lt _ _ hpar
    rcases IsChain.parent_mem hc k hk with ⟨hhead, hph⟩ | ⟨q, hq, hpq⟩
    · have hmc : m < c := hw.parent_lt _ _ (hw.child_parent _ _ hcm)
      have hcp : c ≤ p := hdp.le hw
      have hkm : k ≤ m := by
        cases l with
        | nil => simp at hm
        | cons a t =>
          simp only [List.head?_cons, Option.some.injEq] at hhead
          subst hhead
          rcases List.mem_cons.1 hm with rfl | hm'
          · exact le_rfl
          · exact (IsChain.lt_of_mem hw hc.2 m hm').le
      omega
    · rw [hpar] at hpq
      injection hpq with hpq
      subst hpq
      exact ih p hpk hq hdp

end Chain

/-! ### The loops of `moveTo` -/

section MoveTo

variable {K : Type} [LinearOrderedField K] [FloorRing K]

/-- The loop over the children of a chain node in `moveTo`: the children off
the chain are updated with their subtrees, and nothing else changes. -/
theorem sideBranches_spec (M : JSMath K) (nodes : List Nat) (cs : List Nat) (w w' : World K)
    (h : forEach (fun c w2 =>
      if c ∈ nodes then .ok w2 else updateRelative M (w2.segmentCount + 1) c true false w2)
      cs w = .ok w') :
    SameShape w w' ∧
      ∀ j, (∀ c ∈ cs, c ∉ nodes → ¬ Desc w c j) → w'.segs j = w.segs j := by
  refine forEach_inv (P := fun w2 => SameShape w w2 ∧
    ∀ j, (∀ c ∈ cs, c ∉ nodes → ¬ Desc w c j) → w2.segs j = w.segs j) cs w w' ?_
    ⟨SameShape.rfl' w, fun _ _ => rfl⟩ h
  intro c hc w1 w2 ⟨hsh, hfr⟩ hstep
  by_cases hcn : c ∈ nodes
  · simp only [hcn, if_true, Except.ok.injEq] at hstep
    exact hstep ▸ ⟨hsh, hfr⟩
  · simp only [hcn, if_false] at hstep
    rw [updateRelative_eq_treePass] at hstep
    obtain ⟨hsh2, hfr2⟩ := treePass_spec (updateSelf_local M false) _ c true w1 w2 hstep
    refine ⟨hsh.andThen hsh2, fun j hj => ?_⟩
    rw [hfr2 j (fun hd => hj c hc hcn (hsh.symm.desc hd)), hfr j hj]

/-- The loop over the children of a chain node in `moveTo` returns. -/
theorem sideBranches_ok (M : JSMath K) (nodes : List Nat) (cs : List Nat) (w : World K)
    (hw : w.WF) :
    ∃ w', forEach (fun c w2 =>
      if c ∈ nodes then .ok w2 else updateRelative M (w2.segmentCount + 1) c true false w2)
      cs w = .ok w' := by
  obtain ⟨w', h, -⟩ := forEach_ok (f := fun c w2 =>
      if c ∈ nodes then .ok w2 else updateRelative M (w2.segmentCount + 1) c true false w2)
    (P := fun w2 => SameShape w w2) cs w (by
    intro c _ w1 hsh
    by_cases hcn : c ∈ nodes
    · exact ⟨w1, by simp [hcn], hsh⟩
    · obtain ⟨w2, h2⟩ := updateRelative_ok M (w1.segmentCount + 1) c true false w1 (hsh.wf hw)
        (fun hf => by cases hf) (by omega) (by omega)
      refine ⟨w2, by simp [hcn, h2], hsh.andThen ?_⟩
      rw [updateRelative_eq_treePass] at h2
      exact (treePass_spec (updateSelf_local M false) _ c true w1 w2 h2).1) (SameShape.rfl' w)
  exact ⟨w', h⟩

/-- The second loop of `moveTo` returns. -/
theorem rederive_ok (M : JSMath K) (nodes : List Nat) :
    ∀ (l : List Nat) (w : World K), w.WF → ∃ w', rederive M nodes l w = .ok w'
  | [], w, _ => ⟨w, rfl⟩
  | i :: rest, w, hw => by
    have hsh1 : SameShape w (w.setSeg i { w.segs i with
        absAngle := M.atan2 ((w.segs i).y - w.nodeY (w.segs i).parent)
          ((w.segs i).x - w.nodeX (w.segs i).parent)
        relAngle := M.atan2 ((w.segs i).y - w.nodeY (w.segs i).parent)
          ((w.segs i).x - w.nodeX (w.segs i).parent) - w.nodeAbsAngle (w.segs i).parent }) :=
      setSeg_sameShape _ _ _ rfl rfl rfl rfl rfl rfl
    obtain ⟨w3, h3⟩ := sideBranches_ok M nodes (w.segs i).children _ (hsh1.wf hw)
    obtain ⟨hsh3, -⟩ := sideBranches_spec M nodes _ _ _ h3
    obtain ⟨w', h'⟩ := rederive_ok M nodes rest w3 (hsh3.wf (hsh1.wf hw))
    exact ⟨w', by simp only [rederive, h3, h']⟩

/-- The second loop of `moveTo` keeps the shape, changes only the chain nodes
it visits and the subtrees of their children off the chain, and moves no
segment outside those subtrees. -/
theorem rederive_spec (M : JSMath K) (nodes : List Nat) :
    ∀ (l : List Nat) (w w' : World K), rederive M nodes l w = .ok w' →
      SameShape w w' ∧
      (∀ j, j ∉ l → (∀ m ∈ l, ∀ c ∈ (w.segs m).children, c ∉ nodes → ¬ Desc w c j) →
        w'.segs j = w.segs j) ∧
      (∀ j, (∀ m ∈ l, ∀ c ∈ (w.segs m).children, c ∉ nodes → ¬ Desc w c j) →
        (w'.segs j).x = (w.segs j).x ∧ (w'.segs j).y = (w.segs j).y)
  | [], w, w', h => by
    simp only [rederive, Except.ok.injEq] at h
    subst h
    exact ⟨SameShape.rfl' w, fun _ _ _ => rfl, fun _ _ => ⟨rfl, rfl⟩⟩
  | i :: rest, w, w', h => by
    simp only [rederive] at h
    generalize hw1 : w.setSeg i { w.segs i with
        absAngle := M.atan2 ((w.segs i).y - w.nodeY (w.segs i).parent)
          ((w.segs i).x - w.nodeX (w.segs i).parent)
        relAngle := M.atan2 ((w.segs i).y - w.nodeY (w.segs i).parent)
          ((w.segs i).x - w.nodeX (w.segs i).parent) - w.nodeAbsAngle (w.segs i).parent } = w1 at h
    have hsh1 : SameShape w w1 := hw1 ▸ setSeg_sameShape _ _ _ rfl rfl rfl rfl rfl rfl
    have hne1 : ∀ j, j ≠ i → w1.segs j = w.segs j := fun j hj => hw1 ▸ setSeg_segs_ne _ _ hj
    have hxy1 : ∀ j, (w1.segs j).x = (w.segs j).x ∧ (w1.segs j).y = (w.segs j).y := by
      intro j
      by_cases hj : j = i
      · subst hj
        rw [← hw1, setSeg_segs_self]
        exact ⟨rfl, rfl⟩
      · rw [hne1 j hj]
        exact ⟨rfl, rfl⟩
    cases h3 : forEach (fun c w2 =>
        if c ∈ nodes then .ok w2 else updateRelative M (w2.segmentCount + 1) c true false w2)
        (w.segs i).children w1 with
    | error e => simp [h3] at h
    | ok w3 =>
      simp only [h3] at h
      obtain ⟨hsh3, hfr3⟩ := sideBranches_spec M nodes _ _ _ h3
      obtain ⟨hsh', hfr', hxy'⟩ := rederive_spec M nodes rest w3 w' h
      have hsh13 := hsh1.andThen hsh3
      have hside : ∀ j, (∀ m ∈ i :: rest, ∀ c ∈ (w.segs m).children, c ∉ nodes → ¬ Desc w c j) →
          w3.segs j = w1.segs j ∧
          ∀ m ∈ rest, ∀ c ∈ (w3.segs m).children, c ∉ nodes → ¬ Desc w3 c j := by
        intro j hj
        refine ⟨hfr3 j (fun c hc hcn hd => hj i (List.mem_cons_self _ _) c hc hcn
          (hsh1.symm.desc hd)), ?_⟩
        intro m hm c hc hcn hd
        rw [hsh13.children] at hc
        exact hj m (List.mem_cons_of_mem _ hm) c hc hcn (hsh13.symm.desc hd)
      refine ⟨hsh13.andThen hsh', ?_, ?_⟩
      · intro j hjl hj
        obtain ⟨h31, hrest⟩ := hside j hj
        rw [hfr' j (fun hm => hjl (List.mem_cons_of_mem _ hm)) hrest, h31,
          hne1 j (fun e => hjl (e ▸ List.mem_cons_self _ _))]
      · intro j hj
        obtain ⟨h31, hrest⟩ := hside j hj
        obtain ⟨hx, hy⟩ := hxy' j hrest
        rw [hx, hy, h31]
        exact hxy1 j

theorem anglesFromPosition_local (M : JSMath K) : LocalProp (AnglesFromPosition M) := by
  intro w w' j hsh hj hq hc
  obtain ⟨hx, hy, ha⟩ := node_eq hsh (w.segs j).parent hq
  simp only [AnglesFromPosition, hj, hx, hy, ha] at hc ⊢
  exact hc

/-- After the second loop of `moveTo` every chain node it visited has its
angles read off the positions. -/
theorem rederive_angles (M : JSMath K) (nodes : List Nat) :
    ∀ (l : List Nat) (w w' : World K), w.WF → l.Pairwise (· < ·) →
      rederive M nodes l w = .ok w' → ∀ b ∈ l, AnglesFromPosition M w' b
  | [], _, _, _, _, _, _, hb => by simp at hb
  | i :: rest, w, w', hw, hp, h, b, hb => by
    have hfull := rederive_spec M nodes (i :: rest) w w' h
    simp only [rederive] at h
    generalize hw1 : w.setSeg i { w.segs i with
        absAngle := M.atan2 ((w.segs i).y - w.nodeY (w.segs i).parent)
          ((w.segs i).x - w.nodeX (w.segs i).parent)
        relAngle := M.atan2 ((w.segs i).y - w.nodeY (w.segs i).parent)
          ((w.segs i).x - w.nodeX (w.segs i).parent) - w.nodeAbsAngle (w.segs i).parent } = w1 at h
    have hsh1 : SameShape w w1 := hw1 ▸ setSeg_sameShape _ _ _ rfl rfl rfl rfl rfl rfl
    have hQ1 : AnglesFromPosition M w1 i := by
      obtain ⟨hx, hy, ha⟩ := setSeg_node_ne w i { w.segs i with
        absAngle := M.atan2 ((w.segs i).y - w.nodeY (w.segs i).parent)
          ((w.segs i).x - w.nodeX (w.segs i).parent)
        relAngle := M.atan2 ((w.segs i).y - w.nodeY (w.segs i).parent)
          ((w.segs i).x - w.nodeX (w.segs i).parent) - w.nodeAbsAngle (w.segs i).parent }
        (w.segs i).parent (WF.parent_ne hw i)
      rw [← hw1]
      simp only [AnglesFromPosition, setSeg_segs_self, hx, hy, ha]
      exact ⟨trivial, trivial⟩
    cases h3 : forEach (fun c w2 =>
        if c ∈ nodes then .ok w2 else updateRelative M (w2.segmentCount + 1) c true false w2)
        (w.segs i).children w1 with
    | error e => simp [h3] at h
    | ok w3 =>
      simp only [h3] at h
      obtain ⟨hsh3, hfr3⟩ := sideBranches_spec M nodes _ _ _ h3
      have hw1' : w1.WF := hsh1.wf hw
      have hw3 : w3.WF := hsh3.wf hw1'
      obtain ⟨hsh', hfr', -⟩ := rederive_spec M nodes rest w3 w' h
      rcases List.mem_cons.1 hb with rfl | hb
      · have hlow : ∀ j, j ≤ b → w'.segs j = w1.segs j := by
          intro j hj
          have h1 : w3.segs j = w1.segs j := by
            refine hfr3 j (fun c hc _ hd => ?_)
            have hcw : c ∈ (w1.segs b).children := by rwa [hsh1.children]
            exact not_desc_of_child hw1' hcw hj hd
          rw [← h1]
          refine hfr' j (fun hm => ?_) (fun m hm c hc _ hd => ?_)
          · have := (List.pairwise_cons.1 hp).1 j hm
            omega
          · have := (List.pairwise_cons.1 hp).1 m hm
            exact not_desc_of_child hw3 hc (by omega) hd
        refine anglesFromPosition_local M w1 w' b (hsh3.andThen hsh') (hlow b le_rfl)
          (fun q hq => hlow q (hw1'.parent_lt _ _ hq).le) hQ1
      · exact rederive_angles M nodes rest w3 w' hw3 (List.pairwise_cons.1 hp).2 h b hb

theorem placeNodes_cons (M : JSMath K) (i : Nat) (rest : List Nat) (x y len : K) (w : World K) :
    placeNodes M (i :: rest) x y len w
      = placeNodes M rest
          (x + len * M.cos (M.atan2 ((w.segs i).y - y) ((w.segs i).x - x)))
          (y + len * M.sin (M.atan2 ((w.segs i).y - y) ((w.segs i).x - x))) (w.segs i).size
          (w.setSeg i { w.segs i with
            x := x + len * M.cos (M.atan2 ((w.segs i).y - y) ((w.segs i).x - x))
            y := y + len * M.sin (M.atan2 ((w.segs i).y - y) ((w.segs i).x - x)) }) := rfl

/-- The first loop of `moveTo` keeps the shape and the angles, and changes
only the nodes it places. -/
theorem placeNodes_spec (M : JSMath K) :
    ∀ (l : List Nat) (x y len : K) (w : World K),
      SameShape w (placeNodes M l x y len w) ∧
      (∀ j, j ∉ l → (placeNodes M l x y len w).segs j = w.segs j) ∧
      (∀ j, ((placeNodes M l x y len w).segs j).absAngle = (w.segs j).absAngle ∧
        ((placeNodes M l x y len w).segs j).relAngle = (w.segs j).relAngle)
  | [], _, _, _, w => ⟨SameShape.rfl' w, fun _ _ => rfl, fun _ => ⟨rfl, rfl⟩⟩
  | i :: rest, x, y, len, w => by
    rw [placeNodes_cons]
    generalize hw1 : w.setSeg i { w.segs i with
        x := x + len * M.cos (M.atan2 ((w.segs i).y - y) ((w.segs i).x - x))
        y := y + len * M.sin (M.atan2 ((w.segs i).y - y) ((w.segs i).x - x)) } = w1
    have hsh1 : SameShape w w1 := hw1 ▸ setSeg_sameShape _ _ _ rfl rfl rfl rfl rfl rfl
    have hne1 : ∀ j, j ≠ i → w1.segs j = w.segs j := fun j hj => hw1 ▸ setSeg_segs_ne _ _ hj
    obtain ⟨hsh, hfr, hang⟩ := placeNodes_spec M rest
      (x + len * M.cos (M.atan2 ((w.segs i).y - y) ((w.segs i).x - x)))
      (y + len * M.sin (M.atan2 ((w.segs i).y - y) ((w.segs i).x - x))) (w.segs i).size w1
    refine ⟨hsh1.andThen hsh, ?_, ?_⟩
    · intro j hj
      rw [hfr j (fun hm => hj (List.mem_cons_of_mem _ hm)),
        hne1 j (fun e => hj (e ▸ List.mem_cons_self _ _))]
    · intro j
      rw [(hang j).1, (hang j).2]
      by_cases hj : j = i
      · subst hj
        rw [← hw1, setSeg_segs_self]
        exact ⟨rfl, rfl⟩
      · rw [hne1 j hj]
        exact ⟨rfl, rfl⟩

/-- The first node the first loop of `moveTo` places ends at distance `len`
from the anchor, in the direction from the anchor to its old position. -/
theorem placeNodes_head (M : JSMath K) (m : Nat) (rest : List Nat) (x y len : K) (w : World K)
    (hm : m ∉ rest) :
    ((placeNodes M (m :: rest) x y len w).segs m).x
        = x + len * M.cos (M.atan2 ((w.segs m).y - y) ((w.segs m).x - x)) ∧
    ((placeNodes M (m :: rest) x y len w).segs m).y
        = y + len * M.sin (M.atan2 ((w.segs m).y - y) ((w.segs m).x - x)) := by
  rw [placeNodes_cons]
  rw [(placeNodes_spec M rest _ _ _ _).2.1 m hm, setSeg_segs_self]
  exact ⟨rfl, rfl⟩

/-- Two nodes the first loop of `moveTo` places one after the other: the
second ends at distance `size` of the first from the first. -/
theorem placeNodes_link (M : JSMath K) :
    ∀ (pre : List Nat) (a b : Nat) (post : List Nat) (x y len : K) (w : World K),
      (pre ++ a :: b :: post).Nodup →
      ∃ θ, ((placeNodes M (pre ++ a :: b :: post) x y len w).segs b).x
          = ((placeNodes M (pre ++ a :: b :: post) x y len w).segs a).x
            + (w.segs a).size * M.cos θ ∧
        ((placeNodes M (pre ++ a :: b :: post) x y len w).segs b).y
          = ((placeNodes M (pre ++ a :: b :: post) x y len w).segs a).y
            + (w.segs a).size * M.sin θ
  | [], a, b, post, x, y, len, w, hnd => by
    simp only [List.nil_append] at hnd ⊢
    obtain ⟨ha, hnd'⟩ := List.nodup_cons.1 hnd
    obtain ⟨hb, -⟩ := List.nodup_cons.1 hnd'
    rw [placeNodes_cons]
    generalize hw1 : w.setSeg a { w.segs a with
        x := x + len * M.cos (M.atan2 ((w.segs a).y - y) ((w.segs a).x - x))
        y := y + len * M.sin (M.atan2 ((w.segs a).y - y) ((w.segs a).x - x)) } = w1
    have hxa : (w1.segs a).x = x + len * M.cos (M.atan2 ((w.segs a).y - y) ((w.segs a).x - x)) ∧
        (w1.segs a).y = y + len * M.sin (M.atan2 ((w.segs a).y - y) ((w.segs a).x - x)) := by
      rw [← hw1, setSeg_segs_self]
      exact ⟨rfl, rfl⟩
    obtain ⟨h1, h2⟩ := placeNodes_head M b post
      (x + len * M.cos (M.atan2 ((w.segs a).y - y) ((w.segs a).x - x)))
      (y + len * M.sin (M.atan2 ((w.segs a).y - y) ((w.segs a).x - x))) (w.segs a).size w1 hb
    have hfa := (placeNodes_spec M (b :: post)
      (x + len * M.cos (M.atan2 ((w.segs a).y - y) ((w.segs a).x - x)))
      (y + len * M.sin (M.atan2 ((w.segs a).y - y) ((w.segs a).x - x)))
      (w.segs a).size w1).2.1 a ha
    exact ⟨_, by rw [h1, hfa, hxa.1], by rw [h2, hfa, hxa.2]⟩
  | m :: pre, a, b, post, x, y, len, w, hnd => by
    simp only [List.cons_append] at hnd ⊢
    obtain ⟨hm, hnd'⟩ := List.nodup_cons.1 hnd
    rw [placeNodes_cons]
    generalize hw1 : w.setSeg m { w.segs m with
        x := x + len * M.cos (M.atan2 ((w.segs m).y - y) ((w.segs m).x - x))
        y := y + len * M.sin (M.atan2 ((w.segs m).y - y) ((w.segs m).x - x)) } = w1
    have hsh1 : SameShape w w1 := hw1 ▸ setSeg_sameShape _ _ _ rfl rfl rfl rfl rfl rfl
    obtain ⟨θ, h1, h2⟩ := placeNodes_link M pre a b post
      (x + len * M.cos (M.atan2 ((w.segs m).y - y) ((w.segs m).x - x)))
      (y + len * M.sin (M.atan2 ((w.segs m).y - y) ((w.segs m).x - x))) (w.segs m).size w1 hnd'
    rw [hsh1.size] at h1 h2
    exact ⟨θ, h1, h2⟩

/-- What `moveTo` does, for a LimbSystem on a well-formed heap none of whose
relaxed segments has stiffness 0.  It returns; `w1` is the heap after the
initial `updateRelative(true, true)` of `nodes[0]`.  The end is put at distance
`len` from the target in the direction of its position in `w1`; of two
consecutive chain nodes the parent is at distance `size` of the child from the
child; and the angles of every chain node are read off the positions. -/
theorem moveTo_spec (M : JSMath K) (sys : LimbSystem K) (x y : K) (w : World K)
    (n0 : Nat) (rest : List Nat) (hn : sys.nodes = n0 :: rest) (hw : w.WF) (hs : sys.WF w)
    (hst : ∀ j, Desc w n0 j → (w.segs j).stiffness ≠ 0) :
    ∃ w1 w', updateRelative M (w.segmentCount + 1) n0 true true w = .ok w1 ∧
      sys.moveTo M x y w = .ok w' ∧ SameShape w w1 ∧ SameShape w w' ∧
      ((w'.segs sys.endSeg).x = x + max 0 (distance M x y (w1.segs sys.endSeg).x
            (w1.segs sys.endSeg).y - sys.speed)
          * M.cos (M.atan2 ((w1.segs sys.endSeg).y - y) ((w1.segs sys.endSeg).x - x)) ∧
        (w'.segs sys.endSeg).y = y + max 0 (distance M x y (w1.segs sys.endSeg).x
            (w1.segs sys.endSeg).y - sys.speed)
          * M.sin (M.atan2 ((w1.segs sys.endSeg).y - y) ((w1.segs sys.endSeg).x - x))) ∧
      (∀ pre a b post, sys.nodes = pre ++ a :: b :: post →
        ∃ θ, (w'.segs a).x = (w'.segs b).x + (w'.segs b).size * M.cos θ ∧
          (w'.segs a).y = (w'.segs b).y + (w'.segs b).size * M.sin θ) ∧
      (∀ b ∈ sys.nodes, AnglesFromPosition M w' b) ∧
      (∀ k ∈ sys.nodes,
        (w'.segs k).x = ((placeNodes M sys.nodes.reverse x y
          (max 0 (distance M x y (w1.segs sys.endSeg).x (w1.segs sys.endSeg).y - sys.speed))
          w1).segs k).x ∧
        (w'.segs k).y = ((placeNodes M sys.nodes.reverse x y
          (max 0 (distance M x y (w1.segs sys.endSeg).x (w1.segs sys.endSeg).y - sys.speed))
          w1).segs k).y) := by
  obtain ⟨w1, h1⟩ := updateRelative_ok M (w.segmentCount + 1) n0 true true w hw
    (fun _ => hst) (by omega) (by omega)
  have hsh1 : SameShape w w1 := by
    have h := h1
    rw [updateRelative_eq_treePass] at h
    exact (treePass_spec (updateSelf_local M true) _ n0 true w w1 h).1
  have hw1 : w1.WF := hsh1.wf hw
  generalize hlen : max 0 (distance M x y (w1.segs sys.endSeg).x (w1.segs sys.endSeg).y
    - sys.speed) = len
  obtain ⟨hsh2, hfr2, -⟩ := placeNodes_spec M sys.nodes.reverse x y len w1
  have hw2 : (placeNodes M sys.nodes.reverse x y len w1).WF := hsh2.wf hw1
  obtain ⟨w', h'⟩ := rederive_ok M sys.nodes sys.nodes _ hw2
  obtain ⟨hsh3, -, hxy3⟩ := rederive_spec M sys.nodes sys.nodes _ w' h'
  have hsh12 := hsh1.andThen hsh2
  have hchain2 : IsChain (placeNodes M sys.nodes.reverse x y len w1) sys.hip sys.nodes :=
    IsChain.of_parent_eq (w := w) hsh12.parent hs.chain
  have hpw : sys.nodes.Pairwise (· < ·) := IsChain.pairwise hw hs.chain
  have hnd : sys.nodes.reverse.Nodup :=
    List.nodup_reverse.2 (hpw.imp (fun h => ne_of_lt h))
  have hpos : ∀ k ∈ sys.nodes,
      (w'.segs k).x = ((placeNodes M sys.nodes.reverse x y len w1).segs k).x ∧
      (w'.segs k).y = ((placeNodes M sys.nodes.reverse x y len w1).segs k).y := by
    intro k hk
    exact hxy3 k (fun m hm c hc hcn => chain_not_desc hw2 hchain2 hm hc hcn k hk)
  have hmove : sys.moveTo M x y w = .ok w' := by
    simp only [LimbSystem.moveTo, hn, h1]
    rw [← hn]
    simp only [distance] at hlen
    rw [hlen]
    exact h'
  refine ⟨w1, w', h1, hmove, hsh1, hsh12.andThen hsh3, ?_, ?_, ?_, hlen ▸ hpos⟩
  · have hhead : sys.nodes.reverse.head? = some sys.endSeg := by
      rw [List.head?_reverse]
      exact hs.last
    cases hrev : sys.nodes.reverse with
    | nil => simp [hrev] at hhead
    | cons e t =>
      rw [hrev] at hhead hnd
      simp only [List.head?_cons, Option.some.injEq] at hhead
      subst hhead
      have hmem : sys.endSeg ∈ sys.nodes := by
        rw [← List.mem_reverse, hrev]
        exact List.mem_cons_self _ _
      obtain ⟨hx, hy⟩ := hpos _ hmem
      rw [hx, hy, hrev, hlen]
      exact placeNodes_head M _ t x y len w1 (List.nodup_cons.1 hnd).1
  · intro pre a b post hdec
    have hrev : sys.nodes.reverse = post.reverse ++ b :: a :: pre.reverse := by
      rw [hdec]
      simp
    have ha : a ∈ sys.nodes := by rw [hdec]; simp
    have hb : b ∈ sys.nodes := by rw [hdec]; simp
    obtain ⟨θ, h1', h2'⟩ := placeNodes_link M post.reverse b a pre.reverse x y len w1
      (hrev ▸ hnd)
    rw [← hrev] at h1' h2'
    refine ⟨θ, ?_, ?_⟩
    · rw [(hpos a ha).1, (hpos b hb).1, h1', (hsh2.andThen hsh3).size]
    · rw [(hpos a ha).2, (hpos b hb).2, h2', (hsh2.andThen hsh3).size]
  · exact rederive_angles M sys.nodes sys.nodes _ w' hw2 hpw h'

theorem distance_comm (M : JSMath K) (x1 y1 x2 y2 : K) :
    distance M x1 y1 x2 y2 = distance M x2 y2 x1 y1 := by
  unfold distance
  congr 1
  ring

/-- A point is its distance away from any other point, in the direction
`atan2` gives. -/
theorem JSMath.Exact.polar {M : JSMath K} (hM : M.Exact) (x y ex ey : K) :
    ex = x + distance M x y ex ey * M.cos (M.atan2 (ey - y) (ex - x)) ∧
    ey = y + distance M x y ex ey * M.sin (M.atan2 (ey - y) (ex - x)) := by
  have h1 := hM.sqrt_mul_cos_atan2 (ex - x) (ey - y)
  have h2 := hM.sqrt_mul_sin_atan2 (ex - x) (ey - y)
  have hd : distance M x y ex ey = M.sqrt ((ex - x) ^ 2 + (ey - y) ^ 2) := by
    unfold distance
    congr 1
    ring
  rw [hd, h1, h2]
  constructor <;> ring

/-- Two consecutive elements of a list split it. -/
theorem exists_split_of_getElem? :
    ∀ (l : List Nat) (i a b : Nat), l[i]? = some a → l[i + 1]? = some b →
      ∃ pre post, l = pre ++ a :: b :: post
  | [], _, _, _, ha, _ => by simp at ha
  | [_], i, _, _, _, hb => by cases i <;> simp at hb
  | n :: m :: rest, 0, a, b, ha, hb => by
    simp only [List.getElem?_cons_zero, List.getElem?_cons_succ, Option.some.injEq] at ha hb
    exact ⟨[], rest, by simp [ha, hb]⟩
  | n :: m :: rest, i + 1, a, b, ha, hb => by
    rw [List.getElem?_cons_succ] at ha hb
    obtain ⟨pre, post, h⟩ := exists_split_of_getElem? (m :: rest) i a b ha hb
    exact ⟨n :: pre, post, by simp [h]⟩

end MoveTo

/-! ### C4, C5: the inverse-kinematics step -/

section IKClaims

variable {K : Type} [LinearOrderedField K] [FloorRing K]

/-- C4: for a LimbSystem with `speed ≥ 0` on a well-formed heap (chain
`nodes = n0 :: rest`, no relaxed segment of stiffness 0) `moveTo(x, y)` returns,
and with `dist` the distance from the end to the target after the initial
relaxation (heap `w1`): the end is left at distance `max(0, dist - speed)` from
the target, it has been displaced by exactly `min(dist, speed) ≤ speed`, and it
is not farther from the target than `dist`. -/
theorem ik_approach (M : JSMath K) (hM : M.Exact) (sys : LimbSystem K) (x y : K) (w : World K)
    (n0 : Nat) (rest : List Nat) (hn : sys.nodes = n0 :: rest) (hw : w.WF) (hs : sys.WF w)
    (hst : ∀ j, Desc w n0 j → (w.segs j).stiffness ≠ 0) (hsp : 0 ≤ sys.speed) :
    ∃ w1 w', updateRelative M (w.segmentCount + 1) n0 true true w = .ok w1 ∧
      sys.moveTo M x y w = .ok w' ∧
      distance M (w'.segs sys.endSeg).x (w'.segs sys.endSeg).y x y
        = max 0 (distance M x y (w1.segs sys.endSeg).x (w1.segs sys.endSeg).y - sys.speed) ∧
      distance M (w1.segs sys.endSeg).x (w1.segs sys.endSeg).y
          (w'.segs sys.endSeg).x (w'.segs sys.endSeg).y
        = min (distance M x y (w1.segs sys.endSeg).x (w1.segs sys.endSeg).y) sys.speed ∧
      min (distance M x y (w1.segs sys.endSeg).x (w1.segs sys.endSeg).y) sys.speed ≤ sys.speed ∧
      distance M (w'.segs sys.endSeg).x (w'.segs sys.endSeg).y x y
        ≤ distance M x y (w1.segs sys.endSeg).x (w1.segs sys.endSeg).y := by
  obtain ⟨w1, w', h1, hmove, -, -, ⟨hx, hy⟩, -, -, -⟩ :=
    moveTo_spec M sys x y w n0 rest hn hw hs hst
  refine ⟨w1, w', h1, hmove, ?_⟩
  obtain ⟨hex, hey⟩ := hM.polar x y (w1.segs sys.endSeg).x (w1.segs sys.endSeg).y
  have hd0 : 0 ≤ distance M x y (w1.segs sys.endSeg).x (w1.segs sys.endSeg).y :=
    hM.sqrt_nonneg _
  generalize distance M x y (w1.segs sys.endSeg).x (w1.segs sys.endSeg).y = dist at *
  generalize M.atan2 ((w1.segs sys.endSeg).y - y) ((w1.segs sys.endSeg).x - x) = a at *
  have hlen0 : (0 : K) ≤ max 0 (dist - sys.speed) := le_max_left _ _
  have hlend : max 0 (dist - sys.speed) ≤ dist := max_le hd0 (by linarith)
  have hmin : dist - max 0 (dist - sys.speed) = min dist sys.speed := by
    rcases le_total dist sys.speed with h | h
    · rw [max_eq_left (by linarith), min_eq_left h, sub_zero]
    · rw [max_eq_right (by linarith), min_eq_right h]
      ring
  have hfin : distance M (w'.segs sys.endSeg).x (w'.segs sys.endSeg).y x y
      = max 0 (dist - sys.speed) := by
    rw [hx, hy]
    exact hM.distance_polar _ _ _ _ hlen0
  refine ⟨hfin, ?_, min_le_right _ _, hfin ▸ hlend⟩
  have e1 : (w1.segs sys.endSeg).x
      = (w'.segs sys.endSeg).x + (dist - max 0 (dist - sys.speed)) * M.cos a := by
    rw [hx]
    linear_combination hex
  have e2 : (w1.segs sys.endSeg).y
      = (w'.segs sys.endSeg).y + (dist - max 0 (dist - sys.speed)) * M.sin a := by
    rw [hy]
    linear_combination hey
  rw [← hmin]
  have := hM.distance_polar (w'.segs sys.endSeg).x (w'.segs sys.endSeg).y
    (dist - max 0 (dist - sys.speed)) a (by linarith)
  rw [← e1, ← e2] at this
  exact this

/-- C5: for a LimbSystem whose chain segments have `size ≥ 0`, on a
well-formed heap with no relaxed segment of stiffness 0, `moveTo` returns and
afterwards, for consecutive chain nodes `a = nodes[i]` and `b = nodes[i+1]`,
the distance between them is `b.size`, `b.parent` is `a`, `b.absAngle` is the
direction from `a` to `b`, and `b.relAngle == b.absAngle - a.absAngle`. -/
theorem ik_rigid_links (M : JSMath K) (hM : M.Exact) (sys : LimbSystem K) (x y : K)
    (w : World K) (n0 : Nat) (rest : List Nat) (hn : sys.nodes = n0 :: rest) (hw : w.WF)
    (hs : sys.WF w) (hst : ∀ j, Desc w n0 j → (w.segs j).stiffness ≠ 0)
    (hz : ∀ b ∈ sys.nodes, 0 ≤ (w.segs b).size) :
    ∃ w', sys.moveTo M x y w = .ok w' ∧
      ∀ i a b, sys.nodes[i]? = some a → sys.nodes[i + 1]? = some b →
        distance M (w'.segs a).x (w'.segs a).y (w'.segs b).x (w'.segs b).y = (w'.segs b).size ∧
        (w'.segs b).parent = Ref.seg a ∧
        (w'.segs b).absAngle
          = M.atan2 ((w'.segs b).y - (w'.segs a).y) ((w'.segs b).x - (w'.segs a).x) ∧
        (w'.segs b).relAngle = (w'.segs b).absAngle - (w'.segs a).absAngle := by
  obtain ⟨w1, w', -, hmove, -, hsh, -, hlink, hang, -⟩ :=
    moveTo_spec M sys x y w n0 rest hn hw hs hst
  refine ⟨w', hmove, ?_⟩
  intro i a b ha hb
  obtain ⟨pre, post, hdec⟩ := exists_split_of_getElem? sys.nodes i a b ha hb
  have hbm : b ∈ sys.nodes := by rw [hdec]; simp
  obtain ⟨θ, hx, hy⟩ := hlink pre a b post hdec
  have hpar : (w'.segs b).parent = Ref.seg a := by
    rw [hsh.parent]
    exact IsChain.get_parent hs.chain i a b ha hb
  have hsz : 0 ≤ (w'.segs b).size := by rw [hsh.size]; exact hz b hbm
  obtain ⟨hA, hR⟩ := hang b hbm
  rw [hpar] at hA hR
  refine ⟨?_, hpar, hA, hR⟩
  rw [hx, hy]
  exact hM.distance_polar _ _ _ _ hsz

/-- At its rest angle a segment keeps its `relAngle`. -/
theorem newRel_at_rest (M : JSMath K) (s : Segment K) (flex : Bool)
    (h : s.relAngle = s.defAngle) (hr : 0 ≤ s.range) (hs : s.stiffness ≠ 0) :
    newRel M s flex = .ok s.relAngle := by
  have hfl : (⌊(s.relAngle - s.defAngle) / 2 / M.PI + 1 / 2⌋ : ℤ) = 0 := by
    rw [Int.floor_eq_zero_iff, h]
    constructor <;> norm_num
  have hw : wrapRel M s = s.relAngle := by
    simp only [wrapRel, hfl]
    simp
  cases flex with
  | false => rw [newRel_noflex, hw]
  | true =>
    rw [newRel_flex M s hs, hw, h]
    simp only [sub_self, zero_div, zero_add]
    rw [max_eq_right (by linarith), min_eq_right (by linarith)]

/-- `updateSelf` leaves the heap as it is when the segment is consistent and
keeps its `relAngle`. -/
theorem updateSelf_fixed (M : JSMath K) (i : Nat) (flex : Bool) (w : World K)
    (hrel : newRel M (w.segs i) flex = .ok (w.segs i).relAngle) (hc : Consistent M w i) :
    updateSelf M i flex w = .ok w := by
  obtain ⟨ha, hx, hy⟩ := hc
  simp only [updateSelf, hrel, ← ha]
  congr 1
  have hseg : ({ w.segs i with
      relAngle := (w.segs i).relAngle
      absAngle := (w.segs i).absAngle
      x := w.nodeX (w.segs i).parent + M.cos (w.segs i).absAngle * (w.segs i).size
      y := w.nodeY (w.segs i).parent + M.sin (w.segs i).absAngle * (w.segs i).size } : Segment K)
      = w.segs i := by
    cases hsi : w.segs i
    rw [hsi] at hx hy
    simp only at hx hy
    simp only [Segment.mk.injEq, true_and]
    exact ⟨by rw [hx]; ring, by rw [hy]; ring⟩
  rw [hseg]
  simp [World.setSeg]

theorem chain2_wf (s0 s1 : Segment K) : (World.chain2 s0 s1).WF where
  child_parent := fun p c hc => by
    by_cases hp : p = 0
    · subst hp
      simp only [World.chain2, if_true, List.mem_singleton] at hc
      subst hc
      simp [World.chain2]
    · by_cases hp1 : p = 1 <;> simp [World.chain2, hp, hp1] at hc
  child_lt := fun p c hc => by
    by_cases hp : p = 0
    · subst hp
      simp only [World.chain2, if_true, List.mem_singleton] at hc
      subst hc
      simp [World.chain2]
    · by_cases hp1 : p = 1 <;> simp [World.chain2, hp, hp1] at hc
  parent_lt := fun j q hq => by
    by_cases hj : j = 0
    · subst hj
      simp [World.chain2] at hq
    · by_cases hj1 : j = 1
      · subst hj1
        simp only [World.chain2] at hq
        simp at hq
        omega
      · simp [World.chain2, hj, hj1] at hq

theorem scenarioBLimb_wf (range stiffness : K) :
    (scenarioBLimb : LimbSystem K).WF (scenarioB range stiffness) where
  chain := by
    simp [scenarioBLimb, IsChain, scenarioB, World.chain2]
  last := by
    simp [scenarioBLimb]

/-- In Scenario B the initial relaxation of the chain changes nothing. -/
theorem scenarioB_relax (M : JSMath K) (hM : M.Exact) (range stiffness : K) (hr : 0 ≤ range)
    (hs : stiffness ≠ 0) :
    updateRelative M 3 0 true true (scenarioB range stiffness)
      = .ok (scenarioB range stiffness) := by
  have h0 : updateSelf M 0 true (scenarioB range stiffness) = .ok (scenarioB range stiffness) := by
    refine updateSelf_fixed M 0 true _ (newRel_at_rest M _ true ?_ ?_ ?_) ?_
    · simp [scenarioB, World.chain2, Segment.atRest]
    · simpa [scenarioB, World.chain2, Segment.atRest] using hr
    · simpa [scenarioB, World.chain2, Segment.atRest] using hs
    · simp [Consistent, scenarioB, World.chain2, Segment.atRest, World.nodeX, World.nodeY,
        World.nodeAbsAngle, Creature.atOrigin, hM.cos_zero, hM.sin_zero]
  have h1 : updateSelf M 1 true (scenarioB range stiffness) = .ok (scenarioB range stiffness) := by
    refine updateSelf_fixed M 1 true _ (newRel_at_rest M _ true ?_ ?_ ?_) ?_
    · simp [scenarioB, World.chain2, Segment.atRest]
    · simpa [scenarioB, World.chain2, Segment.atRest] using hr
    · simpa [scenarioB, World.chain2, Segment.atRest] using hs
    · simp [Consistent, scenarioB, World.chain2, Segment.atRest, World.nodeX, World.nodeY,
        World.nodeAbsAngle, Creature.atOrigin, hM.cos_zero, hM.sin_zero]
  have hc0 : ((scenarioB range stiffness).segs 0).children = [1] := by
    simp [scenarioB, World.chain2]
  have hc1 : ((scenarioB range stiffness).segs 1).children = [] := by
    simp [scenarioB, World.chain2]
  simp only [updateRelative, h0, h1, hc0, hc1, forEach, if_true]

/-- Scenario B: `moveTo(20, 0)` returns, with the end on the target `(20, 0)`
and `nodes[0]` at `(15, 0)`. -/
theorem scenarioB_moveTo (M : JSMath K) (hM : M.Exact) (range stiffness : K) (hr : 0 ≤ range)
    (hs : stiffness ≠ 0) :
    ∃ w', (scenarioBLimb : LimbSystem K).moveTo M 20 0 (scenarioB range stiffness) = .ok w' ∧
      ((w'.segs 1).x = 20 ∧ (w'.segs 1).y = 0) ∧ ((w'.segs 0).x = 15 ∧ (w'.segs 0).y = 0) := by
  obtain ⟨w1, w', h1, hmove, -, -, -, -, -, hpos⟩ :=
    moveTo_spec M (scenarioBLimb : LimbSystem K) 20 0 (scenarioB range stiffness) 0 [1] rfl
      (chain2_wf _ _) (scenarioBLimb_wf range stiffness) (fun j _ => by
        by_cases hj : j = 0
        · simpa [scenarioB, World.chain2, Segment.atRest, hj] using hs
        · by_cases hj1 : j = 1 <;> simpa [scenarioB, World.chain2, Segment.atRest, hj, hj1] using hs)
  have hw1 : w1 = scenarioB range stiffness := by
    have h := scenarioB_relax M hM range stiffness hr hs
    have hc : (scenarioB range stiffness).segmentCount + 1 = 3 := rfl
    rw [hc, h, Except.ok.injEq] at h1
    exact h1.symm
  subst hw1
  have hdist : distance M 20 0
      ((scenarioB range stiffness).segs (scenarioBLimb : LimbSystem K).endSeg).x
      ((scenarioB range stiffness).segs (scenarioBLimb : LimbSystem K).endSeg).y = 10 := by
    have : ((20 : K) - (5 + 5)) ^ 2 + (0 - 0) ^ 2 = 10 ^ 2 := by norm_num
    simp only [distance, scenarioB, scenarioBLimb, World.chain2, Segment.atRest]
    simp only [one_ne_zero, if_false, if_true, this]
    exact hM.sqrt_sq 10 (by norm_num)
  have hlen : max (0 : K) (10 - (scenarioBLimb : LimbSystem K).speed) = 0 := by
    simp only [scenarioBLimb]
    exact max_eq_left (by norm_num)
  rw [hdist, hlen] at hpos
  have hrev : (scenarioBLimb : LimbSystem K).nodes.reverse = [1, 0] := rfl
  rw [hrev] at hpos
  refine ⟨w', hmove, ?_, ?_⟩
  · obtain ⟨hx, hy⟩ := hpos 1 (by simp [scenarioBLimb])
    rw [hx, hy]
    simp only [placeNodes_cons, placeNodes]
    rw [setSeg_segs_ne _ _ (by decide : (1 : Nat) ≠ 0), setSeg_segs_self]
    simp
  · obtain ⟨hx, hy⟩ := hpos 0 (by simp [scenarioBLimb])
    rw [hx, hy]
    simp only [placeNodes_cons, placeNodes]
    rw [setSeg_segs_self, setSeg_segs_ne _ _ (by decide : (0 : Nat) ≠ 1)]
    simp only [scenarioB, World.chain2, Segment.atRest, one_ne_zero, if_false, if_true, zero_mul,
      add_zero, zero_add]
    have hat : M.atan2 (0 - 0) ((5 : K) - 20) = M.PI := by
      have : (0 : K) - 0 = 0 := sub_zero 0
      rw [this]
      exact hM.atan2_zero_neg _ (by norm_num)
    rw [hat, hM.cos_pi, hM.sin_pi]
    constructor <;> norm_num

/-- The constructor builds the LimbSystem of Scenario B. -/
theorem scenarioBLimb_new (range stiffness : K) :
    ∃ w0, LimbSystem.new 1 2 (100 : K) (scenarioB range stiffness) = .ok (scenarioBLimb, w0) ∧
      w0.segs = (scenarioB range stiffness).segs := by
  refine ⟨_, new_of_nodes (scenarioB range stiffness) 1 2 (100 : K) 0 [1] ?_, rfl⟩
  simp [collectNodes, scenarioB, World.chain2]

theorem scenarioB_stiffness (range stiffness : K) (hs : stiffness ≠ 0) (j : Nat) :
    ((scenarioB range stiffness).segs j).stiffness ≠ 0 := by
  by_cases hj : j = 0
  · simpa [scenarioB, World.chain2, Segment.atRest, hj] using hs
  · by_cases hj1 : j = 1 <;> simpa [scenarioB, World.chain2, Segment.atRest, hj, hj1] using hs

theorem scenarioB_size (range stiffness : K) (j : Nat) :
    0 ≤ ((scenarioB range stiffness).segs j).size := by
  by_cases hj : j = 0
  · simp [scenarioB, World.chain2, Segment.atRest, hj]
  · by_cases hj1 : j = 1 <;> simp [scenarioB, World.chain2, Segment.atRest, hj, hj1]

/-- C4, checked on Scenario B over the real numbers. -/
theorem ik_approach_witness :
    ∃ w1 w', updateRelative realMath ((scenarioB (1 : ℝ) 1).segmentCount + 1) 0 true true
        (scenarioB (1 : ℝ) 1) = .ok w1 ∧
      (scenarioBLimb : LimbSystem ℝ).moveTo realMath 20 0 (scenarioB 1 1) = .ok w' ∧
      distance realMath (w'.segs 1).x (w'.segs 1).y 20 0
        = max 0 (distance realMath 20 0 (w1.segs 1).x (w1.segs 1).y - 100) :=
  have ⟨w1, w', h1, h2, h3, _⟩ := ik_approach realMath realMath_exact
    (scenarioBLimb : LimbSystem ℝ) 20 0 (scenarioB 1 1) 0 [1] rfl (chain2_wf _ _)
    (scenarioBLimb_wf 1 1) (fun j _ => scenarioB_stiffness 1 1 one_ne_zero j)
    (by simp [scenarioBLimb])
  ⟨w1, w', h1, h2, h3⟩

/-- C5, checked on Scenario B over the real numbers. -/
theorem ik_rigid_links_witness :
    ∃ w', (scenarioBLimb : LimbSystem ℝ).moveTo realMath 20 0 (scenarioB 1 1) = .ok w' ∧
      distance realMath (w'.segs 0).x (w'.segs 0).y (w'.segs 1).x (w'.segs 1).y
        = (w'.segs 1).size ∧ (w'.segs 1).parent = Ref.seg 0 :=
  have ⟨w', h1, h2⟩ := ik_rigid_links realMath realMath_exact
    (scenarioBLimb : LimbSystem ℝ) 20 0 (scenarioB 1 1) 0 [1] rfl (chain2_wf _ _)
    (scenarioBLimb_wf 1 1) (fun j _ => scenarioB_stiffness 1 1 one_ne_zero j)
    (fun b _ => scenarioB_size 1 1 b)
  ⟨w', h1, (h2 0 0 1 rfl rfl).1, (h2 0 0 1 rfl rfl).2.1⟩

/-- C6 (amended): in Scenario B (two chain nodes of size 5 at rest angle 0,
`range ≥ 0`, `stiffness ≥ 1`, hip at the origin with heading 0, `speed = 100`)
the end starts at `(10, 0)`, and one call `moveTo(20, 0)` returns with the end
on the target `(20, 0)` and `nodes[0]` at `(15, 0)`: the chain is carried to the
target, 15 away from the hip. -/
theorem scenario_B (M : JSMath K) (hM : M.Exact) (range stiffness : K) (hr : 0 ≤ range)
    (hs : 1 ≤ stiffness) :
    (((scenarioB range stiffness).segs 1).x = 10 ∧ ((scenarioB range stiffness).segs 1).y = 0) ∧
    ∃ w', (scenarioBLimb : LimbSystem K).moveTo M 20 0 (scenarioB range stiffness) = .ok w' ∧
      ((w'.segs 1).x = 20 ∧ (w'.segs 1).y = 0) ∧ ((w'.segs 0).x = 15 ∧ (w'.segs 0).y = 0) ∧
      distance M (w'.segs 0).x (w'.segs 0).y (w'.nodeX Ref.creature) (w'.nodeY Ref.creature)
        = 15 := by
  have hs0 : stiffness ≠ 0 := by intro h0; rw [h0] at hs; linarith
  obtain ⟨w', hmove, h1, h0⟩ := scenarioB_moveTo M hM range stiffness hr hs0
  refine ⟨?_, w', hmove, h1, h0, ?_⟩
  · simp only [scenarioB, World.chain2, Segment.atRest]
    norm_num
  · have hsh : SameShape (scenarioB range stiffness) w' := by
      obtain ⟨_, w'', _, hm', _, hsh, _⟩ := moveTo_spec M (scenarioBLimb : LimbSystem K) 20 0
        (scenarioB range stiffness) 0 [1] rfl (chain2_wf _ _) (scenarioBLimb_wf range stiffness)
        (fun j _ => scenarioB_stiffness range stiffness hs0 j)
      rw [hmove, Except.ok.injEq] at hm'
      exact hm' ▸ hsh
    have hc : w'.nodeX Ref.creature = 0 ∧ w'.nodeY Ref.creature = 0 := by
      simp [World.nodeX, World.nodeY, hsh.creature, scenarioB, World.chain2, Creature.atOrigin]
    rw [h0.1, h0.2, hc.1, hc.2]
    have : ((15 : K) - 0) ^ 2 + (0 - 0) ^ 2 = 15 ^ 2 := by norm_num
    rw [distance, this]
    exact hM.sqrt_sq 15 (by norm_num)

/-- C6, over the real numbers with range 1 and stiffness 1. -/
theorem scenario_B_witness :
    ∃ w', (scenarioBLimb : LimbSystem ℝ).moveTo realMath 20 0 (scenarioB 1 1) = .ok w' ∧
      ((w'.segs 1).x = 20 ∧ (w'.segs 1).y = 0) ∧ ((w'.segs 0).x = 15 ∧ (w'.segs 0).y = 0) :=
  have ⟨w', h, h1, h0, _⟩ := (scenario_B realMath realMath_exact (1 : ℝ) 1 zero_le_one le_rfl).2
  ⟨w', h, h1, h0⟩

/-- C6 as stated fails: in Scenario B (range 1, stiffness 1) `moveTo(20, 0)`
returns a state whose end is at `(20, 0)`, not at `(10, 0)`. -/
theorem scenario_B_counterexample :
    ∃ w', (scenarioBLimb : LimbSystem ℝ).moveTo realMath 20 0 (scenarioB 1 1) = .ok w' ∧
      ¬ ((w'.segs 1).x = 10 ∧ (w'.segs 1).y = 0) := by
  obtain ⟨w', h, h1, -⟩ := scenarioB_moveTo realMath realMath_exact (1 : ℝ) 1 zero_le_one
    one_ne_zero
  refine ⟨w', h, ?_⟩
  rintro ⟨hx, -⟩
  rw [h1.1] at hx
  norm_num at hx

end IKClaims

/-! ### C10: the gait transition STANDING -> STEPPING -/

section Gait

variable {K : Type} [LinearOrderedField K] [FloorRing K]

/-- The STANDING branch of `update` when the end is farther than 1 from the
goal. -/
theorem update_standing_far (M : JSMath K) (r1 r2 : K) (sys : LegSystem K) (w w1 : World K)
    (hm : sys.toLimbSystem.moveTo M sys.goalX sys.goalY w = .ok w1) (hstep : sys.step = 0)
    (hD : 1 < distance M (w1.segs sys.endSeg).x (w1.segs sys.endSeg).y sys.goalX sys.goalY) :
    LegSystem.update M r1 r2 sys w = .ok ({ sys with
      step := 1
      goalX := w1.nodeX sys.hip
        + sys.reach * M.cos (sys.swing + w1.nodeAbsAngle sys.hip + sys.swingOffset)
        + (2 * r1 - 1) * sys.reach / 2
      goalY := w1.nodeY sys.hip
        + sys.reach * M.sin (sys.swing + w1.nodeAbsAngle sys.hip + sys.swingOffset)
        + (2 * r2 - 1) * sys.reach / 2 }, w1) := by
  simp only [distance] at hD
  simp only [LegSystem.update, hm, hstep, if_true, gt_iff_lt, hD]

/-- The STANDING branch of `update` when the end is within 1 of the goal. -/
theorem update_standing_near (M : JSMath K) (r1 r2 : K) (sys : LegSystem K) (w w1 : World K)
    (hm : sys.toLimbSystem.moveTo M sys.goalX sys.goalY w = .ok w1) (hstep : sys.step = 0)
    (hD : distance M (w1.segs sys.endSeg).x (w1.segs sys.endSeg).y sys.goalX sys.goalY ≤ 1) :
    LegSystem.update M r1 r2 sys w = .ok (sys, w1) := by
  simp only [distance] at hD
  simp only [LegSystem.update, hm, hstep, if_true, gt_iff_lt, not_lt.2 hD, if_false]

/-- C10: for a LegSystem with `step == STANDING` (on a well-formed heap, no
relaxed segment of stiffness 0, `reach ≥ 0`) `update` returns after
`moveTo(goalX, goalY)`, whose heap `w1` it leaves; with `D` the distance in `w1`
of the end effector from the old goal: if `D > 1` then `step` becomes 1 and the goal
becomes the nominal foothold `hip + reach * (cos, sin)(swing + hip.absAngle +
swingOffset)` plus `(reach / 2) * (2 * r - 1)` per coordinate, each within
`reach / 2` of the nominal foothold, and nothing else of the system changes; if
`D ≤ 1` the system is unchanged. -/
theorem gait_standing (M : JSMath K) (r1 r2 : K) (sys : LegSystem K) (w : World K)
    (n0 : Nat) (rest : List Nat) (hn : sys.nodes = n0 :: rest) (hw : w.WF)
    (hs : sys.toLimbSystem.WF w) (hst : ∀ j, Desc w n0 j → (w.segs j).stiffness ≠ 0)
    (hstep : sys.step = 0) (hr1 : 0 ≤ r1 ∧ r1 < 1) (hr2 : 0 ≤ r2 ∧ r2 < 1)
    (hreach : 0 ≤ sys.reach) :
    ∃ w1, sys.toLimbSystem.moveTo M sys.goalX sys.goalY w = .ok w1 ∧
      (1 < distance M (w1.segs sys.endSeg).x (w1.segs sys.endSeg).y sys.goalX sys.goalY →
        ∃ sys', LegSystem.update M r1 r2 sys w = .ok (sys', w1) ∧ sys'.step = 1 ∧
          sys'.goalX = w1.nodeX sys.hip
            + sys.reach * M.cos (sys.swing + w1.nodeAbsAngle sys.hip + sys.swingOffset)
            + sys.reach / 2 * (2 * r1 - 1) ∧
          sys'.goalY = w1.nodeY sys.hip
            + sys.reach * M.sin (sys.swing + w1.nodeAbsAngle sys.hip + sys.swingOffset)
            + sys.reach / 2 * (2 * r2 - 1) ∧
          |sys'.goalX - (w1.nodeX sys.hip
            + sys.reach * M.cos (sys.swing + w1.nodeAbsAngle sys.hip + sys.swingOffset))|
            ≤ sys.reach / 2 ∧
          |sys'.goalY - (w1.nodeY sys.hip
            + sys.reach * M.sin (sys.swing + w1.nodeAbsAngle sys.hip + sys.swingOffset))|
            ≤ sys.reach / 2 ∧
          sys'.toLimbSystem = sys.toLimbSystem ∧ sys'.forwardness = sys.forwardness ∧
          sys'.reach = sys.reach ∧ sys'.swing = sys.swing ∧ sys'.swingOffset = sys.swingOffset) ∧
      (distance M (w1.segs sys.endSeg).x (w1.segs sys.endSeg).y sys.goalX sys.goalY ≤ 1 →
        LegSystem.update M r1 r2 sys w = .ok (sys, w1)) := by
  obtain ⟨-, w1, -, hmove, -⟩ :=
    moveTo_spec M sys.toLimbSystem sys.goalX sys.goalY w n0 rest hn hw hs hst
  refine ⟨w1, hmove, ?_, ?_⟩
  · intro hD
    refine ⟨_, update_standing_far M r1 r2 sys w w1 hmove hstep hD, rfl,
      by simp only; ring, by simp only; ring, ?_, ?_, rfl, rfl, rfl, rfl, rfl⟩
    · simp only
      rw [abs_le]
      constructor <;> nlinarith [hr1.1, hr1.2]
    · simp only
      rw [abs_le]
      constructor <;> nlinarith [hr2.1, hr2.2]
  · intro hD
    exact update_standing_near M r1 r2 sys w w1 hmove hstep hD

/-- C10, checked on a standing leg over the chain of Scenario B. -/
theorem gait_standing_witness :
    ∃ w1, (scenarioBLeg : LegSystem ℝ).toLimbSystem.moveTo realMath 10 0 (scenarioB 1 1) = .ok w1 ∧
      (distance realMath (w1.segs 1).x (w1.segs 1).y 10 0 ≤ 1 →
        LegSystem.update realMath (1 / 2) (1 / 2) scenarioBLeg (scenarioB 1 1)
          = .ok (scenarioBLeg, w1)) :=
  have ⟨w1, h1, _, h3⟩ := gait_standing realMath (1 / 2) (1 / 2) (scenarioBLeg : LegSystem ℝ)
    (scenarioB 1 1) 0 [1] rfl (chain2_wf _ _)
    ⟨by simp [scenarioBLeg, IsChain, scenarioB, World.chain2], by simp [scenarioBLeg]⟩
    (fun j _ => scenarioB_stiffness 1 1 one_ne_zero j) rfl (by norm_num) (by norm_num)
    (by simp [scenarioBLeg])
  ⟨w1, h1, h3⟩

end Gait

/-! ### C11, C20: the gait transition STEPPING -> STANDING and the drift threshold -/

section GaitStepping

variable {K : Type} [LinearOrderedField K] [FloorRing K]

/-- The STEPPING branch of `update` when the forwardness changed by less
than 1. -/
theorem update_stepping_done (M : JSMath K) (r1 r2 : K) (sys : LegSystem K) (w w1 : World K)
    (hm : sys.toLimbSystem.moveTo M sys.goalX sys.goalY w = .ok w1) (hstep : sys.step = 1)
    (hF : (sys.forwardness - sys.forwardness2 M w1) ^ 2 < 1) :
    LegSystem.update M r1 r2 sys w = .ok ({ sys with
      forwardness := sys.forwardness2 M w1
      step := 0
      goalX := w1.nodeX sys.hip + ((w1.segs sys.endSeg).x - w1.nodeX sys.hip)
      goalY := w1.nodeY sys.hip + ((w1.segs sys.endSeg).y - w1.nodeY sys.hip) }, w1) := by
  have hF' : (sys.forwardness - sys.forwardness2 M w1)
      * (sys.forwardness - sys.forwardness2 M w1) < 1 := by
    rw [← pow_two]
    exact hF
  simp only [LegSystem.forwardness2] at hF'
  simp only [LegSystem.update, hm, hstep, one_ne_zero, if_false, if_true, hF',
    LegSystem.forwardness2]

/-- The STEPPING branch of `update` when the forwardness changed by 1 or more. -/
theorem update_stepping_on (M : JSMath K) (r1 r2 : K) (sys : LegSystem K) (w w1 : World K)
    (hm : sys.toLimbSystem.moveTo M sys.goalX sys.goalY w = .ok w1) (hstep : sys.step = 1)
    (hF : ¬ (sys.forwardness - sys.forwardness2 M w1) ^ 2 < 1) :
    LegSystem.update M r1 r2 sys w
      = .ok ({ sys with forwardness := sys.forwardness2 M w1 }, w1) := by
  have hF' : ¬ (sys.forwardness - sys.forwardness2 M w1)
      * (sys.forwardness - sys.forwardness2 M w1) < 1 := by
    rw [← pow_two]
    exact hF
  simp only [LegSystem.forwardness2] at hF'
  simp only [LegSystem.update, hm, hstep, one_ne_zero, if_false, if_true, hF',
    LegSystem.forwardness2]

/-- C11: for a LegSystem with `step == STEPPING` (on a well-formed heap, no
relaxed segment of stiffness 0) `update` returns after `moveTo(goalX, goalY)`,
whose heap `w1` it leaves, and stores `forwardness2 = dist * cos(theta)` in
`forwardness`; if `(forwardness - forwardness2)^2 < 1` then `step` becomes 0
and the goal becomes the position of the end effector, otherwise `step` stays 1
and the goal is unchanged; nothing else of the system changes. -/
theorem gait_stepping (M : JSMath K) (r1 r2 : K) (sys : LegSystem K) (w : World K)
    (n0 : Nat) (rest : List Nat) (hn : sys.nodes = n0 :: rest) (hw : w.WF)
    (hs : sys.toLimbSystem.WF w) (hst : ∀ j, Desc w n0 j → (w.segs j).stiffness ≠ 0)
    (hstep : sys.step = 1) :
    ∃ w1 sys', sys.toLimbSystem.moveTo M sys.goalX sys.goalY w = .ok w1 ∧
      LegSystem.update M r1 r2 sys w = .ok (sys', w1) ∧
      sys'.forwardness = distance M (w1.segs sys.endSeg).x (w1.segs sys.endSeg).y
          (w1.nodeX sys.hip) (w1.nodeY sys.hip)
        * M.cos (M.atan2 ((w1.segs sys.endSeg).y - w1.nodeY sys.hip)
            ((w1.segs sys.endSeg).x - w1.nodeX sys.hip) - w1.nodeAbsAngle sys.hip) ∧
      ((sys.forwardness - sys'.forwardness) ^ 2 < 1 →
        sys'.step = 0 ∧ sys'.goalX = (w1.segs sys.endSeg).x ∧
          sys'.goalY = (w1.segs sys.endSeg).y) ∧
      (¬ (sys.forwardness - sys'.forwardness) ^ 2 < 1 →
        sys'.step = 1 ∧ sys'.goalX = sys.goalX ∧ sys'.goalY = sys.goalY) ∧
      sys'.toLimbSystem = sys.toLimbSystem ∧ sys'.reach = sys.reach ∧
      sys'.swing = sys.swing ∧ sys'.swingOffset = sys.swingOffset := by
  obtain ⟨-, w1, -, hmove, -⟩ :=
    moveTo_spec M sys.toLimbSystem sys.goalX sys.goalY w n0 rest hn hw hs hst
  by_cases hF : (sys.forwardness - sys.forwardness2 M w1) ^ 2 < 1
  · refine ⟨w1, _, hmove, update_stepping_done M r1 r2 sys w w1 hmove hstep hF, rfl,
      fun _ => ⟨rfl, by simp, by simp⟩, fun h => absurd hF h, rfl, rfl, rfl, rfl⟩
  · refine ⟨w1, _, hmove, update_stepping_on M r1 r2 sys w w1 hmove hstep hF, rfl,
      fun h => absurd h hF, fun _ => ⟨hstep, rfl, rfl⟩, rfl, rfl, rfl, rfl⟩

/-- C11, checked on a stepping leg over the chain of Scenario B. -/
theorem gait_stepping_witness :
    ∃ w1 sys', (scenarioBStepping : LegSystem ℝ).toLimbSystem.moveTo realMath 10 0
        (scenarioB 1 1) = .ok w1 ∧
      LegSystem.update realMath (1 / 2) (1 / 2) scenarioBStepping (scenarioB 1 1)
        = .ok (sys', w1) ∧
      ((0 - sys'.forwardness) ^ 2 < 1 → sys'.step = 0 ∧ sys'.goalX = (w1.segs 1).x ∧
        sys'.goalY = (w1.segs 1).y) :=
  have ⟨w1, sys', h1, h2, _, h4, _⟩ := gait_stepping realMath (1 / 2) (1 / 2)
    (scenarioBStepping : LegSystem ℝ) (scenarioB 1 1) 0 [1] rfl (chain2_wf _ _)
    ⟨by simp [scenarioBStepping, scenarioBLeg, IsChain, scenarioB, World.chain2],
      by simp [scenarioBStepping, scenarioBLeg]⟩
    (fun j _ => scenarioB_stiffness 1 1 one_ne_zero j) rfl
  ⟨w1, sys', h1, h2, h4⟩

/-- C20: for a LegSystem with `step == STANDING` (on a well-formed heap, no
relaxed segment of stiffness 0) `update` returns, and it switches to STEPPING
if and only if the distance `dist` between the end effector and the goal after
the initial relaxation of `moveTo` (heap `w1r`), before the IK placement, is
strictly greater than `speed + 1`; within `speed + 1` the system is left as it
is. -/
theorem drift_threshold (M : JSMath K) (hM : M.Exact) (r1 r2 : K) (sys : LegSystem K)
    (w : World K) (n0 : Nat) (rest : List Nat) (hn : sys.nodes = n0 :: rest) (hw : w.WF)
    (hs : sys.toLimbSystem.WF w) (hst : ∀ j, Desc w n0 j → (w.segs j).stiffness ≠ 0)
    (hstep : sys.step = 0) :
    ∃ w1r w1 sys', updateRelative M (w.segmentCount + 1) n0 true true w = .ok w1r ∧
      LegSystem.update M r1 r2 sys w = .ok (sys', w1) ∧
      (sys'.step = 1 ↔ sys.speed + 1
        < distance M sys.goalX sys.goalY (w1r.segs sys.endSeg).x (w1r.segs sys.endSeg).y) ∧
      (distance M sys.goalX sys.goalY (w1r.segs sys.endSeg).x (w1r.segs sys.endSeg).y
        ≤ sys.speed + 1 → sys' = sys) := by
  obtain ⟨w1r, w1, h1, hmove, -, -, ⟨hx, hy⟩, -, -, -⟩ :=
    moveTo_spec M sys.toLimbSystem sys.goalX sys.goalY w n0 rest hn hw hs hst
  have hD : distance M (w1.segs sys.endSeg).x (w1.segs sys.endSeg).y sys.goalX sys.goalY
      = max 0 (distance M sys.goalX sys.goalY (w1r.segs sys.endSeg).x
          (w1r.segs sys.endSeg).y - sys.speed) := by
    rw [hx, hy]
    exact hM.distance_polar _ _ _ _ (le_max_left _ _)
  have hiff : 1 < distance M (w1.segs sys.endSeg).x (w1.segs sys.endSeg).y sys.goalX sys.goalY
      ↔ sys.speed + 1
        < distance M sys.goalX sys.goalY (w1r.segs sys.endSeg).x (w1r.segs sys.endSeg).y := by
    rw [hD, lt_max_iff]
    constructor
    · rintro (h | h)
      · exact absurd h (by norm_num)
      · linarith
    · intro h
      exact Or.inr (by linarith)
  by_cases hfar : 1 < distance M (w1.segs sys.endSeg).x (w1.segs sys.endSeg).y
      sys.goalX sys.goalY
  · refine ⟨w1r, w1, _, h1, update_standing_far M r1 r2 sys w w1 hmove hstep hfar,
      ⟨fun _ => hiff.1 hfar, fun _ => rfl⟩, fun h => absurd (hiff.1 hfar) (not_lt.2 h)⟩
  · refine ⟨w1r, w1, sys, h1, update_standing_near M r1 r2 sys w w1 hmove hstep (not_lt.1 hfar),
      ⟨fun h => ?_, fun h => absurd (hiff.2 h) hfar⟩, fun _ => rfl⟩
    rw [hstep] at h
    exact absurd h (by decide)

/-- C20, checked on the standing leg over the chain of Scenario B. -/
theorem drift_threshold_witness :
    ∃ w1r w1 sys', updateRelative realMath ((scenarioB (1 : ℝ) 1).segmentCount + 1) 0 true true
        (scenarioB (1 : ℝ) 1) = .ok w1r ∧
      LegSystem.update realMath (1 / 2) (1 / 2) scenarioBLeg (scenarioB 1 1) = .ok (sys', w1) ∧
      (sys'.step = 1 ↔ (100 : ℝ) + 1 < distance realMath 10 0 (w1r.segs 1).x (w1r.segs 1).y) :=
  have ⟨w1r, w1, sys', h1, h2, h3, _⟩ := drift_threshold realMath realMath_exact (1 / 2) (1 / 2)
    (scenarioBLeg : LegSystem ℝ) (scenarioB 1 1) 0 [1] rfl (chain2_wf _ _)
    ⟨by simp [scenarioBLeg, IsChain, scenarioB, World.chain2], by simp [scenarioBLeg]⟩
    (fun j _ => scenarioB_stiffness 1 1 one_ne_zero j) rfl
  ⟨w1r, w1, sys', h1, h2, h3⟩

end GaitStepping

/-! ### C19: the contraction in exact arithmetic -/

section Contraction

variable {K : Type} [LinearOrderedField K] [FloorRing K]

/-- The wrap does not take `relAngle` farther from `defAngle`. -/
theorem wrapRel_abs_le (M : JSMath K) (hpi : 0 < M.PI) (s : Segment K) :
    |wrapRel M s - s.defAngle| ≤ |s.relAngle - s.defAngle| := by
  obtain ⟨h1, h2⟩ := wrapRel_bounds M hpi s
  have hw : wrapRel M s = s.relAngle
      - 2 * M.PI * ((⌊(s.relAngle - s.defAngle) / 2 / M.PI + 1 / 2⌋ : ℤ) : K) := rfl
  have hf1 := Int.floor_le ((s.relAngle - s.defAngle) / 2 / M.PI + 1 / 2)
  have hf2 := Int.lt_floor_add_one ((s.relAngle - s.defAngle) / 2 / M.PI + 1 / 2)
  have h3 : (s.relAngle - s.defAngle) / 2 / M.PI * (2 * M.PI) = s.relAngle - s.defAngle := by
    field_simp
  generalize (s.relAngle - s.defAngle) / 2 / M.PI = t at hw hf1 hf2 h3
  generalize ⌊t + 1 / 2⌋ = k at hw hf1 hf2
  have hwabs : |wrapRel M s - s.defAngle| ≤ M.PI := abs_le.2 ⟨by linarith, by linarith⟩
  rcases lt_trichotomy k 0 with hk | hk | hk
  · have hk' : (k : K) ≤ -1 := by exact_mod_cast Int.le_sub_one_of_lt hk
    have ht : t < -(1 / 2) := by linarith
    have : s.relAngle - s.defAngle < -M.PI := by
      have := mul_lt_mul_of_pos_right ht (by linarith : (0 : K) < 2 * M.PI)
      linarith
    exact le_trans hwabs (by rw [abs_of_neg (by linarith)]; linarith)
  · subst hk
    rw [hw]
    simp
  · have hk' : (1 : K) ≤ (k : K) := by exact_mod_cast hk
    have ht : 1 / 2 ≤ t := by linarith
    have : M.PI ≤ s.relAngle - s.defAngle := by
      have := mul_le_mul_of_nonneg_right ht (by linarith : (0 : K) ≤ 2 * M.PI)
      linarith
    exact le_trans hwabs (by rw [abs_of_nonneg (by linarith)]; linarith)

/-- A clamp to an interval around `d` does not take a value farther from `d`. -/
theorem clamp_abs_le (d lo hi v : K) (hlo : lo ≤ d) (hhi : d ≤ hi) :
    |min hi (max lo v) - d| ≤ |v - d| := by
  rcases le_total lo v with h1 | h1
  · rw [max_eq_right h1]
    rcases le_total v hi with h2 | h2
    · rw [min_eq_right h2]
    · rw [min_eq_left h2, abs_of_nonneg (by linarith), abs_of_nonneg (by linarith)]
      linarith
  · rw [max_eq_left h1, min_eq_right (by linarith), abs_of_nonpos (by linarith),
      abs_of_nonpos (by linarith)]
    linarith

/-- The rule of `updateRelative` under `flex`, for `stiffness ≥ 1` and
`range ≥ 0`: the clamp of the pulled wrap, a contraction toward `defAngle`,
and the identity on the wrap interval and range when `stiffness == 1`. -/
theorem newRel_contraction (M : JSMath K) (hpi : 0 < M.PI) (s : Segment K) (hr : 0 ≤ s.range)
    (hs : 1 ≤ s.stiffness) (r' : K) (h : newRel M s true = .ok r') :
    ∃ k : ℤ,
      (s.defAngle - M.PI ≤ s.relAngle - 2 * M.PI * k ∧
        s.relAngle - 2 * M.PI * k < s.defAngle + M.PI) ∧
      r' = min (s.defAngle + s.range / 2) (max (s.defAngle - s.range / 2)
        (s.defAngle + (s.relAngle - 2 * M.PI * k - s.defAngle) / s.stiffness)) ∧
      |r' - s.defAngle| ≤ |s.relAngle - s.defAngle| / s.stiffness ∧
      |r' - s.defAngle| ≤ |s.relAngle - s.defAngle| ∧
      (s.stiffness = 1 → InWrap M s → InRange s → r' = s.relAngle) := by
  have hs0 : s.stiffness ≠ 0 := by intro h0; rw [h0] at hs; linarith
  have hpos : 0 < s.stiffness := by linarith
  rw [newRel_flex M s hs0, Except.ok.injEq] at h
  have hcl := clamp_abs_le s.defAngle (s.defAngle - s.range / 2) (s.defAngle + s.range / 2)
    ((wrapRel M s - s.defAngle) / s.stiffness + s.defAngle) (by linarith) (by linarith)
  rw [h, add_sub_cancel_right, abs_div, abs_of_pos hpos] at hcl
  have hwr := wrapRel_abs_le M hpi s
  have hdiv : |r' - s.defAngle| ≤ |s.relAngle - s.defAngle| / s.stiffness :=
    le_trans hcl (div_le_div_of_nonneg_right hwr hpos.le)
  refine ⟨⌊(s.relAngle - s.defAngle) / 2 / M.PI + 1 / 2⌋, wrapRel_bounds M hpi s, ?_, hdiv, ?_, ?_⟩
  · rw [← h, add_comm s.defAngle ((s.relAngle - 2 * M.PI
      * ((⌊(s.relAngle - s.defAngle) / 2 / M.PI + 1 / 2⌋ : ℤ) : K) - s.defAngle) / s.stiffness)]
    rfl
  · refine le_trans hdiv ?_
    rw [div_le_iff₀ hpos]
    nlinarith [abs_nonneg (s.relAngle - s.defAngle)]
  · rintro h1 ⟨hw1, hw2⟩ ⟨hr1, hr2⟩
    have hfl : (⌊(s.relAngle - s.defAngle) / 2 / M.PI + 1 / 2⌋ : ℤ) = 0 := by
      rw [Int.floor_eq_zero_iff]
      have h3 : (s.relAngle - s.defAngle) / 2 / M.PI * (2 * M.PI) = s.relAngle - s.defAngle := by
        field_simp
      generalize (s.relAngle - s.defAngle) / 2 / M.PI = t at h3 ⊢
      constructor
      · by_contra hneg
        have := mul_lt_mul_of_pos_right (not_le.1 hneg) (by linarith : (0 : K) < 2 * M.PI)
        linarith
      · by_contra hneg
        have := mul_le_mul_of_nonneg_right (not_lt.1 hneg) (by linarith : (0 : K) ≤ 2 * M.PI)
        linarith
    have hw : wrapRel M s = s.relAngle := by
      simp only [wrapRel, hfl]
      simp
    rw [← h, hw, h1, div_one, sub_add_cancel, max_eq_right hr1, min_eq_right hr2]

/-- C19 as stated fails at the upper end of the wrap interval of the
specification: with rest angle 0, stiffness 1 and range `2 * PI`, `relAngle ==
PI` is in `(-PI, PI]` and in the range, and `updateRelative(false, true)` turns
it into `-PI`. -/
theorem stiffness_contraction_counterexample :
    InWrapSpec realMath ((World.single (Segment.turned Real.pi 1 (2 * Real.pi) 1)).segs 0) ∧
    InRange ((World.single (Segment.turned Real.pi 1 (2 * Real.pi) 1)).segs 0) ∧
    ((World.single (Segment.turned Real.pi 1 (2 * Real.pi) 1)).segs 0).stiffness = 1 ∧
    ∃ w', updateRelative realMath 1 0 false true
        (World.single (Segment.turned Real.pi 1 (2 * Real.pi) 1)) = .ok w' ∧
      (w'.segs 0).relAngle = -Real.pi ∧
      (w'.segs 0).relAngle
        ≠ ((World.single (Segment.turned Real.pi 1 (2 * Real.pi) 1)).segs 0).relAngle := by
  have hpi := Real.pi_pos
  have hfl : (⌊(Real.pi - 0) / 2 / Real.pi + 1 / 2⌋ : ℤ) = 1 := by
    have : (Real.pi - 0) / 2 / Real.pi + 1 / 2 = ((1 : ℤ) : ℝ) := by
      have := Real.pi_ne_zero
      field_simp
      ring
    rw [this, Int.floor_intCast]
  have hn : newRel realMath ((World.single (Segment.turned Real.pi 1 (2 * Real.pi) 1)).segs 0)
      true = .ok (-Real.pi) := by
    rw [newRel_flex realMath _ (by simp [World.single, Segment.turned])]
    simp only [wrapRel, World.single, Segment.turned, realMath, hfl, Int.cast_one, mul_one,
      div_one, zero_add, zero_sub, add_zero]
    have e1 : Real.pi - 2 * Real.pi - 0 = -Real.pi := by ring
    have e2 : 2 * Real.pi / 2 = Real.pi := by ring
    rw [e1, e2, max_self, min_eq_right (by linarith)]
  refine ⟨?_, ?_, by simp [World.single, Segment.turned],
    _, updateRelative_of_newRel realMath 0 true _ _ hn, ?_, ?_⟩
  · simp only [InWrapSpec, World.single, Segment.turned, realMath]
    constructor <;> linarith
  · simp only [InRange, World.single, Segment.turned]
    constructor <;> linarith
  · simp only [setSeg_segs_self]
  · simp only [setSeg_segs_self, World.single, Segment.turned]
    intro h
    linarith

end Contraction

/-! ### C17: the zero-distance case of `follow` -/

section ZeroDistance

variable {K : Type} [LinearOrderedField K] [FloorRing K]

/-- When a segment's end is on its parent's position `follow` divides by the
zero distance. -/
theorem follow_zero_distance (M : JSMath K) (fuel i : Nat) (iter : Bool) (w : World K)
    (hd : distance M (w.segs i).x (w.segs i).y (w.nodeX (w.segs i).parent)
      (w.nodeY (w.segs i).parent) = 0) :
    follow M (fuel + 1) i iter w = .error .divByZero := by
  simp only [distance] at hd
  simp [follow, followSelf, jsDiv, hd]

/-- C17 fails on the code: a segment of size 0 (stiffness 1, range 3, at its
rest angle) lies on its parent after its construction, and `follow` on it does
not keep `absAngle` and `relAngle` but divides 0 by 0. -/
theorem zero_distance_fault :
    (((World.single (Segment.atRest (0 : ℝ) 0 3 1)).segs 0).x
        = (World.single (Segment.atRest (0 : ℝ) 0 3 1)).nodeX Ref.creature ∧
      ((World.single (Segment.atRest (0 : ℝ) 0 3 1)).segs 0).y
        = (World.single (Segment.atRest (0 : ℝ) 0 3 1)).nodeY Ref.creature) ∧
    follow realMath 1 0 false (World.single (Segment.atRest (0 : ℝ) 0 3 1))
      = .error .divByZero ∧
    follow realMath 1 0 true (World.single (Segment.atRest (0 : ℝ) 0 3 1))
      = .error .divByZero := by
  have hd : distance realMath ((World.single (Segment.atRest (0 : ℝ) 0 3 1)).segs 0).x
      ((World.single (Segment.atRest (0 : ℝ) 0 3 1)).segs 0).y
      ((World.single (Segment.atRest (0 : ℝ) 0 3 1)).nodeX
        ((World.single (Segment.atRest (0 : ℝ) 0 3 1)).segs 0).parent)
      ((World.single (Segment.atRest (0 : ℝ) 0 3 1)).nodeY
        ((World.single (Segment.atRest (0 : ℝ) 0 3 1)).segs 0).parent) = 0 := by
    simp [distance, World.single, Segment.atRest, World.nodeX, World.nodeY, Creature.atOrigin,
      realMath]
  refine ⟨?_, follow_zero_distance realMath 0 0 false _ hd,
    follow_zero_distance realMath 0 0 true _ hd⟩
  simp [World.single, Segment.atRest, World.nodeX, World.nodeY, Creature.atOrigin]

end ZeroDistance

/-! ### The body of the Creature -/

section Body

variable {K : Type} [LinearOrderedField K] [FloorRing K]

/-- `moveTo` keeps the shape of the heap. -/
theorem moveTo_sameShape (M : JSMath K) (sys : LimbSystem K) (x y : K) (w w' : World K)
    (h : sys.moveTo M x y w = .ok w') : SameShape w w' := by
  simp only [LimbSystem.moveTo] at h
  cases hn : sys.nodes with
  | nil => simp [hn] at h
  | cons n0 rest =>
    simp only [hn] at h
    cases h1 : updateRelative M (w.segmentCount + 1) n0 true true w with
    | error e => simp [h1] at h
    | ok w1 =>
      simp only [h1] at h
      rw [updateRelative_eq_treePass] at h1
      have hsh1 := (treePass_spec (updateSelf_local M true) _ n0 true w w1 h1).1
      have hsh2 := (placeNodes_spec M (n0 :: rest).reverse x y
        (max 0 (M.sqrt ((x - (w1.segs sys.endSeg).x) ^ 2 + (y - (w1.segs sys.endSeg).y) ^ 2)
          - sys.speed)) w1).1
      exact (hsh1.andThen hsh2).andThen (rederive_spec M _ _ _ w' h).1

/-- The heap `LegSystem.update` returns is the one `moveTo` left. -/
theorem update_world (M : JSMath K) (r1 r2 : K) (sys sys' : LegSystem K) (w w1 : World K)
    (h : LegSystem.update M r1 r2 sys w = .ok (sys', w1)) :
    sys.toLimbSystem.moveTo M sys.goalX sys.goalY w = .ok w1 := by
  simp only [LegSystem.update] at h
  cases hm : sys.toLimbSystem.moveTo M sys.goalX sys.goalY w with
  | error e => simp [hm] at h
  | ok w2 =>
    simp only [hm] at h
    split_ifs at h <;> simp only [Except.ok.injEq, Prod.mk.injEq] at h <;> rw [h.2]

theorem system_update_sameShape (M : JSMath K) (mouse draw : K × K) (s s' : System K)
    (w w' : World K) (h : s.update M mouse draw w = .ok (s', w')) : SameShape w w' := by
  cases s with
  | limb l =>
    simp only [System.update] at h
    cases hm : l.moveTo M mouse.1 mouse.2 w with
    | error e => simp [hm] at h
    | ok w1 =>
      simp only [hm, Except.ok.injEq, Prod.mk.injEq] at h
      exact h.2 ▸ moveTo_sameShape M l _ _ w w1 hm
  | leg l =>
    simp only [System.update] at h
    cases hm : l.update M draw.1 draw.2 w with
    | error e => simp [hm] at h
    | ok r =>
      obtain ⟨l1, w1⟩ := r
      simp only [hm, Except.ok.injEq, Prod.mk.injEq] at h
      exact h.2 ▸ moveTo_sameShape M l.toLimbSystem _ _ w w1 (update_world M _ _ l l1 w w1 hm)

theorem updateSystems_sameShape (M : JSMath K) (mouse : K × K) (draws : Nat → K × K) :
    ∀ (l : List (System K)) (i : Nat) (l' : List (System K)) (w w' : World K),
      updateSystems M mouse draws i l w = .ok (l', w') → SameShape w w'
  | [], _, _, w, w', h => by
    simp only [updateSystems, Except.ok.injEq, Prod.mk.injEq] at h
    exact h.2 ▸ SameShape.rfl' w
  | s :: rest, i, l', w, w', h => by
    simp only [updateSystems] at h
    cases h1 : s.update M mouse (draws i) w with
    | error e => simp [h1] at h
    | ok r =>
      obtain ⟨s1, w1⟩ := r
      simp only [h1] at h
      cases h2 : updateSystems M mouse draws (i + 1) rest w1 with
      | error e => simp [h2] at h
      | ok r2 =>
        obtain ⟨rest1, w2⟩ := r2
        simp only [h2, Except.ok.injEq, Prod.mk.injEq] at h
        exact h.2 ▸ (system_update_sameShape M mouse _ s s1 w w1 h1).andThen
          (updateSystems_sameShape M mouse draws rest (i + 1) rest1 w1 w2 h2)

/-- The loop of `Creature.follow` over the children keeps the shape. -/
theorem childrenPass_sameShape (M : JSMath K) (cs : List Nat) (w w' : World K)
    (h : forEach (fun c w2 => follow M (w2.segmentCount + 1) c true w2) cs w = .ok w') :
    SameShape w w' := by
  refine forEach_inv (P := fun w2 => SameShape w w2) cs w w' ?_ (SameShape.rfl' w) h
  intro c _ w1 w2 hsh hstep
  rw [follow_eq_treePass] at hstep
  exact hsh.andThen (treePass_spec (followStep_local M) _ c true w1 w2 hstep).1

/-- After `Creature.follow` the Creature is the integrated body, with the
heading raised and lowered by `PI` and the updated systems. -/
theorem creature_follow_body (M : JSMath K) (mouse : K × K) (draws : Nat → K × K) (x y : K)
    (w w' : World K) (h : Creature.follow M mouse draws x y w = .ok w') :
    w'.creature = { w.creature.integrate M x y with
      absAngle := (w.creature.integrate M x y).absAngle + M.PI - M.PI
      systems := w'.creature.systems } := by
  simp only [Creature.follow] at h
  cases h2 : forEach (fun c w2 => follow M (w2.segmentCount + 1) c true w2)
      (w.creature.integrate M x y).children
      { w with creature := { w.creature.integrate M x y with
        absAngle := (w.creature.integrate M x y).absAngle + M.PI } } with
  | error e => simp [h2] at h
  | ok w2 =>
    simp only [h2] at h
    have hsh2 := childrenPass_sameShape M _ _ w2 h2
    cases h3 : updateSystems M mouse draws 0 w2.creature.systems w2 with
    | error e => simp [h3] at h
    | ok r =>
      obtain ⟨systems, w3⟩ := r
      simp only [h3, Except.ok.injEq] at h
      have hsh3 := updateSystems_sameShape M mouse draws _ 0 systems w2 w3 h3
      rw [← h]
      simp only [hsh3.creature, hsh2.creature]

/-- `Creature.follow` returns for a Creature with no children and no systems. -/
theorem creature_follow_bare (M : JSMath K) (mouse : K × K) (draws : Nat → K × K) (x y : K)
    (w : World K) (hc : w.creature.children = []) (hs : w.creature.systems = []) :
    ∃ w', Creature.follow M mouse draws x y w = .ok w' := by
  have hc1 : (w.creature.integrate M x y).children = [] := hc
  have hs1 : (w.creature.integrate M x y).systems = [] := hs
  simp [Creature.follow, hc1, hs1, forEach, updateSystems]

/-- The sum of `step == 0` over the systems is the number of LegSystems that
stand. -/
theorem standing_foldl : ∀ (l : List (System K)) (a : K),
    l.foldl (fun sum s => sum + s.standing) a = a + ((l.filter System.isStanding).length : K)
  | [], a => by simp
  | s :: rest, a => by
    rw [List.foldl_cons, standing_foldl rest]
    cases s with
    | limb l => simp [System.standing, System.isStanding]
    | leg l =>
      by_cases h : l.step = 0
      · simp [System.standing, System.isStanding, h]
        ring
      · simp [System.standing, System.isStanding, h]

/-- The wrap `a - 2 * PI * floor(a / (2 * PI) + 1 / 2)` lands in `[-PI, PI)`. -/
theorem wrap_turn_bounds (M : JSMath K) (hpi : 0 < M.PI) (a : K) :
    -M.PI ≤ a - 2 * M.PI * ((⌊a / (2 * M.PI) + 1 / 2⌋ : ℤ) : K) ∧
    a - 2 * M.PI * ((⌊a / (2 * M.PI) + 1 / 2⌋ : ℤ) : K) < M.PI := by
  have h1 := Int.floor_le (a / (2 * M.PI) + 1 / 2)
  have h2 := Int.lt_floor_add_one (a / (2 * M.PI) + 1 / 2)
  generalize ((⌊a / (2 * M.PI) + 1 / 2⌋ : ℤ) : K) = k at h1 h2
  have h3 : a / (2 * M.PI) * (2 * M.PI) = a := by
    field_simp
  generalize a / (2 * M.PI) = t at h1 h2 h3
  have h4 := mul_le_mul_of_nonneg_right h1 (by linarith : (0 : K) ≤ 2 * M.PI)
  have h5 := mul_lt_mul_of_pos_right h2 (by linarith : (0 : K) < 2 * M.PI)
  constructor <;> linarith

end Body

/-! ### C14, C15, C16: the integrators of `Creature.follow` -/

section Integrators

variable {K : Type} [LinearOrderedField K] [FloorRing K]

/-- C14: with `n` the number of attached systems, `k` the number of
LegSystems among them with `step == STANDING`, and `dist` the body-to-target
distance, `Creature.follow` sets `fSpeed' = (fSpeed + fAccel * scale *
[dist > fThresh]) * (1 - fRes)` with `scale = k / n` (1 when `n == 0`), sets
`speed = max(0, fSpeed' - fFric) ≥ 0`, and moves the body to `(x + speed *
cos(h), y + speed * sin(h))` with `h` the new heading; no acceleration is added
when `dist ≤ fThresh` or when no system stands, and the displacement along the
heading is `speed ≥ 0`. -/
theorem forward_integrator (M : JSMath K) (hM : M.Exact) (mouse : K × K) (draws : Nat → K × K)
    (x y : K) (w : World K) :
    (w.creature.newFSpeed M x y
      = (w.creature.fSpeed + w.creature.fAccel
          * (if w.creature.systems.length = 0 then 1
              else ((w.creature.systems.filter System.isStanding).length : K)
                / (w.creature.systems.length : K))
          * (if w.creature.targetDist M x y > w.creature.fThresh then 1 else 0))
        * (1 - w.creature.fRes)) ∧
    ((w.creature.integrate M x y).speed = max 0 (w.creature.newFSpeed M x y - w.creature.fFric) ∧
      0 ≤ (w.creature.integrate M x y).speed) ∧
    ((w.creature.integrate M x y).x = w.creature.x
        + (w.creature.integrate M x y).speed * M.cos (w.creature.newHeading M x y) ∧
      (w.creature.integrate M x y).y = w.creature.y
        + (w.creature.integrate M x y).speed * M.sin (w.creature.newHeading M x y)) ∧
    (w.creature.targetDist M x y ≤ w.creature.fThresh →
      w.creature.newFSpeed M x y = w.creature.fSpeed * (1 - w.creature.fRes)) ∧
    (w.creature.systems ≠ [] → (w.creature.systems.filter System.isStanding).length = 0 →
      w.creature.newFSpeed M x y = w.creature.fSpeed * (1 - w.creature.fRes)) ∧
    (((w.creature.integrate M x y).x - w.creature.x) * M.cos (w.creature.newHeading M x y)
        + ((w.creature.integrate M x y).y - w.creature.y) * M.sin (w.creature.newHeading M x y)
      = (w.creature.integrate M x y).speed) ∧
    (∀ w', Creature.follow M mouse draws x y w = .ok w' →
      w'.creature.fSpeed = w.creature.newFSpeed M x y ∧
      w'.creature.speed = (w.creature.integrate M x y).speed ∧
      w'.creature.x = (w.creature.integrate M x y).x ∧
      w'.creature.y = (w.creature.integrate M x y).y ∧
      w'.creature.absAngle = w.creature.newHeading M x y) ∧
    (w.creature.children = [] → w.creature.systems = [] →
      ∃ w', Creature.follow M mouse draws x y w = .ok w') := by
  have hacc : w.creature.accel = w.creature.fAccel
      * (if w.creature.systems.length = 0 then 1
          else ((w.creature.systems.filter System.isStanding).length : K)
            / (w.creature.systems.length : K)) := by
    simp only [Creature.accel, standing_foldl, zero_add]
    by_cases hn : w.creature.systems.length = 0
    · simp [hn]
    · simp [hn, Nat.pos_of_ne_zero hn]
  have hF : w.creature.newFSpeed M x y
      = (w.creature.fSpeed + w.creature.fAccel
          * (if w.creature.systems.length = 0 then 1
              else ((w.creature.systems.filter System.isStanding).length : K)
                / (w.creature.systems.length : K))
          * (if w.creature.targetDist M x y > w.creature.fThresh then 1 else 0))
        * (1 - w.creature.fRes) := by
    simp only [Creature.newFSpeed, hacc]
  refine ⟨hF, ⟨rfl, le_max_left _ _⟩, ⟨rfl, rfl⟩, ?_, ?_, ?_, ?_,
    creature_follow_bare M mouse draws x y w⟩
  · intro hd
    rw [hF, if_neg (not_lt.2 hd)]
    ring
  · intro hne hk
    have hlen : w.creature.systems.length ≠ 0 := by
      intro h0
      exact hne (List.length_eq_zero.1 h0)
    rw [hF, if_neg hlen, hk]
    simp
  · have hcs := hM.cos_sq_add_sin_sq (w.creature.newHeading M x y)
    simp only [Creature.integrate]
    linear_combination (max 0 (w.creature.newFSpeed M x y - w.creature.fFric)) * hcs
  · intro w' h
    have hb := creature_follow_body M mouse draws x y w w' h
    rw [hb]
    refine ⟨rfl, rfl, rfl, rfl, ?_⟩
    simp only [Creature.integrate]
    ring

/-- C14, checked on a Creature at rest at the origin with no systems and the
target at `(2, 0)`. -/
theorem forward_integrator_witness :
    ((headingEdge realMath).creature.integrate realMath 2 0).speed
        = max 0 ((headingEdge realMath).creature.newFSpeed realMath 2 0
          - (headingEdge realMath).creature.fFric) ∧
    ∃ w', Creature.follow realMath (0, 0) (fun _ => (0, 0)) 2 0 (headingEdge realMath)
      = .ok w' :=
  have h := forward_integrator realMath realMath_exact (0, 0) (fun _ => (0, 0)) 2 0
    (headingEdge realMath)
  ⟨h.2.1.1, h.2.2.2.2.2.2.2 rfl rfl⟩

/-- C15 (amended): in `Creature.follow` with `rFric ≥ 0` and `rThresh ≥ 0`,
with `dif` the heading minus the target direction wrapped to one turn,
`a = -rAccel * sign(dif)` if `|dif| > rThresh` and `dist > fThresh` and `a = 0`
otherwise, and `r1 = (rSpeed + a) * (1 - rRes)`: the new `rSpeed` is 0 when
`|r1| ≤ rFric` and `r1 - rFric * sign(r1)` otherwise, so
`|rSpeed'| == max(0, |r1| - rFric)` and `rSpeed'` never has the sign opposite
to `r1`. -/
theorem rotational_integrator (M : JSMath K) (mouse : K × K) (draws : Nat → K × K) (x y : K)
    (w : World K) (hf : 0 ≤ w.creature.rFric) (ht : 0 ≤ w.creature.rThresh) :
    ((∃ k : ℤ, w.creature.headingError M x y
        = w.creature.absAngle - M.atan2 (y - w.creature.y) (x - w.creature.x) - 2 * M.PI * k) ∧
      (0 < M.PI → -M.PI ≤ w.creature.headingError M x y ∧ w.creature.headingError M x y < M.PI)) ∧
    (w.creature.turnedRSpeed M x y
      = (w.creature.rSpeed
          + (if |w.creature.headingError M x y| > w.creature.rThresh
                ∧ w.creature.targetDist M x y > w.creature.fThresh then
              -w.creature.rAccel
                * ((SignType.sign (w.creature.headingError M x y) : SignType) : K)
            else 0))
        * (1 - w.creature.rRes)) ∧
    (|w.creature.turnedRSpeed M x y| ≤ w.creature.rFric → w.creature.newRSpeed M x y = 0) ∧
    (w.creature.rFric < |w.creature.turnedRSpeed M x y| →
      w.creature.newRSpeed M x y = w.creature.turnedRSpeed M x y
        - w.creature.rFric * ((SignType.sign (w.creature.turnedRSpeed M x y) : SignType) : K)) ∧
    |w.creature.newRSpeed M x y| = max 0 (|w.creature.turnedRSpeed M x y| - w.creature.rFric) ∧
    0 ≤ w.creature.newRSpeed M x y * w.creature.turnedRSpeed M x y ∧
    (∀ w', Creature.follow M mouse draws x y w = .ok w' →
      w'.creature.rSpeed = w.creature.newRSpeed M x y) ∧
    (w.creature.children = [] → w.creature.systems = [] →
      ∃ w', Creature.follow M mouse draws x y w = .ok w') := by
  refine ⟨⟨⟨_, rfl⟩, fun hpi => wrap_turn_bounds M hpi _⟩, ?_, ?_, ?_, ?_, ?_, ?_,
    creature_follow_bare M mouse draws x y w⟩
  · simp only [Creature.turnedRSpeed]
    by_cases hc : |w.creature.headingError M x y| > w.creature.rThresh
        ∧ w.creature.targetDist M x y > w.creature.fThresh
    · rw [if_pos hc, if_pos hc]
      have hne : w.creature.headingError M x y ≠ 0 := by
        intro hz
        have h1 := hc.1
        rw [hz, abs_zero] at h1
        exact absurd h1 (not_lt.2 ht)
      rcases lt_or_gt_of_ne hne with h | h
      · rw [if_neg (not_lt.2 h.le), sign_neg h, SignType.coe_neg_one]
        ring
      · rw [if_pos h, sign_pos h, SignType.coe_one]
        ring
    · rw [if_neg hc, if_neg hc]
      ring
  · intro h
    simp only [Creature.newRSpeed, if_neg (not_lt.2 h)]
  · intro h
    simp only [Creature.newRSpeed, if_pos h]
    have hne : w.creature.turnedRSpeed M x y ≠ 0 := by
      intro hz
      rw [hz, abs_zero] at h
      exact absurd h (not_lt.2 hf)
    rcases lt_or_gt_of_ne hne with h' | h'
    · rw [if_neg (not_lt.2 h'.le), sign_neg h']
      norm_num
    · rw [if_pos h', sign_pos h']
      norm_num
  · simp only [Creature.newRSpeed]
    generalize w.creature.turnedRSpeed M x y = r1
    by_cases h : |r1| > w.creature.rFric
    · rw [if_pos h, max_eq_right (by linarith)]
      by_cases hp : r1 > 0
      · rw [if_pos hp, abs_of_pos hp] at *
        rw [abs_of_pos (by linarith)]
        ring
      · rw [if_neg hp]
        have hn : r1 ≤ 0 := not_lt.1 hp
        rw [abs_of_nonpos hn] at h ⊢
        rw [abs_of_neg (by linarith)]
        ring
    · rw [if_neg h, abs_zero, max_eq_left (by linarith [not_lt.1 h])]
  · simp only [Creature.newRSpeed]
    generalize w.creature.turnedRSpeed M x y = r1
    by_cases h : |r1| > w.creature.rFric
    · rw [if_pos h]
      by_cases hp : r1 > 0
      · rw [if_pos hp]
        rw [abs_of_pos hp] at h
        exact mul_nonneg (by linarith) hp.le
      · rw [if_neg hp]
        have hn : r1 ≤ 0 := not_lt.1 hp
        rw [abs_of_nonpos hn] at h
        exact mul_nonneg_of_nonpos_of_nonpos (by linarith) hn
    · rw [if_neg h, zero_mul]
  · intro w' h
    rw [creature_follow_body M mouse draws x y w w' h]
    rfl

/-- C15, checked on a Creature at rest at the origin with the target at
`(2, 0)`. -/
theorem rotational_integrator_witness :
    |(headingEdge realMath).creature.newRSpeed realMath 2 0|
        = max 0 (|(headingEdge realMath).creature.turnedRSpeed realMath 2 0|
          - (headingEdge realMath).creature.rFric) ∧
    ∃ w', Creature.follow realMath (0, 0) (fun _ => (0, 0)) 2 0 (headingEdge realMath)
      = .ok w' :=
  have h := rotational_integrator realMath (0, 0) (fun _ => (0, 0)) 2 0 (headingEdge realMath)
    (by simp [headingEdge, Creature.atOrigin]) (by simp [headingEdge, Creature.atOrigin])
  ⟨h.2.2.2.2.1, h.2.2.2.2.2.2.2 rfl rfl⟩

/-- C15 as stated fails for a negative `rThresh`: a Creature at rest at the
origin with heading 0, `rAccel == 1`, `rThresh == -1`, `rFric == 0` and the
target `(2, 0)` straight ahead has `dif == 0`, so `a = -rAccel * sign(dif) = 0`
and `r1 = 0`, for which the claim gives the new `rSpeed` 0; the code subtracts
`rAccel * (2 * (dif > 0) - 1) = -1` and `Creature.follow` leaves
`rSpeed == 1`. -/
theorem rotational_integrator_counterexample :
    (0 : ℝ) ≤ (eagerTurner : World ℝ).creature.rFric ∧
    (eagerTurner : World ℝ).creature.headingError realMath 2 0 = 0 ∧
    |(eagerTurner : World ℝ).creature.headingError realMath 2 0|
      > (eagerTurner : World ℝ).creature.rThresh ∧
    (eagerTurner : World ℝ).creature.targetDist realMath 2 0
      > (eagerTurner : World ℝ).creature.fThresh ∧
    |((eagerTurner : World ℝ).creature.rSpeed + -(eagerTurner : World ℝ).creature.rAccel
        * ((SignType.sign ((eagerTurner : World ℝ).creature.headingError realMath 2 0) :
          SignType) : ℝ)) * (1 - (eagerTurner : World ℝ).creature.rRes)|
      ≤ (eagerTurner : World ℝ).creature.rFric ∧
    ∃ w', Creature.follow realMath (0, 0) (fun _ => (0, 0)) 2 0 eagerTurner = .ok w' ∧
      w'.creature.rSpeed = 1 ∧ w'.creature.rSpeed ≠ 0 := by
  have hat : realMath.atan2 ((0 : ℝ) - 0) (2 - 0) = 0 := by
    have e1 : (0 : ℝ) - 0 = 0 := sub_zero 0
    have e2 : (2 : ℝ) - 0 = 2 := sub_zero 2
    rw [e1, e2]
    exact realMath_exact.atan2_zero_pos 2 (by norm_num)
  have hdif : (eagerTurner : World ℝ).creature.headingError realMath 2 0 = 0 := by
    have ha : (eagerTurner : World ℝ).creature.absAngle = 0 := rfl
    have hx : (eagerTurner : World ℝ).creature.x = 0 := rfl
    have hy : (eagerTurner : World ℝ).creature.y = 0 := rfl
    have hfl : (⌊((0 : ℝ) - 0) / (2 * realMath.PI) + 1 / 2⌋ : ℤ) = 0 := by
      rw [Int.floor_eq_zero_iff]
      constructor <;> norm_num
    simp only [Creature.headingError, ha, hx, hy, hat, hfl]
    simp
  have hdist : (eagerTurner : World ℝ).creature.targetDist realMath 2 0 = 2 := by
    have h2 := realMath_exact.sqrt_sq (2 : ℝ) (by norm_num)
    have e : ((0 : ℝ) - 2) ^ 2 + (0 - 0) ^ 2 = 2 ^ 2 := by norm_num
    show realMath.sqrt (((0 : ℝ) - 2) ^ 2 + (0 - 0) ^ 2) = 2
    rw [e, h2]
  have hthr : (eagerTurner : World ℝ).creature.rThresh = -1 := rfl
  have hfth : (eagerTurner : World ℝ).creature.fThresh = 0 := rfl
  have hT : (eagerTurner : World ℝ).creature.turnedRSpeed realMath 2 0 = 1 := by
    have hrs : (eagerTurner : World ℝ).creature.rSpeed = 0 := rfl
    have hra : (eagerTurner : World ℝ).creature.rAccel = 1 := rfl
    have hrr : (eagerTurner : World ℝ).creature.rRes = 0 := rfl
    simp only [Creature.turnedRSpeed, hdif, hdist, hthr, hfth, hrs, hra, hrr]
    norm_num
  have hN : (eagerTurner : World ℝ).creature.newRSpeed realMath 2 0 = 1 := by
    have hrf : (eagerTurner : World ℝ).creature.rFric = 0 := rfl
    simp only [Creature.newRSpeed, hT, hrf]
    norm_num
  obtain ⟨w', h⟩ := creature_follow_bare realMath (0, 0) (fun _ => (0, 0)) 2 0
    (eagerTurner : World ℝ) rfl rfl
  have hr : w'.creature.rSpeed = 1 := by
    rw [creature_follow_body realMath _ _ 2 0 _ w' h]
    exact hN
  refine ⟨le_refl _, hdif, ?_, ?_, ?_, w', h, hr, by rw [hr]; norm_num⟩
  · rw [hdif, hthr]
    norm_num
  · rw [hdist, hfth]
    norm_num
  · rw [hdif]
    simp [eagerTurner, Creature.atOrigin]

/-- A Creature at rest with heading `-PI` and no rotational acceleration keeps
the heading `-PI`. -/
theorem headingEdge_newHeading (M : JSMath K) (hpi : 0 < M.PI) (x y : K) :
    (headingEdge M).creature.newHeading M x y = -M.PI := by
  have hr : (headingEdge M).creature.newRSpeed M x y = 0 := by
    have ht : (headingEdge M).creature.turnedRSpeed M x y = 0 := by
      simp [Creature.turnedRSpeed, headingEdge, Creature.atOrigin]
    have hf : (headingEdge M).creature.rFric = 0 := rfl
    simp [Creature.newRSpeed, ht, hf]
  have hfl : (⌊(-M.PI + 0) / (2 * M.PI) + 1 / 2⌋ : ℤ) = 0 := by
    have hne : M.PI ≠ 0 := ne_of_gt hpi
    have : (-M.PI + 0) / (2 * M.PI) + 1 / 2 = 0 := by
      field_simp
      ring
    rw [this, Int.floor_zero]
  have ha : (headingEdge M).creature.absAngle = -M.PI := rfl
  simp only [Creature.newHeading, hr, ha, hfl]
  simp

/-- C16 as stated fails: a Creature at rest whose heading is exactly `-PI`
(no children, no systems) keeps `absAngle == -PI` through `Creature.follow`,
which is not strictly greater than `-PI`. -/
theorem heading_wrap_counterexample :
    ∃ w', Creature.follow realMath (0, 0) (fun _ => (0, 0)) 0 0 (headingEdge realMath) = .ok w' ∧
      w'.creature.absAngle = -Real.pi ∧
      ¬ (-Real.pi < w'.creature.absAngle ∧ w'.creature.absAngle ≤ Real.pi) := by
  obtain ⟨w', h⟩ := creature_follow_bare realMath (0, 0) (fun _ => (0, 0)) 0 0
    (headingEdge realMath) rfl rfl
  have ha : w'.creature.absAngle = -Real.pi := by
    rw [creature_follow_body realMath _ _ 0 0 _ w' h]
    have := headingEdge_newHeading realMath Real.pi_pos 0 0
    simp only [Creature.integrate, this]
    simp [realMath]
  refine ⟨w', h, ha, ?_⟩
  rw [ha]
  intro hc
  exact lt_irrefl _ hc.1

end Integrators

/-! ### C13: plain limbs and the standing count -/

section PlainLimbs

variable {K : Type} [LinearOrderedField K] [FloorRing K]

/-- `follow` with propagation returns on a segment without children that is
off its parent and whose stiffness is not zero. -/
theorem follow_leaf_ok (M : JSMath K) (fuel i : Nat) (w : World K)
    (hc : (w.segs i).children = [])
    (hd : distance M (w.segs i).x (w.segs i).y (w.nodeX (w.segs i).parent)
      (w.nodeY (w.segs i).parent) ≠ 0)
    (hs : (w.segs i).stiffness ≠ 0) :
    ∃ w', follow M (fuel + 1) i true w = .ok w' := by
  obtain ⟨w1, h1⟩ := followSelf_ok M i w hd
  obtain ⟨hsh, -⟩ := followSelf_local M i w w1 h1
  obtain ⟨w2, h2⟩ := updateSelf_ok M i true w1 (fun _ => by rw [hsh.stiffness]; exact hs)
  obtain ⟨hsh2, -⟩ := updateSelf_local M true i w1 w2 h2
  have hc2 : (w2.segs i).children = [] := by rw [hsh2.children, hsh.children]; exact hc
  exact ⟨w2, by simp [follow, h1, updateRelative_noiter, h2, hc2, forEach]⟩

/-- The loop over a list of one element. -/
theorem forEach_single (f : Nat → World K → Except Fault (World K)) (c : Nat) (w w' : World K)
    (h : f c w = .ok w') : forEach f [c] w = .ok w' := by
  simp only [forEach, h]

/-- `Creature.follow` returns when its loop over the children and its loop
over the systems return. -/
theorem creature_follow_ok (M : JSMath K) (mouse : K × K) (draws : Nat → K × K) (x y : K)
    (w w2 : World K) (r : List (System K) × World K)
    (h2 : forEach (fun c w2 => follow M (w2.segmentCount + 1) c true w2)
      (w.creature.integrate M x y).children
      { w with creature := { w.creature.integrate M x y with
        absAngle := (w.creature.integrate M x y).absAngle + M.PI } } = .ok w2)
    (h3 : updateSystems M mouse draws 0 w2.creature.systems w2 = .ok r) :
    ∃ w', Creature.follow M mouse draws x y w = .ok w' := by
  obtain ⟨s, w3⟩ := r
  cases hF : Creature.follow M mouse draws x y w with
  | ok w' => exact ⟨w', rfl⟩
  | error e =>
    exfalso
    simp only [Creature.follow] at hF
    simp only [] at h2
    simp [h2, h3] at hF

theorem tentacle_wf : (tentacle : World K).WF where
  child_parent := fun p c hc => by simp [tentacle] at hc
  child_lt := fun p c hc => by simp [tentacle] at hc
  parent_lt := fun j q hq => by simp [tentacle] at hq

/-- The tentacle's body does not move: its only system is a plain limb. -/
theorem tentacle_integrate (M : JSMath K) (x y : K) :
    (tentacle.creature.newFSpeed M x y = 0) ∧
    (tentacle.creature.integrate M x y).x = 0 ∧ (tentacle.creature.integrate M x y).y = 0 := by
  have h : (tentacle : World K).creature.newFSpeed M x y = 0 := by
    simp [Creature.newFSpeed, Creature.accel, tentacle, Creature.atOrigin, System.standing]
  have hf : (tentacle : World K).creature.fFric = 0 := rfl
  have hx : (tentacle : World K).creature.x = 0 := rfl
  have hy : (tentacle : World K).creature.y = 0 := rfl
  refine ⟨h, ?_, ?_⟩ <;> simp [Creature.integrate, h, hf, hx, hy]

/-- `Creature.follow` returns on the tentacle, and leaves `fSpeed == 0`. -/
theorem tentacle_follow (M : JSMath K) (hM : M.Exact) (mouse : K × K) (draws : Nat → K × K)
    (x y : K) :
    ∃ w', Creature.follow M mouse draws x y tentacle = .ok w' ∧ w'.creature.fSpeed = 0 := by
  obtain ⟨hF, hx, hy⟩ := tentacle_integrate M x y
  have hd : distance M (0 + 1) 0 ((tentacle : World K).creature.integrate M x y).x
      ((tentacle : World K).creature.integrate M x y).y ≠ 0 := by
    rw [hx, hy]
    have h1 := hM.sqrt_sq (1 : K) (by norm_num)
    rw [one_pow] at h1
    simp only [distance]
    norm_num
    intro h0
    rw [h0] at h1
    norm_num at h1
  obtain ⟨w2, h2⟩ := follow_leaf_ok M 1 0
    ({ (tentacle : World K) with creature := { (tentacle : World K).creature.integrate M x y with
        absAngle := ((tentacle : World K).creature.integrate M x y).absAngle + M.PI } })
    rfl hd (by show (1 : K) ≠ 0; norm_num)
  have h2t := h2
  rw [follow_eq_treePass] at h2t
  have hsh := (treePass_spec (followStep_local M) _ 0 true _ w2 h2t).1
  have hw2 : w2.WF :=
    hsh.wf ⟨tentacle_wf.child_parent, tentacle_wf.child_lt, tentacle_wf.parent_lt⟩
  obtain ⟨l, hl⟩ : ∃ l : LimbSystem K,
      l = { endSeg := 0, length := 1, speed := 1, nodes := [0], hip := Ref.creature } := ⟨_, rfl⟩
  have hsys : w2.creature.systems = [System.limb l] := by
    rw [hsh.creature, hl]
    rfl
  obtain ⟨w1, w3, -, h3, -⟩ := moveTo_spec M l mouse.1 mouse.2 w2 0 [] (by rw [hl]) hw2
    ⟨by rw [hl]; exact ⟨by rw [hsh.parent]; rfl, trivial⟩, by rw [hl]; rfl⟩
    (fun j _ => by rw [hsh.stiffness]; show (1 : K) ≠ 0; norm_num)
  obtain ⟨w', h'⟩ := creature_follow_ok M mouse draws x y tentacle w2 ([System.limb l], w3)
    (forEach_single (fun c w2 => follow M (w2.segmentCount + 1) c true w2) 0 _ w2 h2)
    (by rw [hsys]; simp only [updateSystems, System.update, h3])
  refine ⟨w', h', ?_⟩
  rw [creature_follow_body M mouse draws x y _ w' h']
  exact hF

/-- C13 (amended): a plain LimbSystem has no `step`, so it adds 0 to the
standing sum of `Creature.follow`.  For a Creature whose attached systems are
all plain LimbSystems and a target farther than `fThresh` from the body: when
there is at least one system no forward acceleration is applied and the new
`fSpeed` is `fSpeed * (1 - fRes)`; only when no system is attached is the full
acceleration applied, `(fSpeed + fAccel) * (1 - fRes)`.  This value is the
`fSpeed` of the Creature when `Creature.follow` returns. -/
theorem plain_limbs_standing (M : JSMath K) (mouse : K × K) (draws : Nat → K × K) (x y : K)
    (w : World K) (hall : ∀ s ∈ w.creature.systems, ∃ l, s = System.limb l)
    (hfar : w.creature.fThresh < w.creature.targetDist M x y) :
    (∀ s ∈ w.creature.systems, s.standing = 0) ∧
    (w.creature.systems ≠ [] →
      w.creature.newFSpeed M x y = w.creature.fSpeed * (1 - w.creature.fRes)) ∧
    (w.creature.systems = [] →
      w.creature.newFSpeed M x y
        = (w.creature.fSpeed + w.creature.fAccel) * (1 - w.creature.fRes)) ∧
    (∀ w', Creature.follow M mouse draws x y w = .ok w' →
      w'.creature.fSpeed = w.creature.newFSpeed M x y) := by
  have hst : ∀ s ∈ w.creature.systems, s.standing = 0 := by
    intro s hs
    obtain ⟨l, rfl⟩ := hall s hs
    rfl
  have hfilter : (w.creature.systems.filter System.isStanding).length = 0 := by
    rw [List.length_eq_zero, List.filter_eq_nil_iff]
    intro s hs
    obtain ⟨l, rfl⟩ := hall s hs
    simp [System.isStanding]
  refine ⟨hst, ?_, ?_, ?_⟩
  · intro hne
    have hlen : 0 < w.creature.systems.length := List.length_pos.2 hne
    simp only [Creature.newFSpeed, Creature.accel, standing_foldl, hfilter, hlen]
    simp
  · intro hnil
    simp only [Creature.newFSpeed, Creature.accel, hnil, gt_iff_lt, hfar]
    simp
  · intro w' h
    rw [creature_follow_body M mouse draws x y w w' h]
    rfl

/-- C13, checked on the tentacle with the target at `(2, 0)`. -/
theorem plain_limbs_standing_witness :
    (tentacle : World ℝ).creature.systems ≠ [] ∧
    (tentacle : World ℝ).creature.newFSpeed realMath 2 0
      = (tentacle : World ℝ).creature.fSpeed * (1 - (tentacle : World ℝ).creature.fRes) ∧
    ∃ w', Creature.follow realMath (0, 0) (fun _ => (0, 0)) 2 0 tentacle = .ok w' ∧
      w'.creature.fSpeed = (tentacle : World ℝ).creature.newFSpeed realMath 2 0 := by
  have hfar : (tentacle : World ℝ).creature.fThresh
      < (tentacle : World ℝ).creature.targetDist realMath 2 0 := by
    have h2 := realMath_exact.sqrt_sq (2 : ℝ) (by norm_num)
    show (0 : ℝ) < realMath.sqrt (((0 : ℝ) - 2) ^ 2 + ((0 : ℝ) - 0) ^ 2)
    norm_num
    norm_num at h2
    rw [h2]
    norm_num
  have h := plain_limbs_standing realMath (0, 0) (fun _ => (0, 0)) 2 0 (tentacle : World ℝ)
    (by intro s hs; simp [tentacle] at hs; exact ⟨_, hs⟩) hfar
  obtain ⟨w', h', -⟩ := tentacle_follow realMath realMath_exact (0, 0) (fun _ => (0, 0)) 2 0
  exact ⟨by simp [tentacle], h.2.1 (by simp [tentacle]), w', h', h.2.2.2 w' h'⟩

/-- C13 as stated fails: on the tentacle, whose one system is a plain
LimbSystem, with `fSpeed == 0`, `fAccel == 1`, `fRes == 0`, `fThresh == 0` and
the target `(2, 0)` at distance 2, `Creature.follow` leaves `fSpeed == 0`, not
`(fSpeed + fAccel) * (1 - fRes) == 1`. -/
theorem plain_limbs_standing_counterexample :
    (∀ s ∈ (tentacle : World ℝ).creature.systems, ∃ l, s = System.limb l) ∧
    (tentacle : World ℝ).creature.fThresh
      < (tentacle : World ℝ).creature.targetDist realMath 2 0 ∧
    ∃ w', Creature.follow realMath (0, 0) (fun _ => (0, 0)) 2 0 tentacle = .ok w' ∧
      w'.creature.fSpeed = 0 ∧
      w'.creature.fSpeed ≠ ((tentacle : World ℝ).creature.fSpeed
        + (tentacle : World ℝ).creature.fAccel) * (1 - (tentacle : World ℝ).creature.fRes) := by
  have hfar : (tentacle : World ℝ).creature.fThresh
      < (tentacle : World ℝ).creature.targetDist realMath 2 0 := by
    have h2 := realMath_exact.sqrt_sq (2 : ℝ) (by norm_num)
    show (0 : ℝ) < realMath.sqrt (((0 : ℝ) - 2) ^ 2 + ((0 : ℝ) - 0) ^ 2)
    norm_num
    norm_num at h2
    rw [h2]
    norm_num
  obtain ⟨w', h', hf⟩ := tentacle_follow realMath realMath_exact (0, 0) (fun _ => (0, 0)) 2 0
  refine ⟨by intro s hs; simp [tentacle] at hs; exact ⟨_, hs⟩, hfar, w', h', hf, ?_⟩
  rw [hf]
  show (0 : ℝ) ≠ (0 + 1) * (1 - 0)
  norm_num

end PlainLimbs

/-! ### C12: Scenario C, a leg constructed at rest -/

section ScenarioC

variable {K : Type} [LinearOrderedField K] [FloorRing K]

/-- An invariant that the work on every descendant of `root` keeps is kept by
a pass below `root`. -/
theorem treePass_inv {self : Nat → World K → Except Fault (World K)} (hl : LocalStep self)
    (w0 : World K) (root : Nat) (I : World K → Prop)
    (hstep : ∀ i w2 w3, Desc w0 root i → SameShape w0 w2 → I w2 → self i w2 = .ok w3 → I w3) :
    ∀ (fuel i : Nat) (iter : Bool) (w w' : World K), Desc w0 root i → SameShape w0 w → I w →
      treePass self fuel i iter w = .ok w' → I w'
  | 0, _, _, _, _, _, _, _, h => by simp [treePass] at h
  | fuel + 1, i, iter, w, w', hd, hsh, hI, h => by
    simp only [treePass] at h
    cases hs : self i w with
    | error e => simp [hs] at h
    | ok w1 =>
      simp only [hs] at h
      have hsh1 : SameShape w0 w1 := hsh.andThen (hl i w w1 hs).1
      have hI1 : I w1 := hstep i w w1 hd hsh hI hs
      cases iter with
      | false =>
        simp only [Bool.false_eq_true, if_false, Except.ok.injEq] at h
        exact h ▸ hI1
      | true =>
        simp only [if_true] at h
        refine (forEach_inv (P := fun w2 => SameShape w0 w2 ∧ I w2) _ w1 w' ?_ ⟨hsh1, hI1⟩ h).2
        intro c hc w2 w3 ⟨hsh2, hI2⟩ hpass
        have hc0 : c ∈ (w0.segs i).children := by rwa [hsh1.children] at hc
        exact ⟨hsh2.andThen (treePass_spec hl fuel c true w2 w3 hpass).1,
          treePass_inv hl w0 root I hstep fuel c true w2 w3
            (hd.append (Desc.step hc0 (Desc.refl c))) hsh2 hI2 hpass⟩

/-- Being a descendant depends on the `children` fields only. -/
theorem Desc.of_children_eq {w w' : World K}
    (h : ∀ j, (w'.segs j).children = (w.segs j).children) {i j : Nat} (hd : Desc w i j) :
    Desc w' i j := by
  induction hd with
  | refl i => exact Desc.refl i
  | step hc _ ih => exact Desc.step (by rw [h]; exact hc) ih

/-- The relaxation that opens `moveTo` leaves a chain at rest as it is: when
every chain node is at its rest angle and consistent with its parent, no chain
node changes. -/
theorem relax_chain_fixed (M : JSMath K) (sys : LimbSystem K) (w w1 : World K) (n0 : Nat)
    (rest : List Nat) (hn : sys.nodes = n0 :: rest) (hw : w.WF) (hs : sys.WF w)
    (hrest : ∀ k ∈ sys.nodes, (w.segs k).relAngle = (w.segs k).defAngle ∧
      0 ≤ (w.segs k).range ∧ Consistent M w k)
    (hst : ∀ j, Desc w n0 j → (w.segs j).stiffness ≠ 0) (fuel : Nat)
    (h1 : updateRelative M fuel n0 true true w = .ok w1) :
    ∀ k ∈ sys.nodes, w1.segs k = w.segs k := by
  rw [updateRelative_eq_treePass] at h1
  have hhip : (w.segs n0).parent = sys.hip := by
    have hc := hs.chain
    rw [hn] at hc
    exact hc.1
  refine (treePass_inv (updateSelf_local M true) w n0
    (fun w2 => (∀ k ∈ sys.nodes, w2.segs k = w.segs k) ∧
      ∀ q, sys.hip = Ref.seg q → w2.segs q = w.segs q) ?_
    fuel n0 true w w1 (Desc.refl n0) (SameShape.rfl' w) ⟨fun _ _ => rfl, fun _ _ => rfl⟩ h1).1
  intro i w2 w3 hd hsh ⟨hI, hH⟩ hself
  by_cases hi : i ∈ sys.nodes
  · have hfix : updateSelf M i true w2 = .ok w2 := by
      refine updateSelf_fixed M i true w2 (newRel_at_rest M _ true ?_ ?_ ?_) ?_
      · rw [hI i hi]
        exact (hrest i hi).1
      · rw [hI i hi]
        exact (hrest i hi).2.1
      · rw [hI i hi]
        exact hst i hd
      · refine consistent_local M w w2 i hsh (hI i hi) ?_ (hrest i hi).2.2
        intro q hq
        rcases IsChain.parent_mem hs.chain i hi with ⟨-, hp⟩ | ⟨q', hq', hp⟩
        · exact hH q (by rw [← hp, hq])
        · rw [hq] at hp
          injection hp with hp
          rw [hp]
          exact hI q' hq'
    rw [hfix, Except.ok.injEq] at hself
    rw [← hself]
    exact ⟨hI, hH⟩
  · obtain ⟨-, hfr⟩ := updateSelf_local M true i w2 w3 hself
    refine ⟨fun k hk => ?_, fun q hq => ?_⟩
    · rw [hfr k (fun e => hi (e ▸ hk)), hI k hk]
    · have hq0 : q < n0 := hw.parent_lt n0 q (by rw [hhip, hq])
      have hle : n0 ≤ i := hd.le hw
      rw [hfr q (by omega), hH q hq]

/-- A standing leg whose chain is at rest and whose goal is the position of
its end effector: `update` returns the system unchanged and leaves the end
effector on the goal. -/
theorem update_at_rest (M : JSMath K) (hM : M.Exact) (r1 r2 : K) (sys : LegSystem K)
    (w : World K) (n0 : Nat) (rest : List Nat) (hn : sys.nodes = n0 :: rest) (hw : w.WF)
    (hs : sys.toLimbSystem.WF w)
    (hrest : ∀ k ∈ sys.nodes, (w.segs k).relAngle = (w.segs k).defAngle ∧
      0 ≤ (w.segs k).range ∧ Consistent M w k)
    (hst : ∀ j, Desc w n0 j → (w.segs j).stiffness ≠ 0)
    (hstep : sys.step = 0) (hsp : 0 ≤ sys.speed)
    (hgx : sys.goalX = (w.segs sys.endSeg).x) (hgy : sys.goalY = (w.segs sys.endSeg).y) :
    ∃ w', LegSystem.update M r1 r2 sys w = .ok (sys, w') ∧
      (w'.segs sys.endSeg).x = sys.goalX ∧ (w'.segs sys.endSeg).y = sys.goalY := by
  obtain ⟨w1, w', h1, hmove, -, -, ⟨hex, hey⟩, -⟩ :=
    moveTo_spec M sys.toLimbSystem sys.goalX sys.goalY w n0 rest hn hw hs hst
  have hfix := relax_chain_fixed M sys.toLimbSystem w w1 n0 rest hn hw hs hrest hst _ h1
  have hend : sys.endSeg ∈ sys.nodes := List.mem_of_mem_getLast? hs.last
  have hz : M.sqrt 0 = 0 := by
    have := hM.sqrt_sq 0 le_rfl
    simpa using this
  have hd0 : distance M sys.goalX sys.goalY (w1.segs sys.endSeg).x (w1.segs sys.endSeg).y
      = 0 := by
    rw [hfix _ hend, hgx, hgy]
    simp [distance, hz]
  have hlen : max 0 (0 - sys.speed) = 0 := max_eq_left (by linarith)
  rw [hd0, hlen, zero_mul, add_zero] at hex hey
  refine ⟨w', update_standing_near M r1 r2 sys w w' hmove hstep ?_, hex, hey⟩
  rw [hex, hey]
  simp [distance, hz]

/-- What the `LegSystem` constructor returns when the loop of the `LimbSystem`
constructor has collected `n0 :: rest`. -/
theorem leg_new_of_nodes (M : JSMath K) (w : World K) (endSeg : Nat) (L : Int) (speed : K)
    (n0 : Nat) (rest : List Nat)
    (hr : (collectNodes w L.toNat 0 endSeg [] (max 1 L)).1 = n0 :: rest) :
    ∃ leg w0, LegSystem.new M endSeg L speed w = .ok (leg, w0) ∧
      leg.nodes = n0 :: rest ∧ leg.hip = (w.segs n0).parent ∧ leg.endSeg = endSeg ∧
      leg.speed = speed ∧ leg.step = 0 ∧
      leg.goalX = (w.segs endSeg).x ∧ leg.goalY = (w.segs endSeg).y ∧
      w0 = { w with creature := { w.creature with
        systems := w.creature.systems ++ [System.leg leg] } } := by
  simp only [LegSystem.new, new_of_nodes w endSeg L speed n0 rest hr]
  exact ⟨_, _, rfl, rfl, rfl, rfl, rfl, rfl, rfl, rfl, rfl⟩

/-- C12 (Scenario C): the constructor `new LegSystem(end, L, speed, creature)`
with `L ≥ 1` returns a leg with `step == STANDING` whose goal is the position
of the end effector, pushed onto `creature.systems`.  If `speed ≥ 0`, the
segments of its chain are at their rest angles (`relAngle == defAngle`,
`range ≥ 0`, `stiffness ≥ 1`, consistent with their parents) and the segments
the relaxation visits have `stiffness ≥ 1`, then in any heap with the same
segments in which the hip is where it was at construction, `update` returns
the same leg (`step == STANDING`, the goal unchanged) and leaves the end
effector on the goal. -/
theorem scenario_C (M : JSMath K) (hM : M.Exact) (r1 r2 : K) (w : World K) (endSeg : Nat)
    (L : Int) (speed : K) (hw : w.WF) (hL : 1 ≤ L) (hsp : 0 ≤ speed) :
    ∃ leg w0, LegSystem.new M endSeg L speed w = .ok (leg, w0) ∧
      leg.step = 0 ∧ leg.goalX = (w.segs endSeg).x ∧ leg.goalY = (w.segs endSeg).y ∧
      leg.endSeg = endSeg ∧
      w0 = { w with creature := { w.creature with
        systems := w.creature.systems ++ [System.leg leg] } } ∧
      ((∀ k ∈ leg.nodes, (w.segs k).relAngle = (w.segs k).defAngle ∧ 0 ≤ (w.segs k).range ∧
          1 ≤ (w.segs k).stiffness ∧ Consistent M w k) →
        (∀ n0 j, leg.nodes.head? = some n0 → Desc w n0 j → 1 ≤ (w.segs j).stiffness) →
        ∀ w2 : World K, w2.segs = w.segs → w2.segmentCount = w.segmentCount →
          w2.nodeX leg.hip = w.nodeX leg.hip → w2.nodeY leg.hip = w.nodeY leg.hip →
          w2.nodeAbsAngle leg.hip = w.nodeAbsAngle leg.hip →
          ∃ w', LegSystem.update M r1 r2 leg w2 = .ok (leg, w') ∧
            (w'.segs endSeg).x = leg.goalX ∧ (w'.segs endSeg).y = leg.goalY) := by
  obtain ⟨n0, rest, hr, hchain, hlast⟩ := collectNodes_chain w endSeg L hL
  obtain ⟨leg, w0, hnew, hnodes, hhip, hend, hspeed, hstep, hgx, hgy, hw0⟩ :=
    leg_new_of_nodes M w endSeg L speed n0 rest hr
  refine ⟨leg, w0, hnew, hstep, hgx, hgy, hend, hw0, ?_⟩
  intro hrest hst w2 hsegs hcount hx hy ha
  have hchain2 : IsChain w leg.hip leg.nodes := by
    rw [hnodes, hhip]
    exact hchain
  have hw2 : w2.WF :=
    ⟨fun p c hc => by rw [hsegs] at hc ⊢; exact hw.child_parent p c hc,
     fun p c hc => by rw [hsegs] at hc; rw [hcount]; exact hw.child_lt p c hc,
     fun j q hq => by rw [hsegs] at hq; exact hw.parent_lt j q hq⟩
  have hwf2 : leg.toLimbSystem.WF w2 :=
    ⟨IsChain.of_parent_eq (w := w) (fun j => by rw [hsegs]) hchain2, by
      rw [hnodes, hend]
      exact hlast⟩
  have hres := update_at_rest M hM r1 r2 leg w2 n0 rest hnodes hw2 hwf2 ?_ ?_ hstep
    (by rw [hspeed]; exact hsp) (by rw [hsegs, hend]; exact hgx) (by rw [hsegs, hend]; exact hgy)
  · rw [hend] at hres
    exact hres
  · intro k hk
    obtain ⟨h1, h2, -, hc⟩ := hrest k hk
    refine ⟨by rw [hsegs]; exact h1, by rw [hsegs]; exact h2, ?_⟩
    have hpar : w2.nodeX (w.segs k).parent = w.nodeX (w.segs k).parent ∧
        w2.nodeY (w.segs k).parent = w.nodeY (w.segs k).parent ∧
        w2.nodeAbsAngle (w.segs k).parent = w.nodeAbsAngle (w.segs k).parent := by
      rcases IsChain.parent_mem hchain2 k hk with ⟨-, hp⟩ | ⟨q, -, hp⟩
      · rw [hp]
        exact ⟨hx, hy, ha⟩
      · rw [hp]
        simp [World.nodeX, World.nodeY, World.nodeAbsAngle, hsegs]
    simp only [Consistent, hsegs, hpar.1, hpar.2.1, hpar.2.2] at hc ⊢
    exact hc
  · intro j hd
    have hd' : Desc w n0 j := Desc.of_children_eq (fun j => by rw [hsegs]) hd
    have h1 := hst n0 j (by rw [hnodes]; rfl) hd'
    rw [hsegs]
    intro h0
    rw [h0] at h1
    exact absurd h1 (by norm_num)

/-- The chain of Scenario B is at rest and consistent. -/
theorem scenarioB_consistent (M : JSMath K) (hM : M.Exact) (range stiffness : K) (k : Nat)
    (hk : k ∈ [0, 1]) : Consistent M (scenarioB range stiffness) k := by
  simp only [List.mem_cons, List.mem_singleton, List.not_mem_nil, or_false] at hk
  rcases hk with rfl | rfl <;>
    simp [Consistent, scenarioB, World.chain2, Segment.atRest, World.nodeX, World.nodeY,
      World.nodeAbsAngle, Creature.atOrigin, hM.cos_zero, hM.sin_zero]

/-- C12, checked on the chain of Scenario B: a leg constructed by
`new LegSystem(end, 2, 100, creature)` over the two segments at rest stands
with the goal `(10, 0)`, and its first `update` keeps it so. -/
theorem scenario_C_witness :
    ∃ leg w0, LegSystem.new realMath 1 2 (100 : ℝ) (scenarioB 1 1) = .ok (leg, w0) ∧
      leg.step = 0 ∧ leg.goalX = 10 ∧ leg.goalY = 0 ∧
      ∃ w', LegSystem.update realMath (1 / 2) (1 / 2) leg w0 = .ok (leg, w') ∧
        (w'.segs 1).x = 10 ∧ (w'.segs 1).y = 0 := by
  obtain ⟨leg, w0, hnew, hstep, hgx, hgy, hend, hw0, hup⟩ :=
    scenario_C realMath realMath_exact (1 / 2) (1 / 2) (scenarioB (1 : ℝ) 1) 1 2 100
      (chain2_wf _ _) (by norm_num) (by norm_num)
  obtain ⟨leg', w0', hnew', hnodes, hhip, -⟩ :=
    leg_new_of_nodes realMath (scenarioB (1 : ℝ) 1) 1 2 100 0 [1]
      (by simp [collectNodes, scenarioB, World.chain2])
  rw [hnew, Except.ok.injEq, Prod.mk.injEq] at hnew'
  rw [← hnew'.1] at hnodes hhip
  have hgx' : leg.goalX = 10 := by
    rw [hgx]
    simp [scenarioB, World.chain2, Segment.atRest]
    norm_num
  have hgy' : leg.goalY = 0 := by
    rw [hgy]
    simp [scenarioB, World.chain2, Segment.atRest]
  obtain ⟨w', h', hx, hy⟩ := hup
    (by
      intro k hk
      rw [hnodes] at hk
      refine ⟨?_, ?_, ?_, scenarioB_consistent realMath realMath_exact 1 1 k hk⟩
      all_goals
        simp only [List.mem_cons, List.mem_singleton, List.not_mem_nil, or_false] at hk
        rcases hk with rfl | rfl <;> simp [scenarioB, World.chain2, Segment.atRest])
    (by
      intro n0 j _ _
      by_cases hj : j = 0
      · simp [scenarioB, World.chain2, Segment.atRest, hj]
      · by_cases hj1 : j = 1 <;> simp [scenarioB, World.chain2, Segment.atRest, hj, hj1])
    w0 (by rw [hw0]) (by rw [hw0]) (by rw [hw0]; cases leg.hip <;> rfl)
    (by rw [hw0]; cases leg.hip <;> rfl) (by rw [hw0]; cases leg.hip <;> rfl)
  exact ⟨leg, w0, hnew, hstep, hgx', hgy', w', h', by rw [hx, hgx'], by rw [hy, hgy']⟩

end ScenarioC

/-! ### C18: the per-frame pass over the child trees -/

section TreePassFollow

variable {K : Type} [LinearOrderedField K] [FloorRing K]

/-- The loop with the place of the current element in the list as part of the
hypothesis of a step. -/
theorem forEach_inv_split {f : Nat → World K → Except Fault (World K)}
    {I : List Nat → World K → Prop} (full : List Nat)
    (hstep : ∀ l1 c l2 w1 w2, full = l1 ++ c :: l2 → I l1 w1 → f c w1 = .ok w2 →
      I (l1 ++ [c]) w2) :
    ∀ (cs pre : List Nat) (w w' : World K), full = pre ++ cs → I pre w →
      forEach f cs w = .ok w' → I full w'
  | [], pre, w, w', hfull, hI, h => by
    simp only [forEach, Except.ok.injEq] at h
    rw [hfull, List.append_nil, ← h]
    exact hI
  | c :: cs, pre, w, w', hfull, hI, h => by
    simp only [forEach] at h
    cases hc : f c w with
    | error e => simp [hc] at h
    | ok w1 =>
      simp only [hc] at h
      exact forEach_inv_split full hstep cs (pre ++ [c]) w1 w'
        (by rw [hfull, List.append_assoc]; rfl) (hstep pre c cs w w1 hfull hI hc) h

/-- Two segments with the same `parent` that have a common descendant are the
same segment: the subtrees of distinct siblings are disjoint. -/
theorem desc_same_parent {w : World K} (hw : w.WF) :
    ∀ (k c c' : Nat), Desc w c k → Desc w c' k → (w.segs c).parent = (w.segs c').parent →
      c = c' := by
  intro k
  induction k using Nat.strong_induction_on with
  | _ k ih =>
    intro c c' hd hd' hp
    by_cases hkc : k = c
    · by_contra hne
      have hkc' : k ≠ c' := fun e => hne (hkc.symm.trans e)
      obtain ⟨p, hdp, hcp⟩ := hd'.exists_parent hkc'
      have h1 := hw.child_parent _ _ hcp
      rw [hkc, hp] at h1
      have h2 := hw.parent_lt _ _ h1
      have h3 := hdp.le hw
      omega
    · by_cases hkc' : k = c'
      · obtain ⟨p, hdp, hcp⟩ := hd.exists_parent hkc
        have h1 := hw.child_parent _ _ hcp
        rw [hkc', ← hp] at h1
        have h2 := hw.parent_lt _ _ h1
        have h3 := hdp.le hw
        omega
      · obtain ⟨p, hdp, hkp⟩ := hd.exists_parent hkc
        obtain ⟨p', hdp', hkp'⟩ := hd'.exists_parent hkc'
        have h1 := hw.child_parent _ _ hkp
        have h2 := hw.child_parent _ _ hkp'
        rw [h1] at h2
        injection h2 with h2
        subst h2
        exact ih p (hw.parent_lt _ _ h1) c c' hdp hdp' hp

/-- A loop of passes over siblings `cs`: every segment of their subtrees is
visited once, after its parent and with its own fields not yet touched. -/
theorem forest_visited (self : Nat → World K → Except Fault (World K))
    (pass : Nat → World K → Except Fault (World K)) (w : World K) (hw : w.WF) (cs : List Nat)
    (hnd : cs.Nodup) (r : Ref) (hr : ∀ c ∈ cs, (w.segs c).parent = r)
    (hspec : ∀ c w2 w3, pass c w2 = .ok w3 →
      SameShape w2 w3 ∧ ∀ j, ¬ Desc w2 c j → w3.segs j = w2.segs j)
    (hvis : ∀ c ∈ cs, ∀ w2 w3, SameShape w w2 → pass c w2 = .ok w3 →
      ∀ j, Desc w2 c j → Visited self w2 w3 j)
    (w' : World K) (h : forEach pass cs w = .ok w') :
    SameShape w w' ∧ (∀ k, (∀ c ∈ cs, ¬ Desc w c k) → w'.segs k = w.segs k) ∧
    ∀ c ∈ cs, ∀ j, Desc w c j → Visited self w w' j := by
  refine forEach_inv_split (I := fun l w2 => SameShape w w2 ∧
      (∀ k, (∀ c ∈ l, ¬ Desc w c k) → w2.segs k = w.segs k) ∧
      ∀ c ∈ l, ∀ j, Desc w c j → Visited self w w2 j) cs ?_ cs [] w w' rfl
    ⟨SameShape.rfl' w, fun _ _ => rfl, fun c hc => absurd hc (List.not_mem_nil c)⟩ h
  intro l1 c l2 w2 w3 hsplit ⟨hsh2, hfr2, hv2⟩ hpass
  have hc : c ∈ cs := by
    rw [hsplit]
    simp
  have hl1 : ∀ c' ∈ l1, c' ∈ cs ∧ c' ≠ c := by
    intro c' hc'
    refine ⟨by rw [hsplit]; simp [hc'], ?_⟩
    intro e
    rw [hsplit] at hnd
    have hdis := (List.nodup_append.1 hnd).2.2
    exact hdis hc' (e ▸ List.mem_cons_self _ _)
  obtain ⟨hsh3, hfr3⟩ := hspec c w2 w3 hpass
  have hdisj : ∀ c' ∈ l1, ∀ k, Desc w c' k → ¬ Desc w c k := by
    intro c' hc' k hd' hd
    exact (hl1 c' hc').2
      (desc_same_parent hw k c' c hd' hd (by rw [hr c' (hl1 c' hc').1, hr c hc]))
  refine ⟨hsh2.andThen hsh3, ?_, ?_⟩
  · intro k hk
    rw [hfr3 k (fun hd => hk c (by simp) (hsh2.symm.desc hd)),
      hfr2 k (fun c' hc' => hk c' (by simp [hc']))]
  · intro c' hc' j hd
    rcases List.mem_append.1 hc' with hc1 | hc1
    · obtain ⟨wa, wb, hself, hsha, hja, hq, hjb⟩ := hv2 c' hc1 j hd
      refine ⟨wa, wb, hself, hsha, hja, ?_, ?_⟩
      · intro q hpq
        rw [hq q hpq]
        symm
        apply hfr3
        intro hdq
        have hdq' : Desc w c q := hsh2.symm.desc hdq
        by_cases hjc : j = c'
        · rw [hjc, hr c' (hl1 c' hc1).1, ← hr c hc] at hpq
          have h1 := hw.parent_lt _ _ hpq
          have h2 := hdq'.le hw
          omega
        · obtain ⟨p, hdp, hjp⟩ := hd.exists_parent hjc
          have hp := hw.child_parent _ _ hjp
          rw [hpq] at hp
          injection hp with hp
          subst hp
          exact hdisj c' hc1 q hdp hdq'
      · rw [hfr3 j (fun hdj => hdisj c' hc1 j hd (hsh2.symm.desc hdj)), hjb]
    · simp only [List.mem_singleton] at hc1
      subst hc1
      obtain ⟨wa, wb, hself, hsha, hja, hq, hjb⟩ :=
        hvis c' hc w2 w3 hsh2 hpass j (hsh2.desc hd)
      refine ⟨wa, wb, hself, hsh2.andThen hsha, ?_, ?_, hjb⟩
      · rw [hja]
        exact hfr2 j (fun c'' hc'' hd'' => hdisj c'' hc'' j hd'' hd)
      · intro q hpq
        exact hq q (by rw [hsh2.parent]; exact hpq)

/-- A pass with propagation visits every descendant of its segment once, after
the parent of that descendant and with the descendant not yet touched. -/
theorem treePass_visited {self : Nat → World K → Except Fault (World K)} (hl : LocalStep self) :
    ∀ (fuel i : Nat) (w w' : World K), w.WF → (∀ p, (w.segs p).children.Nodup) →
      treePass self fuel i true w = .ok w' → ∀ j, Desc w i j → Visited self w w' j
  | 0, _, _, _, _, _, h => by simp [treePass] at h
  | fuel + 1, i, w, w', hw, hnd, h => by
    have hspecw := treePass_spec hl (fuel + 1) i true w w' h
    obtain ⟨w1, hs, hi1⟩ := treePass_self hl (fuel + 1) i true w w' hw h
    simp only [treePass, hs, if_true] at h
    obtain ⟨hsh1, hfr1⟩ := hl i w w1 hs
    have hw1 : w1.WF := hsh1.wf hw
    obtain ⟨-, -, hv⟩ := forest_visited self
      (fun c w2 => treePass self fuel c true w2) w1 hw1
      (w1.segs i).children (by rw [hsh1.children]; exact hnd i) (Ref.seg i)
      (fun c hc => hw1.child_parent i c hc)
      (fun c w2 w3 hp => treePass_spec hl fuel c true w2 w3 hp)
      (fun c _ w2 w3 hsh2 hp => treePass_visited hl fuel c w2 w3 (hsh2.wf hw1)
        (fun p => by rw [hsh2.children, hsh1.children]; exact hnd p) hp)
      w' h
    intro j hd
    by_cases hji : j = i
    · rw [hji]
      refine ⟨w, w1, hs, SameShape.rfl' w, rfl, ?_, hi1⟩
      intro q hq
      symm
      apply hspecw.2
      intro hdq
      have h1 := hw.parent_lt _ _ hq
      have h2 := hdq.le hw
      omega
    · cases hd with
      | refl => exact absurd rfl hji
      | step hc hd' =>
        obtain ⟨wa, wb, hself, hsha, hja, hq, hjb⟩ :=
          hv _ (by rw [hsh1.children]; exact hc) j (hsh1.desc hd')
        exact ⟨wa, wb, hself, hsh1.andThen hsha, hja.trans (hfr1 j hji),
          fun q hpq => hq q (by rw [hsh1.parent]; exact hpq), hjb⟩

/-- The `relAngle` that the work of `follow` leaves on its segment is
`followRel` of the segment and the node its `parent` points to. -/
theorem followStep_rel (M : JSMath K) (j : Nat) (wa wb : World K)
    (h : followStep M j wa = .ok wb) :
    followRel M (wa.segs j) (wa.nodeX (wa.segs j).parent) (wa.nodeY (wa.segs j).parent)
      (wa.nodeAbsAngle (wa.segs j).parent) = .ok (wb.segs j).relAngle := by
  obtain ⟨wm, h1, h2⟩ := followStep_eq M j wa wb h
  have hr := (updateSelf_relAngle M j true wm wb h2).1
  simp only [followSelf, jsDiv] at h1
  by_cases hd : M.sqrt (((wa.segs j).x - wa.nodeX (wa.segs j).parent) ^ 2
      + ((wa.segs j).y - wa.nodeY (wa.segs j).parent) ^ 2) = 0
  · simp [hd] at h1
  · simp only [hd, if_false, Except.ok.injEq] at h1
    rw [← h1, setSeg_segs_self] at hr
    simp only [followRel, jsDiv, hd, if_false]
    rw [← hr]
    simp only [newRel, wrapRel]

/-- The result of `followRel` does not depend on the `relAngle` of the segment. -/
theorem followRel_relAngle (M : JSMath K) (s : Segment K) (r px py pa : K) :
    followRel M { s with relAngle := r } px py pa = followRel M s px py pa := rfl

end TreePassFollow

section TreePassClaim

variable {K : Type} [LinearOrderedField K] [FloorRing K]

/-- A Creature at rest at the origin whose parameters are all 0 is left as it
is by the body integration. -/
theorem atOrigin_integrate (M : JSMath K) (cs : List Nat) (x y : K) :
    (Creature.atOrigin cs : Creature K).integrate M x y = Creature.atOrigin cs := by
  have hF : (Creature.atOrigin cs : Creature K).newFSpeed M x y = 0 := by
    simp [Creature.newFSpeed, Creature.accel, Creature.atOrigin]
  have hT : (Creature.atOrigin cs : Creature K).turnedRSpeed M x y = 0 := by
    simp [Creature.turnedRSpeed, Creature.atOrigin]
  have hR : (Creature.atOrigin cs : Creature K).newRSpeed M x y = 0 := by
    have hf : (Creature.atOrigin cs : Creature K).rFric = 0 := rfl
    simp [Creature.newRSpeed, hT, hf]
  have hH : (Creature.atOrigin cs : Creature K).newHeading M x y = 0 := by
    have ha : (Creature.atOrigin cs : Creature K).absAngle = 0 := rfl
    have hfl : (⌊((0 : K) + 0) / (2 * M.PI) + 1 / 2⌋ : ℤ) = 0 := by
      rw [Int.floor_eq_zero_iff]
      constructor <;> norm_num
    simp only [Creature.newHeading, hR, ha, hfl]
    simp
  simp only [Creature.integrate, hF, hR, hH]
  simp [Creature.atOrigin]

/-- After `Creature.follow` on a Creature with no systems, every segment of a
child tree has the `relAngle` that `Segment.follow` derives from its old
position and the new state of its parent. -/
theorem creature_follow_visited (M : JSMath K) (mouse : K × K) (draws : Nat → K × K) (x y : K)
    (w w' : World K) (hw : w.WF) (hf : w.Forest) (hsys : w.creature.systems = [])
    (h : Creature.follow M mouse draws x y w = .ok w') :
    ∀ c ∈ w.creature.children, ∀ j, Desc w c j →
      followRel M (w.segs j) ((w'.raised M).nodeX (w.segs j).parent)
        ((w'.raised M).nodeY (w.segs j).parent) ((w'.raised M).nodeAbsAngle (w.segs j).parent)
        = .ok (w'.segs j).relAngle := by
  simp only [Creature.follow] at h
  cases h2 : forEach (fun c w2 => follow M (w2.segmentCount + 1) c true w2)
      (w.creature.integrate M x y).children
      { w with creature := { w.creature.integrate M x y with
        absAngle := (w.creature.integrate M x y).absAngle + M.PI } } with
  | error e => simp [h2] at h
  | ok w2 =>
    simp only [h2] at h
    obtain ⟨w1, hw1⟩ : ∃ w1 : World K, w1 = { w with creature :=
        { w.creature.integrate M x y with
          absAngle := (w.creature.integrate M x y).absAngle + M.PI } } := ⟨_, rfl⟩
    have h2' : forEach (fun c w2 => follow M (w2.segmentCount + 1) c true w2)
        w.creature.children w1 = .ok w2 := by
      rw [hw1]
      exact h2
    have hsegs1 : w1.segs = w.segs := by rw [hw1]
    have hcount1 : w1.segmentCount = w.segmentCount := by rw [hw1]
    have hw1wf : w1.WF :=
      ⟨fun p c hc => by rw [hsegs1] at hc ⊢; exact hw.child_parent p c hc,
       fun p c hc => by rw [hsegs1] at hc; rw [hcount1]; exact hw.child_lt p c hc,
       fun j q hq => by rw [hsegs1] at hq; exact hw.parent_lt j q hq⟩
    obtain ⟨hsh2, -, hv⟩ := forest_visited (followStep M)
      (fun c w2 => follow M (w2.segmentCount + 1) c true w2) w1 hw1wf w.creature.children
      hf.roots_nodup Ref.creature (fun c hc => by rw [hsegs1]; exact hf.roots c hc)
      (fun c w2 w3 hp => by
        have hp : follow M (w2.segmentCount + 1) c true w2 = .ok w3 := hp
        rw [follow_eq_treePass] at hp
        exact treePass_spec (followStep_local M) _ c true w2 w3 hp)
      (fun c _ w2 w3 hsh hp => by
        have hp : follow M (w2.segmentCount + 1) c true w2 = .ok w3 := hp
        rw [follow_eq_treePass] at hp
        exact treePass_visited (followStep_local M) _ c w2 w3 (hsh.wf hw1wf)
          (fun p => by rw [hsh.children, hsegs1]; exact hf.children_nodup p) hp)
      w2 h2'
    have hs2 : w2.creature.systems = [] := by
      rw [hsh2.creature, hw1]
      exact hsys
    rw [hs2] at h
    simp only [updateSystems, Except.ok.injEq] at h
    intro c hc j hd
    obtain ⟨wa, wb, hself, hsha, hja, hq, hjb⟩ :=
      hv c hc j (Desc.of_children_eq (fun j => by rw [hsegs1]) hd)
    have hrel := followStep_rel M j wa wb hself
    rw [hja, ← hjb, hsegs1] at hrel
    have hseg' : w'.segs = w2.segs := by rw [← h]
    rw [hseg']
    have hnodes : wa.nodeX (w.segs j).parent = (w'.raised M).nodeX (w.segs j).parent ∧
        wa.nodeY (w.segs j).parent = (w'.raised M).nodeY (w.segs j).parent ∧
        wa.nodeAbsAngle (w.segs j).parent = (w'.raised M).nodeAbsAngle (w.segs j).parent := by
      cases hp : (w.segs j).parent with
      | creature =>
        simp only [World.nodeX, World.nodeY, World.nodeAbsAngle, World.raised, hsha.creature,
          ← h, hsh2.creature, hw1]
        refine ⟨trivial, trivial, ?_⟩
        ring
      | seg q =>
        have hqq := hq q (by rw [hsegs1]; exact hp)
        simp [World.nodeX, World.nodeY, World.nodeAbsAngle, World.raised, hqq, hseg']
    rw [← hnodes.1, ← hnodes.2.1, ← hnodes.2.2]
    exact hrel

theorem single_forest (s : Segment K) : (World.single s).Forest where
  roots := fun c hc => by simp [World.single]
  roots_nodup := by simp [World.single, Creature.atOrigin]
  children_nodup := fun p => by simp [World.single]

/-- `Creature.follow` returns on a Creature at rest at the origin with one
segment of size 1 at rest and no systems. -/
theorem single_follow_ok (M : JSMath K) (hM : M.Exact) (mouse : K × K) (draws : Nat → K × K)
    (x y range stiffness : K) (hs : stiffness ≠ 0) :
    ∃ w', Creature.follow M mouse draws x y (World.single (Segment.atRest 0 1 range stiffness))
      = .ok w' := by
  have hint := atOrigin_integrate M [0] x y
  have hd : distance M (0 + 1) 0 (((Creature.atOrigin [0] : Creature K).integrate M x y).x)
      (((Creature.atOrigin [0] : Creature K).integrate M x y).y) ≠ 0 := by
    rw [hint]
    have h1 := hM.sqrt_sq (1 : K) (by norm_num)
    rw [one_pow] at h1
    simp only [distance, Creature.atOrigin]
    norm_num
    intro h0
    rw [h0] at h1
    norm_num at h1
  obtain ⟨w2, h2⟩ := follow_leaf_ok M 1 0
    ({ (World.single (Segment.atRest 0 1 range stiffness) : World K) with creature :=
        { (World.single (Segment.atRest 0 1 range stiffness) : World K).creature.integrate M x y
          with absAngle := ((World.single (Segment.atRest 0 1 range stiffness) :
            World K).creature.integrate M x y).absAngle + M.PI } })
    rfl hd hs
  have h2t := h2
  rw [follow_eq_treePass] at h2t
  have hsh := (treePass_spec (followStep_local M) _ 0 true _ w2 h2t).1
  have hsys : w2.creature.systems = [] := by
    rw [hsh.creature]
    rfl
  exact creature_follow_ok M mouse draws x y _ w2 ([], w2)
    (forEach_single (fun c w2 => follow M (w2.segmentCount + 1) c true w2) 0 _ w2 h2)
    (by rw [hsys]; rfl)

/-- What `Segment.follow` makes of a segment of size 1 at rest along the x
axis below a Creature at the origin whose heading has been raised to `PI`:
`relAngle` is re-derived as `-PI` and clamped to `-range / 2 = -1 / 2`. -/
theorem single_followRel (M : JSMath K) (hM : M.Exact) (hpi : 1 / 2 < M.PI) :
    followRel M ((World.single (Segment.atRest 0 1 1 1) : World K).segs 0) 0 0 (0 + M.PI)
      = .ok (-(1 / 2)) := by
  have hpos := hM.pi_pos
  have h1 := hM.sqrt_sq (1 : K) (by norm_num)
  have e1 : ((0 : K) + 1 - 0) ^ 2 + (0 - 0) ^ 2 = 1 ^ 2 := by norm_num
  have e2 : (0 : K) + 1 * (0 - 0) / 1 - 0 = 0 := by norm_num
  have e3 : (0 : K) + 1 * (0 + 1 - 0) / 1 - 0 = 1 := by norm_num
  have hfl : (⌊((0 : K) - (0 + M.PI) - 0) / 2 / M.PI + 1 / 2⌋ : ℤ) = 0 := by
    have hne : M.PI ≠ 0 := ne_of_gt hpos
    have : ((0 : K) - (0 + M.PI) - 0) / 2 / M.PI + 1 / 2 = 0 := by
      field_simp
      ring
    rw [this, Int.floor_zero]
  simp only [followRel, World.single, Segment.atRest, jsDiv, e1, h1, one_ne_zero, if_false, e2, e3,
    hM.atan2_zero_pos 1 one_pos, newRel, wrapRel, if_true, hfl]
  rw [Except.ok.injEq]
  have hm : max ((0 : K) - 1 / 2) ((0 - (0 + M.PI) - 2 * M.PI * ((0 : ℤ) : K) - 0) / 1 + 0)
      = -(1 / 2) := by
    rw [max_eq_left (by simp; linarith)]
    norm_num
  rw [hm, min_eq_right (by norm_num)]

/-- C18 (amended): the per-frame pass of `Creature.follow` over the child
trees is `Segment.follow(true)`, not a relaxation.  For a Creature with no
attached systems on a well-formed heap, when `Creature.follow` returns, the
`relAngle` of every segment of every child tree is the rule of
`updateRelative` (wrap toward `defAngle`, pull by `1 / stiffness`, clamp to the
range) applied, not to its `relAngle` before the call, but to the angle
re-derived from positions: the direction from its parent's new position to
the segment's previous world position, minus the parent's new `absAngle` (for
a child of the Creature, the heading raised by `PI`).  The result depends on
the segment's previous world position and not on its previous `relAngle`. -/
theorem tree_pass_follow (M : JSMath K) (mouse : K × K) (draws : Nat → K × K) (x y : K)
    (w w' : World K) (hw : w.WF) (hf : w.Forest) (hsys : w.creature.systems = [])
    (h : Creature.follow M mouse draws x y w = .ok w') :
    ∀ c ∈ w.creature.children, ∀ j, Desc w c j →
      followRel M (w.segs j) ((w'.raised M).nodeX (w.segs j).parent)
        ((w'.raised M).nodeY (w.segs j).parent) ((w'.raised M).nodeAbsAngle (w.segs j).parent)
        = .ok (w'.segs j).relAngle ∧
      ∀ r, followRel M { w.segs j with relAngle := r } ((w'.raised M).nodeX (w.segs j).parent)
        ((w'.raised M).nodeY (w.segs j).parent) ((w'.raised M).nodeAbsAngle (w.segs j).parent)
        = .ok (w'.segs j).relAngle := by
  intro c hc j hd
  have hv := creature_follow_visited M mouse draws x y w w' hw hf hsys h c hc j hd
  exact ⟨hv, fun r => by rw [followRel_relAngle]; exact hv⟩

/-- C18, checked on a Creature at rest at the origin with one segment of size
1 at rest and no systems: `Creature.follow` returns and the segment's
`relAngle` is the one `Segment.follow` derives. -/
theorem tree_pass_follow_witness :
    ∃ w', Creature.follow realMath (0, 0) (fun _ => (0, 0)) 0 0
        (World.single (Segment.atRest (0 : ℝ) 1 1 1)) = .ok w' ∧
      followRel realMath ((World.single (Segment.atRest (0 : ℝ) 1 1 1)).segs 0)
        ((w'.raised realMath).nodeX Ref.creature) ((w'.raised realMath).nodeY Ref.creature)
        ((w'.raised realMath).nodeAbsAngle Ref.creature) = .ok (w'.segs 0).relAngle := by
  obtain ⟨w', h⟩ := single_follow_ok realMath realMath_exact (0, 0) (fun _ => (0, 0)) 0 0 1 1
    one_ne_zero
  exact ⟨w', h, (tree_pass_follow realMath (0, 0) (fun _ => (0, 0)) 0 0 _ w' (single_wf _)
    (single_forest _) rfl h 0 (by simp [World.single, Creature.atOrigin]) 0 (Desc.refl 0)).1⟩

/-- C18 as stated fails: on a Creature at rest at the origin with heading 0,
no systems and one segment of size 1, range 1, stiffness 1 at its rest angle 0
(end at `(1, 0)`), the rule of `updateRelative` applied to the `relAngle`
before the call gives 0, and `Creature.follow` toward `(0, 0)` leaves
`relAngle == -1 / 2`. -/
theorem tree_pass_follow_counterexample :
    (World.single (Segment.atRest (0 : ℝ) 1 1 1)).creature.systems = [] ∧
    newRel realMath ((World.single (Segment.atRest (0 : ℝ) 1 1 1)).segs 0) true = .ok 0 ∧
    ∃ w', Creature.follow realMath (0, 0) (fun _ => (0, 0)) 0 0
        (World.single (Segment.atRest (0 : ℝ) 1 1 1)) = .ok w' ∧
      (w'.segs 0).relAngle = -(1 / 2) ∧
      newRel realMath ((World.single (Segment.atRest (0 : ℝ) 1 1 1)).segs 0) true
        ≠ .ok (w'.segs 0).relAngle := by
  have hnew : newRel realMath ((World.single (Segment.atRest (0 : ℝ) 1 1 1)).segs 0) true
      = .ok 0 :=
    newRel_at_rest realMath ((World.single (Segment.atRest (0 : ℝ) 1 1 1)).segs 0) true rfl
      (by simp [World.single, Segment.atRest]) (by simp [World.single, Segment.atRest])
  obtain ⟨w', h⟩ := single_follow_ok realMath realMath_exact (0, 0) (fun _ => (0, 0)) 0 0 1 1
    one_ne_zero
  have hv : followRel realMath ((World.single (Segment.atRest (0 : ℝ) 1 1 1)).segs 0)
      ((w'.raised realMath).nodeX Ref.creature) ((w'.raised realMath).nodeY Ref.creature)
      ((w'.raised realMath).nodeAbsAngle Ref.creature) = .ok (w'.segs 0).relAngle :=
    creature_follow_visited realMath (0, 0) (fun _ => (0, 0)) 0 0 _ w' (single_wf _)
      (single_forest _) rfl h 0 (by simp [World.single, Creature.atOrigin]) 0 (Desc.refl 0)
  have hb := creature_follow_body realMath (0, 0) (fun _ => (0, 0)) 0 0 _ w' h
  have hint : (World.single (Segment.atRest (0 : ℝ) 1 1 1)).creature.integrate realMath 0 0
      = Creature.atOrigin [0] := atOrigin_integrate realMath [0] 0 0
  rw [hint] at hb
  have hx : (w'.raised realMath).nodeX Ref.creature = 0 := by
    simp only [World.raised, World.nodeX]
    rw [hb]
    rfl
  have hy : (w'.raised realMath).nodeY Ref.creature = 0 := by
    simp only [World.raised, World.nodeY]
    rw [hb]
    rfl
  have ha : (w'.raised realMath).nodeAbsAngle Ref.creature = 0 + realMath.PI := by
    simp only [World.raised, World.nodeAbsAngle]
    rw [hb]
    simp [Creature.atOrigin]
  have hpi : (1 : ℝ) / 2 < realMath.PI := by
    show (1 : ℝ) / 2 < Real.pi
    linarith [Real.pi_gt_three]
  rw [hx, hy, ha, single_followRel realMath realMath_exact hpi, Except.ok.injEq] at hv
  refine ⟨rfl, hnew, w', h, hv.symm, ?_⟩
  rw [hnew, ← hv]
  intro e
  rw [Except.ok.injEq] at e
  norm_num at e

end TreePassClaim

/-! ### Rounding: the wrap computed in floating point -/

section RoundingLemmas

variable {K : Type} [LinearOrderedField K] [FloorRing K]

/-- Exact arithmetic is the rounding with `u = 0`. -/
theorem rounding_id : Rounding (fun x : K => x) 0 :=
  ⟨le_refl 0, by norm_num, fun x => by simp⟩

/-- A rounding with relative error `1 / 32`. -/
theorem rounding_skew : Rounding (fun x : K => x + x / 32) (1 / 16) := by
  refine ⟨by norm_num, le_refl _, fun x => ?_⟩
  have h : x + x / 32 - x = x / 32 := by ring
  rw [h, abs_div, abs_of_pos (by norm_num : (0 : K) < 32)]
  have := abs_nonneg x
  linarith only [this]

theorem Rounding.err_le {fl : K → K} {u : K} (h : Rounding fl u) (x B : K) (hx : |x| ≤ B) :
    |fl x - x| ≤ u * B :=
  (h.err x).trans (mul_le_mul_of_nonneg_left hx h.u_nonneg)

theorem Rounding.abs_fl_le {fl : K → K} {u : K} (h : Rounding fl u) (x B : K) (hx : |x| ≤ B) :
    |fl x| ≤ B + u * B := by
  have h2 := abs_le.1 (h.err_le x B hx)
  have h3 := abs_le.1 hx
  exact abs_le.2 ⟨by linarith only [h2, h3], by linarith only [h2, h3]⟩

theorem Rounding.fl_zero {fl : K → K} {u : K} (h : Rounding fl u) : fl 0 = 0 := by
  have h1 := h.err 0
  rw [abs_zero, mul_zero, sub_zero] at h1
  exact abs_eq_zero.1 (le_antisymm h1 (abs_nonneg _))

theorem Rounding.fl_nonneg {fl : K → K} {u : K} (h : Rounding fl u) (x : K) (hx : 0 ≤ x) :
    0 ≤ fl x := by
  have h1 := abs_le.1 (h.err x)
  rw [abs_of_nonneg hx] at h1
  have h2 := mul_le_mul_of_nonneg_right h.u_small hx
  linarith only [h1, h2, hx]

theorem div_bounds (a c P : K) (hP : 0 < P) (h1 : -c ≤ a) (h2 : a ≤ c) :
    -(c / P) ≤ a / P ∧ a / P ≤ c / P :=
  ⟨by rw [← neg_div]; exact div_le_div_of_nonneg_right h1 hP.le,
    div_le_div_of_nonneg_right h2 hP.le⟩

/-- Four operations with relative error `u` each: the argument of
`Math.floor` in the wrap of `updateRelative`. -/
theorem floorArg_chain (u P x a1 a2 a3 a4 : K) (hu : 0 ≤ u) (hu16 : u ≤ 1 / 16) (hP : 0 < P)
    (h1 : |a1 - x| ≤ u * |x|) (h2 : |a2 - a1 / 2| ≤ u * |a1 / 2|)
    (h3 : |a3 - a2 / P| ≤ u * |a2 / P|) (h4 : |a4 - (a3 + 1 / 2)| ≤ u * |a3 + 1 / 2|) :
    |a4 - (x / 2 / P + 1 / 2)| ≤ u * (4 * (|x| / P) + 1 / 2) := by
  have hX := abs_nonneg x
  have hx1 := le_abs_self x
  have hx2 := neg_abs_le x
  generalize |x| = X at *
  have huX : u * X ≤ 1 / 16 * X := mul_le_mul_of_nonneg_right hu16 hX
  have huX0 : 0 ≤ u * X := mul_nonneg hu hX
  have h1' := abs_le.1 h1
  have b1 : |a1 / 2| ≤ X :=
    abs_le.2 ⟨by linarith only [h1', hx2, huX, hX], by linarith only [h1', hx1, huX, hX]⟩
  have h2' := abs_le.1 (h2.trans (mul_le_mul_of_nonneg_left b1 hu))
  have e2l : -(u * (2 * X)) ≤ a2 - x / 2 := by linarith only [h1', h2', huX0]
  have e2r : a2 - x / 2 ≤ u * (2 * X) := by linarith only [h1', h2', huX0]
  obtain ⟨e3l, e3r⟩ := div_bounds _ _ P hP e2l e2r
  obtain ⟨btl, btr⟩ := div_bounds _ _ P hP hx2 hx1
  have hXP : 0 ≤ X / P := div_nonneg hX hP.le
  have r1 : (a2 - x / 2) / P = a2 / P - x / 2 / P := by ring
  have r2 : u * (2 * X) / P = u * (2 * (X / P)) := by ring
  have r3 : x / P = 2 * (x / 2 / P) := by ring
  rw [r1, r2] at e3l e3r
  rw [r3] at btl btr
  clear h1 h2 b1 h1' h2' e2l e2r hx1 hx2 huX huX0 hX r1 r2 r3
  generalize x / 2 / P = t at *
  generalize a2 / P = a2p at *
  generalize X / P = Xp at *
  have huXp : u * Xp ≤ 1 / 16 * Xp := mul_le_mul_of_nonneg_right hu16 hXP
  have huXp0 : 0 ≤ u * Xp := mul_nonneg hu hXP
  have b2 : |a2p| ≤ Xp :=
    abs_le.2 ⟨by linarith only [e3l, btl, huXp, hXP], by linarith only [e3r, btr, huXp, hXP]⟩
  have h3' := abs_le.1 (h3.trans (mul_le_mul_of_nonneg_left b2 hu))
  have b3 : |a3 + 1 / 2| ≤ Xp + 1 / 2 :=
    abs_le.2 ⟨by linarith only [h3', e3l, btl, huXp, hXP],
      by linarith only [h3', e3r, btr, huXp, hXP]⟩
  have h4' := abs_le.1 (h4.trans (mul_le_mul_of_nonneg_left b3 hu))
  exact abs_le.2 ⟨by linarith only [h4', h3', e3l, huXp0], by linarith only [h4', h3', e3r, huXp0]⟩

/-- The error of the rounded argument of `Math.floor` in the wrap of
`updateRelative`. -/
theorem floorArg_err {fl : K → K} {u : K} (h : Rounding fl u) (P x : K) (hP : 0 < P) :
    |fl (fl (fl (fl x / 2) / P) + 1 / 2) - (x / 2 / P + 1 / 2)|
      ≤ u * (4 * (|x| / P) + 1 / 2) :=
  floorArg_chain u P x _ _ _ _ h.u_nonneg h.u_small hP (h.err x) (h.err _) (h.err _) (h.err _)

/-- The integer `Math.floor` returns for an argument within `e` of
`x / (2 * PI) + 1 / 2` takes `x` to within `PI + 2 * PI * e` of 0. -/
theorem floor_wrap_bound (P x a e : K) (hP : 0 < P) (he : |a - (x / 2 / P + 1 / 2)| ≤ e) :
    |x - 2 * P * ((⌊a⌋ : ℤ) : K)| ≤ P + 2 * P * e ∧
    2 * P * |((⌊a⌋ : ℤ) : K)| ≤ |x| + P + 2 * P * e := by
  have hk1 := Int.floor_le a
  have hk2 := Int.lt_floor_add_one a
  have ht : x / 2 / P * (2 * P) = x := by
    field_simp
  have he' := abs_le.1 he
  generalize ((⌊a⌋ : ℤ) : K) = k at hk1 hk2 ⊢
  generalize x / 2 / P = t at ht he'
  have h2P : (0 : K) ≤ 2 * P := by linarith only [hP]
  have m1 := mul_le_mul_of_nonneg_left (by linarith only [hk1, he'] : k ≤ t + 1 / 2 + e) h2P
  have m2 := mul_le_mul_of_nonneg_left
    (by linarith only [hk2, he'] : t + 1 / 2 - e - 1 ≤ k) h2P
  have hx1 := le_abs_self x
  have hx2 := neg_abs_le x
  constructor
  · exact abs_le.2 ⟨by linarith only [m1, ht], by linarith only [m2, ht]⟩
  · have : 2 * P * |k| = |2 * P * k| := by
      rw [abs_mul, abs_of_nonneg h2P]
    rw [this]
    exact abs_le.2 ⟨by linarith only [m2, ht, hx2], by linarith only [m1, ht, hx1]⟩

/-- When `x` is within `PI` of 0 by more than the error of the argument,
`Math.floor` returns 0. -/
theorem floor_wrap_zero (P x a e : K) (hP : 0 < P) (he : |a - (x / 2 / P + 1 / 2)| ≤ e)
    (hx : |x| + 2 * P * e < P) : (⌊a⌋ : ℤ) = 0 := by
  have ht : x / 2 / P * (2 * P) = x := by
    field_simp
  have he' := abs_le.1 he
  generalize x / 2 / P = t at ht he'
  have h2P : (0 : K) < 2 * P := by linarith only [hP]
  have hx1 := le_abs_self x
  have hx2 := neg_abs_le x
  rw [Int.floor_eq_zero_iff]
  constructor
  · by_contra hc
    have hc' : a < 0 := not_le.1 hc
    have := mul_lt_mul_of_pos_left (by linarith only [hc', he'] : t + 1 / 2 - e < 0) h2P
    linarith only [this, ht, hx, hx2]
  · by_contra hc
    have hc' : 1 ≤ a := not_lt.1 hc
    have := mul_le_mul_of_nonneg_left
      (by linarith only [hc', he'] : 1 ≤ t + 1 / 2 + e) h2P.le
    linarith only [this, ht, hx, hx1]

/-- The error of the rounded product `2 * PI * k`. -/
theorem twoPiK_err {fl : K → K} {u : K} (h : Rounding fl u) (P k B : K) (hP : 0 < P)
    (hB : 2 * P * |k| ≤ B) : |fl (fl (2 * P) * k) - 2 * P * k| ≤ u * (3 * B) := by
  have hu := h.u_nonneg
  have hk := abs_nonneg k
  have h2P : (0 : K) < 2 * P := by linarith only [hP]
  have hB0 : 0 ≤ B := le_trans (mul_nonneg h2P.le hk) hB
  have huB : u * B ≤ 1 / 16 * B := mul_le_mul_of_nonneg_right h.u_small hB0
  have hc := h.err (2 * P)
  rw [abs_of_pos h2P] at hc
  have e1 : |fl (2 * P) * k - 2 * P * k| ≤ u * B := by
    have : fl (2 * P) * k - 2 * P * k = (fl (2 * P) - 2 * P) * k := by ring
    rw [this, abs_mul]
    calc |fl (2 * P) - 2 * P| * |k| ≤ u * (2 * P) * |k| := mul_le_mul_of_nonneg_right hc hk
      _ = u * (2 * P * |k|) := by ring
      _ ≤ u * B := mul_le_mul_of_nonneg_left hB hu
  have b0 : |2 * P * k| ≤ B := by
    rw [abs_mul, abs_of_pos h2P]
    exact hB
  have e1' := abs_le.1 e1
  have b0' := abs_le.1 b0
  have b1 : |fl (2 * P) * k| ≤ 2 * B :=
    abs_le.2 ⟨by linarith only [e1', b0', huB, hB0], by linarith only [e1', b0', huB, hB0]⟩
  have h2' := abs_le.1 (h.err_le (fl (2 * P) * k) _ b1)
  exact abs_le.2 ⟨by linarith only [h2', e1'], by linarith only [h2', e1']⟩

end RoundingLemmas

section RoundingWrap

variable {K : Type} [LinearOrderedField K] [FloorRing K]

/-- The last subtraction of the wrap: with `q = 2 * PI * k` exact, `p` its
rounded value and `w` the rounded difference. -/
theorem wrap_final (u P X r d q p w : K) (hu : 0 ≤ u) (hu16 : u ≤ 1 / 16) (hP : 0 ≤ P)
    (hX : 0 ≤ X) (hy : |r - d - q| ≤ P + u * (8 * X + P))
    (hp : |p - q| ≤ u * (3 * (2 * X + 2 * P)))
    (hw : |w - (r - p)| ≤ u * |r - p|) :
    |w - d| ≤ P + u * (15 * X + 9 * P + |d|) := by
  have hd1 := le_abs_self d
  have hd2 := neg_abs_le d
  generalize |d| = D at *
  have huX : u * X ≤ 1 / 16 * X := mul_le_mul_of_nonneg_right hu16 hX
  have huP : u * P ≤ 1 / 16 * P := mul_le_mul_of_nonneg_right hu16 hP
  have hy' := abs_le.1 hy
  have hp' := abs_le.1 hp
  have brp : |r - p| ≤ D + 2 * P + X :=
    abs_le.2 ⟨by linarith only [hy', hp', hd1, hd2, huX, huP, hX, hP],
      by linarith only [hy', hp', hd1, hd2, huX, huP, hX, hP]⟩
  have hw' := abs_le.1 (hw.trans (mul_le_mul_of_nonneg_left brp hu))
  exact abs_le.2 ⟨by linarith only [hw', hy', hp'], by linarith only [hw', hy', hp']⟩

/-- The wrap from the rounded argument `a4` of `Math.floor` on: the result is
within `PI` of `d` up to rounding; when `Math.floor` returns 0 nothing is
subtracted, and it returns 0 unless `r` is about `PI` or more from `d`. -/
theorem wrap_tail {fl : K → K} {u : K} (h : Rounding fl u) (P r d a4 : K) (hP : 0 < P)
    (he : |a4 - ((r - d) / 2 / P + 1 / 2)| ≤ u * (4 * (|r - d| / P) + 1 / 2)) :
    |fl (r - fl (fl (2 * P) * ((⌊a4⌋ : ℤ) : K))) - d| ≤ P + u * (15 * |r - d| + 9 * P + |d|) ∧
    ((⌊a4⌋ : ℤ) ≠ 0 → P ≤ |r - d| + u * (8 * |r - d| + P)) ∧
    ((⌊a4⌋ : ℤ) = 0 → fl (r - fl (fl (2 * P) * ((⌊a4⌋ : ℤ) : K))) = fl r) := by
  have e2 : 2 * P * (u * (4 * (|r - d| / P) + 1 / 2)) = u * (8 * |r - d| + P) := by
    field_simp
    ring
  obtain ⟨hy, hk⟩ := floor_wrap_bound P (r - d) a4 _ hP he
  rw [e2] at hy hk
  refine ⟨?_, ?_, ?_⟩
  · have hX := abs_nonneg (r - d)
    have huX : u * |r - d| ≤ 1 / 16 * |r - d| := mul_le_mul_of_nonneg_right h.u_small hX
    have huP : u * P ≤ 1 / 16 * P := mul_le_mul_of_nonneg_right h.u_small hP.le
    have hB : 2 * P * |((⌊a4⌋ : ℤ) : K)| ≤ 2 * |r - d| + 2 * P := by
      linarith only [hk, huX, huP, hX, hP]
    have hp := twoPiK_err h P _ _ hP hB
    exact wrap_final u P |r - d| r d _ _ _ h.u_nonneg h.u_small hP.le hX hy hp (h.err _)
  · intro hne
    by_contra hc
    exact hne (floor_wrap_zero P (r - d) a4 _ hP he (by rw [e2]; exact not_le.1 hc))
  · intro h0
    rw [h0, Int.cast_zero, mul_zero, h.fl_zero, sub_zero]

/-- The wrap of `updateRelative` computed with rounding leaves `relAngle`
within `PI` of `defAngle`, up to the rounding error. -/
theorem wrapRelFl_bound {fl : K → K} {u : K} (h : Rounding fl u) (M : JSMath K)
    (hpi : 0 < M.PI) (s : Segment K) :
    |wrapRelFl M fl s - s.defAngle|
      ≤ M.PI + u * (15 * |s.relAngle - s.defAngle| + 9 * M.PI + |s.defAngle|) :=
  (wrap_tail h M.PI s.relAngle s.defAngle _ hpi (floorArg_err h M.PI _ hpi)).1

/-- The wrap computed with rounding does not take `relAngle` farther from
`defAngle`, up to the rounding error. -/
theorem wrapRelFl_near {fl : K → K} {u : K} (h : Rounding fl u) (M : JSMath K)
    (hpi : 0 < M.PI) (s : Segment K) :
    |wrapRelFl M fl s - s.defAngle|
      ≤ |s.relAngle - s.defAngle|
        + u * (23 * |s.relAngle - s.defAngle| + 10 * M.PI + |s.defAngle|) := by
  obtain ⟨h1, h2, h3⟩ := wrap_tail h M.PI s.relAngle s.defAngle _ hpi
    (floorArg_err h M.PI (s.relAngle - s.defAngle) hpi)
  have hu := h.u_nonneg
  have hX := abs_nonneg (s.relAngle - s.defAngle)
  have hD := abs_nonneg s.defAngle
  have huX0 := mul_nonneg hu hX
  have huP0 := mul_nonneg hu hpi.le
  have huD0 := mul_nonneg hu hD
  by_cases hk : (⌊fl (fl (fl (fl (s.relAngle - s.defAngle) / 2) / M.PI) + 1 / 2)⌋ : ℤ) = 0
  · have hw : wrapRelFl M fl s = fl s.relAngle := h3 hk
    rw [hw]
    have hr := abs_le.1 (h.err s.relAngle)
    have hR : |s.relAngle| ≤ |s.relAngle - s.defAngle| + |s.defAngle| := by
      have := abs_add (s.relAngle - s.defAngle) s.defAngle
      rwa [sub_add_cancel] at this
    have hx := abs_le.1 (le_refl |s.relAngle - s.defAngle|)
    have huR := mul_le_mul_of_nonneg_left hR hu
    generalize |s.relAngle| = R at *
    generalize |s.relAngle - s.defAngle| = X at *
    generalize |s.defAngle| = D at *
    exact abs_le.2 ⟨by linarith only [hr, hx, huR, huX0, huP0, huD0],
      by linarith only [hr, hx, huR, huX0, huP0, huD0]⟩
  · have hfar := h2 hk
    have hw : wrapRelFl M fl s
        = fl (s.relAngle - fl (fl (2 * M.PI)
          * ((⌊fl (fl (fl (fl (s.relAngle - s.defAngle) / 2) / M.PI) + 1 / 2)⌋ : ℤ) : K))) := rfl
    rw [hw]
    generalize |s.relAngle - s.defAngle| = X at *
    generalize |s.defAngle| = D at *
    refine h1.trans ?_
    linarith only [hfar, huX0, huP0, huD0]

end RoundingWrap

section RoundingFlex

variable {K : Type} [LinearOrderedField K] [FloorRing K]

/-- The pull of `updateRelative` computed with rounding: three operations with
relative error `u` each after a wrap `w` within `Y + u * E` of `d`. -/
theorem flex_chain (u s d w g v q Y E : K) (hu : 0 ≤ u) (hu16 : u ≤ 1 / 16) (hs : 1 ≤ s)
    (hY : 0 ≤ Y) (hE : 0 ≤ E) (hw : |w - d| ≤ Y + u * E)
    (hg : |g - (w - d)| ≤ u * |w - d|) (hv : |v - g / s| ≤ u * |g / s|)
    (hq : |q - (v + d)| ≤ u * |v + d|) :
    |q - d| ≤ Y / s + u * (6 * Y + 3 * E + |d|) := by
  have hd1 := le_abs_self d
  have hd2 := neg_abs_le d
  generalize |d| = D at *
  have hs0 : 0 < s := by linarith only [hs]
  have huY : u * Y ≤ 1 / 16 * Y := mul_le_mul_of_nonneg_right hu16 hY
  have huE : u * E ≤ 1 / 16 * E := mul_le_mul_of_nonneg_right hu16 hE
  have huY0 : 0 ≤ u * Y := mul_nonneg hu hY
  have huE0 : 0 ≤ u * E := mul_nonneg hu hE
  have bw : |w - d| ≤ Y + 1 / 16 * E := by linarith only [hw, huE]
  have hw' := abs_le.1 hw
  have hg' := abs_le.1 (hg.trans (mul_le_mul_of_nonneg_left bw hu))
  have gl : -(Y + u * (Y + 2 * E)) ≤ g := by linarith only [hw', hg', huE0]
  have gr : g ≤ Y + u * (Y + 2 * E) := by linarith only [hw', hg', huE0]
  obtain ⟨gsl, gsr⟩ := div_bounds _ _ s hs0 gl gr
  have he0 : 0 ≤ u * (Y + 2 * E) := mul_nonneg hu (by linarith only [hY, hE])
  have hsplit : (Y + u * (Y + 2 * E)) / s ≤ Y / s + u * (Y + 2 * E) := by
    rw [add_div]
    have := div_le_self he0 hs
    linarith only [this]
  have hYs : Y / s ≤ Y := div_le_self hY hs
  have hYs0 : 0 ≤ Y / s := div_nonneg hY hs0.le
  clear hw hg bw hw' hg' gl gr he0
  generalize g / s = gs at *
  generalize Y / s = Ys at *
  have bgs : |gs| ≤ 2 * Y + 1 / 4 * E :=
    abs_le.2 ⟨by linarith only [gsl, hsplit, hYs, hYs0, huY, huE, hY, hE],
      by linarith only [gsr, hsplit, hYs, hYs0, huY, huE, hY, hE]⟩
  have hv' := abs_le.1 (hv.trans (mul_le_mul_of_nonneg_left bgs hu))
  have bgs' := abs_le.1 bgs
  have bvd : |v + d| ≤ 3 * Y + 1 / 2 * E + D :=
    abs_le.2 ⟨by linarith only [hv', bgs', hd1, hd2, huY, huE, hY, hE],
      by linarith only [hv', bgs', hd1, hd2, huY, huE, hY, hE]⟩
  have hq' := abs_le.1 (hq.trans (mul_le_mul_of_nonneg_left bvd hu))
  exact abs_le.2 ⟨by linarith only [hq', hv', gsl, hsplit, huE0],
    by linarith only [hq', hv', gsr, hsplit, huE0]⟩

/-- The rounded ends of the range lie on their side of `d`, up to `u * |d|`. -/
theorem range_ends (u d h lo hi : K) (hu : 0 ≤ u) (hu16 : u ≤ 1 / 16) (hh : 0 ≤ h)
    (hlo : |lo - (d - h)| ≤ u * |d - h|) (hhi : |hi - (d + h)| ≤ u * |d + h|) :
    lo ≤ d + u * |d| ∧ d - u * |d| ≤ hi := by
  have hd1 := mul_le_mul_of_nonneg_left (le_abs_self d) hu
  have hd2 := mul_le_mul_of_nonneg_left (neg_abs_le d) hu
  have huh : u * h ≤ 1 / 16 * h := mul_le_mul_of_nonneg_right hu16 hh
  have huh0 : 0 ≤ u * h := mul_nonneg hu hh
  generalize |d| = D at *
  constructor
  · rcases le_total 0 (d - h) with hc | hc
    · rw [abs_of_nonneg hc] at hlo
      have := abs_le.1 hlo
      linarith only [this, hd1, hd2, huh, huh0, hh]
    · rw [abs_of_nonpos hc] at hlo
      have := abs_le.1 hlo
      linarith only [this, hd1, hd2, huh, huh0, hh]
  · rcases le_total 0 (d + h) with hc | hc
    · rw [abs_of_nonneg hc] at hhi
      have := abs_le.1 hhi
      linarith only [this, hd1, hd2, huh, huh0, hh]
    · rw [abs_of_nonpos hc] at hhi
      have := abs_le.1 hhi
      linarith only [this, hd1, hd2, huh, huh0, hh]

/-- The clamp of `updateRelative` computed with rounding does not take a value
farther from `d` than `Bq`. -/
theorem clamp_fl_bound (u d h lo hi q Bq : K) (hu : 0 ≤ u) (hu16 : u ≤ 1 / 16) (hh : 0 ≤ h)
    (hlo : |lo - (d - h)| ≤ u * |d - h|) (hhi : |hi - (d + h)| ≤ u * |d + h|)
    (hq : |q - d| ≤ Bq) (hB : u * |d| ≤ Bq) : |min hi (max lo q) - d| ≤ Bq := by
  obtain ⟨h1, h2⟩ := range_ends u d h lo hi hu hu16 hh hlo hhi
  have hq' := abs_le.1 hq
  refine abs_le.2 ⟨?_, ?_⟩
  · have : d - Bq ≤ min hi (max lo q) :=
      le_min (by linarith only [h2, hB]) (le_max_of_le_right (by linarith only [hq']))
    linarith only [this]
  · have : min hi (max lo q) ≤ d + Bq :=
      (min_le_right _ _).trans (max_le (by linarith only [h1, hB]) (by linarith only [hq']))
    linarith only [this]

/-- The rule of `updateRelative` under `flex`, computed with rounding. -/
theorem newRelFl_flex (M : JSMath K) (fl : K → K) (s : Segment K) (hs : s.stiffness ≠ 0) :
    newRelFl M fl s true = .ok (min (fl (s.defAngle + fl (s.range / 2)))
      (max (fl (s.defAngle - fl (s.range / 2)))
        (fl (fl (fl (wrapRelFl M fl s - s.defAngle) / s.stiffness) + s.defAngle)))) := by
  simp [newRelFl, jsDiv, hs]

theorem newRelFl_noflex (M : JSMath K) (fl : K → K) (s : Segment K) :
    newRelFl M fl s false = .ok (wrapRelFl M fl s) := by
  simp [newRelFl]

/-- Without rounding the rounded rule is the rule of the exact model. -/
theorem newRelFl_id (M : JSMath K) (s : Segment K) (flex : Bool) :
    newRelFl M (fun x => x) s flex = newRel M s flex := by
  cases flex <;> rfl

/-- The new `relAngle` of `updateRelative` computed with rounding, with either
flag, is within `PI` of `defAngle` up to the rounding error. -/
theorem newRelFl_bound {fl : K → K} {u : K} (h : Rounding fl u) (M : JSMath K)
    (hpi : 0 < M.PI) (s : Segment K) (hr : 0 ≤ s.range) (hs : 1 ≤ s.stiffness) (flex : Bool)
    (r' : K) (hn : newRelFl M fl s flex = .ok r') :
    |r' - s.defAngle|
      ≤ M.PI + u * (45 * |s.relAngle - s.defAngle| + 33 * M.PI + 4 * |s.defAngle|) := by
  have hu := h.u_nonneg
  have hX := abs_nonneg (s.relAngle - s.defAngle)
  have hD := abs_nonneg s.defAngle
  have hw := wrapRelFl_bound h M hpi s
  have huX0 := mul_nonneg hu hX
  have huP0 := mul_nonneg hu hpi.le
  have huD0 := mul_nonneg hu hD
  cases flex with
  | false =>
    rw [newRelFl_noflex, Except.ok.injEq] at hn
    rw [← hn]
    refine hw.trans ?_
    linarith only [huX0, huP0, huD0]
  | true =>
    have hs0 : s.stiffness ≠ 0 := by
      intro h0
      rw [h0] at hs
      linarith only [hs]
    rw [newRelFl_flex M fl s hs0, Except.ok.injEq] at hn
    rw [← hn]
    have hq := flex_chain u s.stiffness s.defAngle (wrapRelFl M fl s) _ _ _ M.PI
      (15 * |s.relAngle - s.defAngle| + 9 * M.PI + |s.defAngle|) hu h.u_small hs hpi.le
      (by linarith only [hX, hpi, hD]) hw (h.err _) (h.err _) (h.err _)
    have hPs : M.PI / s.stiffness ≤ M.PI := div_le_self hpi.le hs
    refine clamp_fl_bound u s.defAngle (fl (s.range / 2)) _ _ _ _ hu h.u_small
      (h.fl_nonneg _ (by linarith only [hr])) (h.err _) (h.err _) (hq.trans ?_) ?_
    · linarith only [hPs]
    · linarith only [huX0, huP0, huD0, hpi]

/-- The rule of `updateRelative` under `flex` computed with rounding does not
take `relAngle` farther from `defAngle` than `1 / stiffness` of the distance,
up to the rounding error. -/
theorem newRelFl_contraction {fl : K → K} {u : K} (h : Rounding fl u) (M : JSMath K)
    (hpi : 0 < M.PI) (s : Segment K) (hr : 0 ≤ s.range) (hs : 1 ≤ s.stiffness)
    (r' : K) (hn : newRelFl M fl s true = .ok r') :
    |r' - s.defAngle|
      ≤ |s.relAngle - s.defAngle| / s.stiffness
        + u * (75 * |s.relAngle - s.defAngle| + 30 * M.PI + 4 * |s.defAngle|) := by
  have hu := h.u_nonneg
  have hX := abs_nonneg (s.relAngle - s.defAngle)
  have hD := abs_nonneg s.defAngle
  have hw := wrapRelFl_near h M hpi s
  have huX0 := mul_nonneg hu hX
  have huP0 := mul_nonneg hu hpi.le
  have huD0 := mul_nonneg hu hD
  have hs0 : s.stiffness ≠ 0 := by
    intro h0
    rw [h0] at hs
    linarith only [hs]
  rw [newRelFl_flex M fl s hs0, Except.ok.injEq] at hn
  rw [← hn]
  have hq := flex_chain u s.stiffness s.defAngle (wrapRelFl M fl s) _ _ _
    |s.relAngle - s.defAngle|
    (23 * |s.relAngle - s.defAngle| + 10 * M.PI + |s.defAngle|) hu h.u_small hs hX
    (by linarith only [hX, hpi, hD]) hw (h.err _) (h.err _) (h.err _)
  have hXs0 : 0 ≤ |s.relAngle - s.defAngle| / s.stiffness :=
    div_nonneg hX (by linarith only [hs])
  refine clamp_fl_bound u s.defAngle (fl (s.range / 2)) _ _ _ _ hu h.u_small
    (h.fl_nonneg _ (by linarith only [hr])) (h.err _) (h.err _) (hq.trans ?_) ?_
  · linarith only []
  · linarith only [huX0, huP0, huD0, hXs0]

end RoundingFlex

section RoundingFixed

variable {K : Type} [LinearOrderedField K] [FloorRing K]

/-- With stiffness 1 and `Math.floor` returning 0 the pull computes
`(r - d) + d` in four roundings. -/
theorem fixed_chain (u r d w g v q : K) (hu : 0 ≤ u) (hu16 : u ≤ 1 / 16)
    (hw : |w - r| ≤ u * |r|) (hg : |g - (w - d)| ≤ u * |w - d|) (hv : |v - g| ≤ u * |g|)
    (hq : |q - (v + d)| ≤ u * |v + d|) : |q - r| ≤ u * (7 * |r - d| + 5 * |d|) := by
  have hR : |r| ≤ |r - d| + |d| := by
    have := abs_add (r - d) d
    rwa [sub_add_cancel] at this
  have hd1 := le_abs_self d
  have hd2 := neg_abs_le d
  have hx1 := le_abs_self (r - d)
  have hx2 := neg_abs_le (r - d)
  have hD := abs_nonneg d
  have hX := abs_nonneg (r - d)
  generalize |d| = D at *
  generalize |r - d| = X at *
  have huX : u * X ≤ 1 / 16 * X := mul_le_mul_of_nonneg_right hu16 hX
  have huD : u * D ≤ 1 / 16 * D := mul_le_mul_of_nonneg_right hu16 hD
  have hw' := abs_le.1 (hw.trans (mul_le_mul_of_nonneg_left hR hu))
  have bwd : |w - d| ≤ 2 * X + D :=
    abs_le.2 ⟨by linarith only [hw', hx1, hx2, huX, huD, hX, hD],
      by linarith only [hw', hx1, hx2, huX, huD, hX, hD]⟩
  have hg' := abs_le.1 (hg.trans (mul_le_mul_of_nonneg_left bwd hu))
  have bg : |g| ≤ 2 * X + D :=
    abs_le.2 ⟨by linarith only [hg', hw', hx1, hx2, huX, huD, hX, hD],
      by linarith only [hg', hw', hx1, hx2, huX, huD, hX, hD]⟩
  have hv' := abs_le.1 (hv.trans (mul_le_mul_of_nonneg_left bg hu))
  have bvd : |v + d| ≤ 2 * X + 2 * D :=
    abs_le.2 ⟨by linarith only [hv', hg', hw', hx1, hx2, hd1, hd2, huX, huD, hX, hD],
      by linarith only [hv', hg', hw', hx1, hx2, hd1, hd2, huX, huD, hX, hD]⟩
  have hq' := abs_le.1 (hq.trans (mul_le_mul_of_nonneg_left bvd hu))
  exact abs_le.2 ⟨by linarith only [hq', hv', hg', hw'], by linarith only [hq', hv', hg', hw']⟩

/-- The clamp of `updateRelative` computed with rounding moves a value that is
within `e` of an `r` inside the range to within `e + u * (|d| + 2 * range)` of
`r`. -/
theorem clamp_fl_near (u d rho h lo hi q r e : K) (hu : 0 ≤ u) (hu16 : u ≤ 1 / 16)
    (hrho : 0 ≤ rho) (hh : |h - rho / 2| ≤ u * |rho / 2|)
    (hlo : |lo - (d - h)| ≤ u * |d - h|) (hhi : |hi - (d + h)| ≤ u * |d + h|)
    (hr1 : d - rho / 2 ≤ r) (hr2 : r ≤ d + rho / 2) (hq : |q - r| ≤ e) :
    |min hi (max lo q) - r| ≤ e + u * (|d| + 2 * rho) := by
  have hd1 := le_abs_self d
  have hd2 := neg_abs_le d
  have hD := abs_nonneg d
  generalize |d| = D at *
  rw [abs_of_nonneg (by linarith only [hrho] : (0 : K) ≤ rho / 2)] at hh
  have hur : u * rho ≤ 1 / 16 * rho := mul_le_mul_of_nonneg_right hu16 hrho
  have hur0 : 0 ≤ u * rho := mul_nonneg hu hrho
  have huD0 : 0 ≤ u * D := mul_nonneg hu hD
  have hh' := abs_le.1 hh
  have b1 : |d - h| ≤ D + rho :=
    abs_le.2 ⟨by linarith only [hh', hd1, hd2, hur, hrho],
      by linarith only [hh', hd1, hd2, hur, hrho]⟩
  have b2 : |d + h| ≤ D + rho :=
    abs_le.2 ⟨by linarith only [hh', hd1, hd2, hur, hrho],
      by linarith only [hh', hd1, hd2, hur, hrho]⟩
  have hlo' := abs_le.1 (hlo.trans (mul_le_mul_of_nonneg_left b1 hu))
  have hhi' := abs_le.1 (hhi.trans (mul_le_mul_of_nonneg_left b2 hu))
  have hq' := abs_le.1 hq
  have he : 0 ≤ e := le_trans (abs_nonneg _) hq
  refine abs_le.2 ⟨?_, ?_⟩
  · have : r - (e + u * (D + 2 * rho)) ≤ min hi (max lo q) :=
      le_min (by linarith only [hhi', hh', hr2, he, hur0])
        (le_max_of_le_right (by linarith only [hq', huD0, hur0]))
    linarith only [this]
  · have : min hi (max lo q) ≤ r + (e + u * (D + 2 * rho)) :=
      (min_le_right _ _).trans (max_le (by linarith only [hlo', hh', hr1, he, hur0])
        (by linarith only [hq', huD0, hur0]))
    linarith only [this]

/-- With stiffness 1, a `relAngle` inside the range and within `PI` of
`defAngle` by more than the rounding error of the wrap is left where it is by
the rule of `updateRelative` computed with rounding, up to the rounding
error. -/
theorem newRelFl_fixed {fl : K → K} {u : K} (h : Rounding fl u) (M : JSMath K)
    (hpi : 0 < M.PI) (s : Segment K) (hr : 0 ≤ s.range) (hs : s.stiffness = 1)
    (hin : InRange s)
    (hm : |s.relAngle - s.defAngle| + u * (8 * |s.relAngle - s.defAngle| + M.PI) < M.PI)
    (r' : K) (hn : newRelFl M fl s true = .ok r') :
    |r' - s.relAngle|
      ≤ u * (7 * |s.relAngle - s.defAngle| + 6 * |s.defAngle| + 2 * s.range) := by
  obtain ⟨-, h2, h3⟩ := wrap_tail h M.PI s.relAngle s.defAngle _ hpi
    (floorArg_err h M.PI (s.relAngle - s.defAngle) hpi)
  have hk : (⌊fl (fl (fl (fl (s.relAngle - s.defAngle) / 2) / M.PI) + 1 / 2)⌋ : ℤ) = 0 := by
    by_contra hne
    exact absurd (h2 hne) (not_le.2 hm)
  have hw : wrapRelFl M fl s = fl s.relAngle := h3 hk
  rw [newRelFl_flex M fl s (by rw [hs]; exact one_ne_zero), Except.ok.injEq, hw, hs,
    div_one] at hn
  rw [← hn]
  have hq := fixed_chain u s.relAngle s.defAngle _ _ _ _ h.u_nonneg h.u_small
    (h.err s.relAngle) (h.err (fl s.relAngle - s.defAngle))
    (h.err (fl (fl s.relAngle - s.defAngle)))
    (h.err (fl (fl (fl s.relAngle - s.defAngle)) + s.defAngle))
  have hc := clamp_fl_near u s.defAngle s.range (fl (s.range / 2)) _ _ _ s.relAngle _
    h.u_nonneg h.u_small hr (h.err _) (h.err _) (h.err _) hin.1 hin.2 hq
  refine hc.trans ?_
  linarith only []

end RoundingFixed

section RoundingHeading

variable {K : Type} [LinearOrderedField K] [FloorRing K]

/-- The error of the rounded argument of `Math.floor` in the wrap of the
heading: the division by the rounded `2 * PI`, then the addition of `1 / 2`. -/
theorem headingArg_chain (u P a c a3 a4 : K) (hu : 0 ≤ u) (hu16 : u ≤ 1 / 16) (hP : 0 < P)
    (hc : |c - 2 * P| ≤ u * (2 * P)) (h3 : |a3 - a / c| ≤ u * |a / c|)
    (h4 : |a4 - (a3 + 1 / 2)| ≤ u * |a3 + 1 / 2|) :
    |a4 - (a / 2 / P + 1 / 2)| ≤ u * (4 * (|a| / P) + 1 / 2) := by
  have huP : u * P ≤ 1 / 16 * P := mul_le_mul_of_nonneg_right hu16 hP.le
  have hc' := abs_le.1 hc
  have hcP : P ≤ c := by linarith only [hc', huP, hP]
  have hc0 : 0 < c := lt_of_lt_of_le hP hcP
  have h2P : (0 : K) < 2 * P := by linarith only [hP]
  have hA := abs_nonneg a
  have hz : |a / c| ≤ |a| / P := by
    rw [abs_div, abs_of_pos hc0]
    exact div_le_div_of_nonneg_left hA hP hcP
  have hr : |(2 * P - c) / (2 * P)| ≤ u := by
    rw [abs_div, abs_of_pos h2P, abs_sub_comm, div_le_iff₀ h2P]
    exact hc
  have key : a / c - a / 2 / P = a / c * ((2 * P - c) / (2 * P)) := by
    field_simp
    ring
  have hzt : |a / c - a / 2 / P| ≤ u * (|a| / P) := by
    rw [key, abs_mul]
    calc |a / c| * |(2 * P - c) / (2 * P)| ≤ |a / c| * u :=
          mul_le_mul_of_nonneg_left hr (abs_nonneg _)
      _ = u * |a / c| := mul_comm _ _
      _ ≤ u * (|a| / P) := mul_le_mul_of_nonneg_left hz hu
  have h3' := h3.trans (mul_le_mul_of_nonneg_left hz hu)
  obtain ⟨btl, btr⟩ := div_bounds _ _ P hP (neg_abs_le a) (le_abs_self a)
  have r3 : a / P = 2 * (a / 2 / P) := by ring
  rw [r3] at btl btr
  have hAp : 0 ≤ |a| / P := div_nonneg hA hP.le
  clear h3 hz hr key hc hc' hcP hc0 r3 hA huP
  generalize a / c = z at *
  generalize a / 2 / P = t at *
  generalize |a| / P = Ap at *
  have huA : u * Ap ≤ 1 / 16 * Ap := mul_le_mul_of_nonneg_right hu16 hAp
  have huA0 : 0 ≤ u * Ap := mul_nonneg hu hAp
  have hzt' := abs_le.1 hzt
  have h3'' := abs_le.1 h3'
  have b3 : |a3 + 1 / 2| ≤ Ap + 1 / 2 :=
    abs_le.2 ⟨by linarith only [h3'', hzt', btl, btr, huA, hAp],
      by linarith only [h3'', hzt', btl, btr, huA, hAp]⟩
  have h4' := abs_le.1 (h4.trans (mul_le_mul_of_nonneg_left b3 hu))
  exact abs_le.2 ⟨by linarith only [h4', h3'', hzt', huA0],
    by linarith only [h4', h3'', hzt', huA0]⟩

/-- The heading after the wrap is raised and lowered by `PI`, in two
roundings. -/
theorem heading_final (u P A b h1 f : K) (hu : 0 ≤ u) (hu16 : u ≤ 1 / 16) (hP : 0 ≤ P)
    (hA : 0 ≤ A) (hb : |b| ≤ P + u * (15 * A + 9 * P)) (hh : |h1 - (b + P)| ≤ u * |b + P|)
    (hf : |f - (h1 - P)| ≤ u * |h1 - P|) : |f| ≤ P + u * (17 * A + 14 * P) := by
  have huA : u * A ≤ 1 / 16 * A := mul_le_mul_of_nonneg_right hu16 hA
  have huP : u * P ≤ 1 / 16 * P := mul_le_mul_of_nonneg_right hu16 hP
  have hb' := abs_le.1 hb
  have bbp : |b + P| ≤ 3 * P + A :=
    abs_le.2 ⟨by linarith only [hb', huA, huP, hA, hP], by linarith only [hb', huA, huP, hA, hP]⟩
  have hh' := abs_le.1 (hh.trans (mul_le_mul_of_nonneg_left bbp hu))
  have bhp : |h1 - P| ≤ 2 * P + A :=
    abs_le.2 ⟨by linarith only [hh', hb', huA, huP, hA, hP],
      by linarith only [hh', hb', huA, huP, hA, hP]⟩
  have hf' := abs_le.1 (hf.trans (mul_le_mul_of_nonneg_left bhp hu))
  exact abs_le.2 ⟨by linarith only [hf', hh', hb'], by linarith only [hf', hh', hb']⟩

/-- The heading that `Creature.follow` leaves, computed with rounding, is
within `PI` of 0 up to the rounding error. -/
theorem newHeadingFl_bound {fl : K → K} {u : K} (h : Rounding fl u) (M : JSMath K)
    (hpi : 0 < M.PI) (c : Creature K) (rSpeed : K) :
    |c.newHeadingFl M fl rSpeed| ≤ M.PI + u * (19 * |c.absAngle + rSpeed| + 14 * M.PI) := by
  have hu := h.u_nonneg
  have hc := h.err (2 * M.PI)
  rw [abs_of_pos (by linarith only [hpi] : (0 : K) < 2 * M.PI)] at hc
  have he := headingArg_chain u M.PI (fl (c.absAngle + rSpeed)) (fl (2 * M.PI)) _ _ hu
    h.u_small hpi hc (h.err _) (h.err _)
  have hb := (wrap_tail h M.PI (fl (c.absAngle + rSpeed)) 0 _ hpi
    (by rw [sub_zero]; exact he)).1
  rw [sub_zero, sub_zero, abs_zero, add_zero] at hb
  have hf := heading_final u M.PI |fl (c.absAngle + rSpeed)| _ _ _ hu h.u_small hpi.le
    (abs_nonneg _) hb (h.err _) (h.err _)
  have hA := h.abs_fl_le (c.absAngle + rSpeed) _ le_rfl
  have hA0 := abs_nonneg (c.absAngle + rSpeed)
  have huA := mul_le_mul_of_nonneg_right h.u_small hA0
  have hfl : c.newHeadingFl M fl rSpeed
      = fl (fl (fl (fl (c.absAngle + rSpeed) - fl (fl (2 * M.PI)
          * ((⌊fl (fl (fl (c.absAngle + rSpeed) / fl (2 * M.PI)) + 1 / 2)⌋ : ℤ) : K)))
        + M.PI) - M.PI) := rfl
  rw [hfl]
  refine hf.trans ?_
  have h10 := mul_le_mul_of_nonneg_left
    (by linarith only [hA, huA] :
      |fl (c.absAngle + rSpeed)| ≤ 17 / 16 * |c.absAngle + rSpeed|) hu
  have huA0 := mul_nonneg hu hA0
  generalize |fl (c.absAngle + rSpeed)| = A at *
  generalize |c.absAngle + rSpeed| = A0 at *
  linarith only [h10, huA0]

/-- Without rounding the rounded heading is the wrapped heading of the exact
model, raised and lowered by `PI`. -/
theorem newHeadingFl_id (M : JSMath K) (c : Creature K) (x y : K) :
    c.newHeadingFl M (fun x => x) (c.newRSpeed M x y) = c.newHeading M x y + M.PI - M.PI :=
  rfl

end RoundingHeading

/-! ### Rounding: `updateRelative` on the heap -/

section RoundingHeap

variable {K : Type} [LinearOrderedField K] [FloorRing K]

theorem updateRelativeFl_eq_treePass (M : JSMath K) (fl : K → K) (flex : Bool) :
    ∀ (fuel i : Nat) (iter : Bool) (w : World K),
      updateRelativeFl M fl fuel i iter flex w
        = treePass (fun i w => updateSelfFl M fl i flex w) fuel i iter w
  | 0, _, _, _ => rfl
  | fuel + 1, i, iter, w => by
    simp only [updateRelativeFl, treePass]
    cases updateSelfFl M fl i flex w with
    | error e => rfl
    | ok w1 =>
      have h : (fun c w2 => updateRelativeFl M fl fuel c iter flex w2)
          = (fun c w2 => treePass (fun i w => updateSelfFl M fl i flex w) fuel c iter w2) := by
        funext c w2
        exact updateRelativeFl_eq_treePass M fl flex fuel c iter w2
      simp only [h]

/-- The state after `updateSelfFl`: segment `i` with the new `relAngle` `r` of
the rounded rule, the other fields as in some segment of the same shape. -/
theorem updateSelfFl_eq (M : JSMath K) (fl : K → K) (i : Nat) (flex : Bool) (w w1 : World K)
    (h : updateSelfFl M fl i flex w = .ok w1) :
    ∃ r, newRelFl M fl (w.segs i) flex = .ok r ∧
      ∃ s : Segment K, w1 = w.setSeg i s ∧ s.relAngle = r ∧ s.parent = (w.segs i).parent ∧
        s.children = (w.segs i).children ∧ s.size = (w.segs i).size ∧
        s.defAngle = (w.segs i).defAngle ∧ s.range = (w.segs i).range ∧
        s.stiffness = (w.segs i).stiffness := by
  simp only [updateSelfFl] at h
  cases hr : newRelFl M fl (w.segs i) flex with
  | error e => simp [hr] at h
  | ok r =>
    simp only [hr, Except.ok.injEq] at h
    exact ⟨r, rfl, _, h.symm, rfl, rfl, rfl, rfl, rfl, rfl, rfl⟩

theorem updateSelfFl_local (M : JSMath K) (fl : K → K) (flex : Bool) :
    LocalStep (fun i w => updateSelfFl M fl i flex w) := by
  intro i w w1 h
  obtain ⟨r, -, s, rfl, -, hp, hc, hz, hd, hr, hs⟩ := updateSelfFl_eq M fl i flex w w1 h
  exact ⟨setSeg_sameShape _ _ _ hp hc hz hd hr hs, fun j hj => setSeg_segs_ne _ _ hj⟩

theorem updateSelfFl_ok (M : JSMath K) (fl : K → K) (i : Nat) (flex : Bool) (w : World K)
    (hs : flex = true → (w.segs i).stiffness ≠ 0) :
    ∃ w1, updateSelfFl M fl i flex w = .ok w1 := by
  cases flex with
  | false => simp [updateSelfFl, newRelFl_noflex]
  | true => simp [updateSelfFl, newRelFl_flex M fl _ (hs rfl)]

/-- After `updateRelativeFl`, with or without propagation, the `relAngle` of the
segment is the one the rounded rule gives for the segment as it was. -/
theorem updateRelativeFl_relAngle (M : JSMath K) (fl : K → K) (fuel i : Nat) (iter flex : Bool)
    (w w' : World K) (hw : w.WF) (h : updateRelativeFl M fl fuel i iter flex w = .ok w') :
    newRelFl M fl (w.segs i) flex = .ok (w'.segs i).relAngle := by
  rw [updateRelativeFl_eq_treePass] at h
  obtain ⟨w1, h1, he⟩ := treePass_self (updateSelfFl_local M fl flex) fuel i iter w w' hw h
  obtain ⟨r, hr, s, rfl, hs, -⟩ := updateSelfFl_eq M fl i flex w w1 h1
  rw [he, setSeg_segs_self, hs]
  exact hr

/-- The pass `updateRelativeFl` returns when no division by a zero stiffness
occurs and the fuel covers the segments in use. -/
theorem updateRelativeFl_ok (M : JSMath K) (fl : K → K) (fuel i : Nat) (iter flex : Bool)
    (w : World K) (hw : w.WF)
    (hs : flex = true → ∀ j, Desc w i j → (w.segs j).stiffness ≠ 0)
    (hn : w.segmentCount ≤ fuel + i) (hf : 0 < fuel) :
    ∃ w', updateRelativeFl M fl fuel i iter flex w = .ok w' := by
  rw [updateRelativeFl_eq_treePass]
  refine treePass_ok (updateSelfFl_local M fl flex) w hw
    (fun j => flex = true → (w.segs j).stiffness ≠ 0) ?_ fuel i iter w (SameShape.rfl' w)
    (fun j hj hfl => hs hfl j hj) hn hf
  intro c w2 hsh hc
  exact updateSelfFl_ok M fl c flex w2 (fun hfl => by rw [hsh.stiffness]; exact hc hfl)

theorem updateRelativeFl_noiter (M : JSMath K) (fl : K → K) (fuel i : Nat) (flex : Bool)
    (w : World K) :
    updateRelativeFl M fl (fuel + 1) i false flex w = updateSelfFl M fl i flex w := by
  simp only [updateRelativeFl]
  cases updateSelfFl M fl i flex w <;> simp

/-- Without rounding `updateSelfFl` is `updateSelf`. -/
theorem updateSelfFl_id (M : JSMath K) (i : Nat) (flex : Bool) (w : World K) :
    updateSelfFl M (fun x => x) i flex w = updateSelf M i flex w := by
  simp only [updateSelfFl, updateSelf, newRelFl_id]

/-- Without rounding `updateRelativeFl` is `updateRelative`. -/
theorem updateRelativeFl_id (M : JSMath K) (flex : Bool) :
    ∀ (fuel i : Nat) (iter : Bool) (w : World K),
      updateRelativeFl M (fun x => x) fuel i iter flex w = updateRelative M fuel i iter flex w := by
  intro fuel i iter w
  rw [updateRelativeFl_eq_treePass, updateRelative_eq_treePass]
  have h : (fun i w => updateSelfFl M (fun x => x) i flex w)
      = (fun i w => updateSelf M i flex w) := by
    funext i w
    exact updateSelfFl_id M i flex w
  rw [h]

/-- The rule of `updateRelative` reads `relAngle`, `defAngle`, `range` and
`stiffness` of the segment only. -/
theorem newRel_congr (M : JSMath K) (s t : Segment K) (flex : Bool)
    (hd : t.defAngle = s.defAngle) (hr : t.range = s.range) (hs : t.stiffness = s.stiffness) :
    newRel M t flex = newRel M { s with relAngle := t.relAngle } flex := by
  simp only [newRel, wrapRel, hd, hr, hs]

/-- After `follow` the `relAngle` of the segment is what the rule of
`updateRelative` under `flex` gives for the value `r` that `follow` stored
(script.js 183-185). -/
theorem follow_relAngle (M : JSMath K) (fuel i : Nat) (iter : Bool) (w w' : World K)
    (hw : w.WF) (h : follow M fuel i iter w = .ok w') :
    ∃ r, newRel M { w.segs i with relAngle := r } true = .ok (w'.segs i).relAngle := by
  obtain ⟨w1, w2, h1, h2, he⟩ := follow_node M fuel i iter w w' hw h
  obtain ⟨hsh, -⟩ := followSelf_local M i w w1 h1
  obtain ⟨hn, -⟩ := updateSelf_relAngle M i true w1 w2 h2
  refine ⟨(w1.segs i).relAngle, ?_⟩
  rw [he, ← hn]
  exact (newRel_congr M (w.segs i) (w1.segs i) true (hsh.defAngle i) (hsh.range i)
    (hsh.stiffness i)).symm

/-- The rounded rule of `updateRelative` returns for a non-zero stiffness. -/
theorem newRelFl_ok (M : JSMath K) (fl : K → K) (s : Segment K) (flex : Bool)
    (hs : s.stiffness ≠ 0) : ∃ r, newRelFl M fl s flex = .ok r := by
  cases flex with
  | false => exact ⟨_, newRelFl_noflex M fl s⟩
  | true => exact ⟨_, newRelFl_flex M fl s hs⟩

end RoundingHeap

/-! ### C2, C16, C19: the wraps and the contraction, up to rounding -/

section RoundingClaims

variable {K : Type} [LinearOrderedField K] [FloorRing K]

/-- C2 (amended): for a segment `i` with `range ≥ 0` and `stiffness ≥ 1` in a
well-formed heap, and every rounding `fl` of relative error at most `u`
(IEEE doubles: `u = 2 ^ -53`, barring overflow and underflow), after every
`updateRelative`, with either flag, `relAngle` is within `PI` of `defAngle` up
to the rounding error:
`|relAngle' - defAngle| ≤ PI + u * (45 * |r - defAngle| + 33 * PI + 4 * |defAngle|)`
for the `relAngle` `r` before the call.  The same bound holds for the rule of
`updateRelative` started from any `r`, which is what `follow` runs on the value
`absAngle - parent.absAngle` it has stored (script.js 183-185).
`updateRelative(false, flex)` always returns, with propagation it does when no
descendant has stiffness 0 and the fuel covers the tree.  Without rounding
(`fl` the identity, `u = 0`) the calls are `updateRelative` and `follow` of the
exact model, after which `relAngle` is in `[defAngle - PI, defAngle + PI]`;
`follow(false)` returns when the segment's end is off its parent's position. -/
theorem angle_wrap (M : JSMath K) (hpi : 0 < M.PI) (w : World K) (i : Nat) (hw : w.WF)
    (hr : 0 ≤ (w.segs i).range) (hs : 1 ≤ (w.segs i).stiffness) :
    (∀ (fl : K → K) (u : K), Rounding fl u →
      (∀ fuel iter flex w', updateRelativeFl M fl fuel i iter flex w = .ok w' →
        |(w'.segs i).relAngle - (w.segs i).defAngle|
          ≤ M.PI + u * (45 * |(w.segs i).relAngle - (w.segs i).defAngle| + 33 * M.PI
            + 4 * |(w.segs i).defAngle|)) ∧
      (∀ r flex, ∃ r', newRelFl M fl { w.segs i with relAngle := r } flex = .ok r' ∧
        |r' - (w.segs i).defAngle|
          ≤ M.PI + u * (45 * |r - (w.segs i).defAngle| + 33 * M.PI
            + 4 * |(w.segs i).defAngle|)) ∧
      (∀ flex, ∃ w', updateRelativeFl M fl 1 i false flex w = .ok w') ∧
      (∀ fuel flex, (∀ j, Desc w i j → (w.segs j).stiffness ≠ 0) → w.segmentCount ≤ fuel + i →
        0 < fuel → ∃ w', updateRelativeFl M fl fuel i true flex w = .ok w')) ∧
    (∀ fuel iter flex, updateRelativeFl M (fun x => x) fuel i iter flex w
      = updateRelative M fuel i iter flex w) ∧
    (∀ fuel iter flex w', updateRelative M fuel i iter flex w = .ok w' →
      |(w'.segs i).relAngle - (w.segs i).defAngle| ≤ M.PI) ∧
    (∀ fuel iter w', follow M fuel i iter w = .ok w' →
      (∃ r, newRelFl M (fun x => x) { w.segs i with relAngle := r } true
        = .ok (w'.segs i).relAngle) ∧
      |(w'.segs i).relAngle - (w.segs i).defAngle| ≤ M.PI) ∧
    (distance M (w.segs i).x (w.segs i).y (w.nodeX (w.segs i).parent)
        (w.nodeY (w.segs i).parent) ≠ 0 → ∃ w', follow M 1 i false w = .ok w') := by
  have hs0 : (w.segs i).stiffness ≠ 0 := by
    intro h0
    rw [h0] at hs
    linarith only [hs]
  refine ⟨?_, ?_, ?_, ?_, ?_⟩
  · intro fl u h
    refine ⟨?_, ?_, ?_, ?_⟩
    · intro fuel iter flex w' hp
      exact newRelFl_bound h M hpi (w.segs i) hr hs flex _
        (updateRelativeFl_relAngle M fl fuel i iter flex w w' hw hp)
    · intro r flex
      obtain ⟨r', hr'⟩ := newRelFl_ok M fl { w.segs i with relAngle := r } flex hs0
      exact ⟨r', hr', newRelFl_bound h M hpi { w.segs i with relAngle := r } hr hs flex r' hr'⟩
    · intro flex
      rw [updateRelativeFl_noiter]
      exact updateSelfFl_ok M fl i flex w (fun _ => hs0)
    · intro fuel flex hd hn hf
      exact updateRelativeFl_ok M fl fuel i true flex w hw (fun _ => hd) hn hf
  · intro fuel iter flex
    exact updateRelativeFl_id M flex fuel i iter w
  · intro fuel iter flex w' hp
    obtain ⟨w1, h1, he⟩ := updateRelative_node M fuel i iter flex w w' hw hp
    obtain ⟨hn, -⟩ := updateSelf_relAngle M i flex w w1 h1
    obtain ⟨h2, h3⟩ := newRel_inWrap M hpi (w.segs i) flex hr hs _ hn
    rw [he]
    exact abs_le.2 ⟨by linarith only [h2], by linarith only [h3]⟩
  · intro fuel iter w' hp
    obtain ⟨r, hn⟩ := follow_relAngle M fuel i iter w w' hw hp
    obtain ⟨h2, h3⟩ := newRel_inWrap M hpi { w.segs i with relAngle := r } true hr hs _ hn
    refine ⟨⟨r, ?_⟩, abs_le.2 ⟨by linarith only [h2], by linarith only [h3]⟩⟩
    rw [newRelFl_id]
    exact hn
  · intro hd
    exact follow_ok M 0 i w hd hs0

/-- C2, checked on a segment of size 1 at rest below a Creature at the origin,
with a rounding of relative error `1 / 32`. -/
theorem angle_wrap_witness :
    (∀ flex, ∃ w', updateRelativeFl realMath (fun x : ℝ => x + x / 32) 1 0 false flex
        (World.single (Segment.atRest (0 : ℝ) 1 1 1)) = .ok w') ∧
    (∀ fuel iter flex w', updateRelativeFl realMath (fun x : ℝ => x + x / 32) fuel 0 iter flex
        (World.single (Segment.atRest (0 : ℝ) 1 1 1)) = .ok w' →
      |(w'.segs 0).relAngle - ((World.single (Segment.atRest (0 : ℝ) 1 1 1)).segs 0).defAngle|
        ≤ realMath.PI + 1 / 16
          * (45 * |((World.single (Segment.atRest (0 : ℝ) 1 1 1)).segs 0).relAngle
              - ((World.single (Segment.atRest (0 : ℝ) 1 1 1)).segs 0).defAngle|
            + 33 * realMath.PI
            + 4 * |((World.single (Segment.atRest (0 : ℝ) 1 1 1)).segs 0).defAngle|)) ∧
    (∀ fuel iter flex w', updateRelative realMath fuel 0 iter flex
        (World.single (Segment.atRest (0 : ℝ) 1 1 1)) = .ok w' →
      |(w'.segs 0).relAngle - ((World.single (Segment.atRest (0 : ℝ) 1 1 1)).segs 0).defAngle|
        ≤ realMath.PI) :=
  have h := angle_wrap realMath Real.pi_pos (World.single (Segment.atRest (0 : ℝ) 1 1 1)) 0
    (single_wf _) (by simp [World.single, Segment.atRest]) (by simp [World.single, Segment.atRest])
  ⟨(h.1 _ _ rounding_skew).2.2.1, (h.1 _ _ rounding_skew).1, h.2.2.1⟩

/-- C19 (amended): for a segment `i` with `stiffness ≥ 1` and `range ≥ 0` in a
well-formed heap, and every rounding `fl` of relative error at most `u`
(IEEE doubles: `u = 2 ^ -53`, barring overflow and underflow),
`updateRelative` with the constraint flag returns and leaves a `relAngle'` with
`|relAngle' - defAngle| ≤ |r - defAngle| / stiffness
  + u * (75 * |r - defAngle| + 30 * PI + 4 * |defAngle|)`
for the `relAngle` `r` before the call; with `stiffness == 1`, an `r` in the
range and within `PI` of `defAngle` by more than the rounding error of the
wrap, `|r - defAngle| + u * (8 * |r - defAngle| + PI) < PI`, is left where it
is up to `u * (7 * |r - defAngle| + 6 * |defAngle| + 2 * range)`.  Without
rounding (`fl` the identity, `u = 0`) the call is `updateRelative` of the exact
model, where `relAngle'` is `clamp(defAngle + (v - defAngle) / stiffness,
defAngle - range / 2, defAngle + range / 2)` with `v = r - 2 * PI * k` within
`PI` of `defAngle`, `|relAngle' - defAngle| ≤ |r - defAngle| / stiffness`, and
with `stiffness == 1` an `r` in the range with `|r - defAngle| < PI` is left
unchanged. -/
theorem stiffness_contraction (M : JSMath K) (hpi : 0 < M.PI) (w : World K) (i : Nat)
    (hw : w.WF) (hr : 0 ≤ (w.segs i).range) (hs : 1 ≤ (w.segs i).stiffness) :
    (∀ (fl : K → K) (u : K), Rounding fl u →
      (∃ w', updateRelativeFl M fl 1 i false true w = .ok w') ∧
      ∀ fuel iter w', updateRelativeFl M fl fuel i iter true w = .ok w' →
        |(w'.segs i).relAngle - (w.segs i).defAngle|
          ≤ |(w.segs i).relAngle - (w.segs i).defAngle| / (w.segs i).stiffness
            + u * (75 * |(w.segs i).relAngle - (w.segs i).defAngle| + 30 * M.PI
              + 4 * |(w.segs i).defAngle|) ∧
        ((w.segs i).stiffness = 1 → InRange (w.segs i) →
          |(w.segs i).relAngle - (w.segs i).defAngle|
            + u * (8 * |(w.segs i).relAngle - (w.segs i).defAngle| + M.PI) < M.PI →
          |(w'.segs i).relAngle - (w.segs i).relAngle|
            ≤ u * (7 * |(w.segs i).relAngle - (w.segs i).defAngle|
              + 6 * |(w.segs i).defAngle| + 2 * (w.segs i).range))) ∧
    (∀ fuel iter, updateRelativeFl M (fun x => x) fuel i iter true w
      = updateRelative M fuel i iter true w) ∧
    (∀ fuel iter w', updateRelative M fuel i iter true w = .ok w' →
      ∃ k : ℤ,
        |(w.segs i).relAngle - 2 * M.PI * k - (w.segs i).defAngle| ≤ M.PI ∧
        (w'.segs i).relAngle = min ((w.segs i).defAngle + (w.segs i).range / 2)
          (max ((w.segs i).defAngle - (w.segs i).range / 2)
            ((w.segs i).defAngle
              + ((w.segs i).relAngle - 2 * M.PI * k - (w.segs i).defAngle)
                / (w.segs i).stiffness)) ∧
        |(w'.segs i).relAngle - (w.segs i).defAngle|
          ≤ |(w.segs i).relAngle - (w.segs i).defAngle| / (w.segs i).stiffness ∧
        ((w.segs i).stiffness = 1 → InRange (w.segs i) →
          |(w.segs i).relAngle - (w.segs i).defAngle| < M.PI →
          (w'.segs i).relAngle = (w.segs i).relAngle)) := by
  have hs0 : (w.segs i).stiffness ≠ 0 := by
    intro h0
    rw [h0] at hs
    linarith only [hs]
  refine ⟨?_, ?_, ?_⟩
  · intro fl u h
    refine ⟨?_, ?_⟩
    · rw [updateRelativeFl_noiter]
      exact updateSelfFl_ok M fl i true w (fun _ => hs0)
    · intro fuel iter w' hp
      have hn := updateRelativeFl_relAngle M fl fuel i iter true w w' hw hp
      refine ⟨newRelFl_contraction h M hpi (w.segs i) hr hs _ hn, ?_⟩
      intro h1 hin hm
      exact newRelFl_fixed h M hpi (w.segs i) hr h1 hin hm _ hn
  · intro fuel iter
    exact updateRelativeFl_id M true fuel i iter w
  · intro fuel iter w' hp
    obtain ⟨w1, h1, he⟩ := updateRelative_node M fuel i iter true w w' hw hp
    obtain ⟨hn, -⟩ := updateSelf_relAngle M i true w w1 h1
    obtain ⟨k, ⟨hk1, hk2⟩, hf, hc, -, hfix⟩ :=
      newRel_contraction M hpi (w.segs i) hr hs _ hn
    rw [he]
    refine ⟨k, abs_le.2 ⟨by linarith only [hk1], by linarith only [hk2]⟩, hf, hc, ?_⟩
    intro h1 hin hlt
    obtain ⟨hl1, hl2⟩ := abs_lt.1 hlt
    exact hfix h1 ⟨by linarith only [hl1], by linarith only [hl2]⟩ hin

/-- C19, checked on a segment of size 1 at rest below a Creature at the origin,
with a rounding of relative error `1 / 32`. -/
theorem stiffness_contraction_witness :
    (∃ w', updateRelativeFl realMath (fun x : ℝ => x + x / 32) 1 0 false true
        (World.single (Segment.atRest (0 : ℝ) 1 1 1)) = .ok w') ∧
    (∀ fuel iter w', updateRelative realMath fuel 0 iter true
        (World.single (Segment.atRest (0 : ℝ) 1 1 1)) = .ok w' →
      ∃ k : ℤ,
        |((World.single (Segment.atRest (0 : ℝ) 1 1 1)).segs 0).relAngle - 2 * realMath.PI * k
          - ((World.single (Segment.atRest (0 : ℝ) 1 1 1)).segs 0).defAngle| ≤ realMath.PI ∧
        (w'.segs 0).relAngle
          = min (((World.single (Segment.atRest (0 : ℝ) 1 1 1)).segs 0).defAngle
              + ((World.single (Segment.atRest (0 : ℝ) 1 1 1)).segs 0).range / 2)
            (max (((World.single (Segment.atRest (0 : ℝ) 1 1 1)).segs 0).defAngle
                - ((World.single (Segment.atRest (0 : ℝ) 1 1 1)).segs 0).range / 2)
              (((World.single (Segment.atRest (0 : ℝ) 1 1 1)).segs 0).defAngle
                + (((World.single (Segment.atRest (0 : ℝ) 1 1 1)).segs 0).relAngle
                    - 2 * realMath.PI * k
                    - ((World.single (Segment.atRest (0 : ℝ) 1 1 1)).segs 0).defAngle)
                  / ((World.single (Segment.atRest (0 : ℝ) 1 1 1)).segs 0).stiffness)) ∧
        |(w'.segs 0).relAngle - ((World.single (Segment.atRest (0 : ℝ) 1 1 1)).segs 0).defAngle|
          ≤ |((World.single (Segment.atRest (0 : ℝ) 1 1 1)).segs 0).relAngle
              - ((World.single (Segment.atRest (0 : ℝ) 1 1 1)).segs 0).defAngle|
            / ((World.single (Segment.atRest (0 : ℝ) 1 1 1)).segs 0).stiffness ∧
        (((World.single (Segment.atRest (0 : ℝ) 1 1 1)).segs 0).stiffness = 1 →
          InRange ((World.single (Segment.atRest (0 : ℝ) 1 1 1)).segs 0) →
          |((World.single (Segment.atRest (0 : ℝ) 1 1 1)).segs 0).relAngle
            - ((World.single (Segment.atRest (0 : ℝ) 1 1 1)).segs 0).defAngle| < realMath.PI →
          (w'.segs 0).relAngle
            = ((World.single (Segment.atRest (0 : ℝ) 1 1 1)).segs 0).relAngle)) :=
  have h := stiffness_contraction realMath Real.pi_pos
    (World.single (Segment.atRest (0 : ℝ) 1 1 1)) 0 (single_wf _)
    (by simp [World.single, Segment.atRest]) (by simp [World.single, Segment.atRest])
  ⟨(h.1 _ _ rounding_skew).1, h.2.2⟩

/-- C16 (amended): for every rounding `fl` of relative error at most `u`
(IEEE doubles: `u = 2 ^ -53`, barring overflow and underflow) and every new
angular speed `rSpeed`, the heading that `Creature.follow` leaves, the `+ PI`
offset undone, is within `PI` of 0 up to the rounding error:
`|absAngle'| ≤ PI + u * (19 * |absAngle + rSpeed| + 14 * PI)`.  Without rounding
(`fl` the identity, `u = 0`) this heading is the `absAngle` after
`Creature.follow` of the exact model, which lies in `[-PI, PI]`.
`Creature.follow` returns at least for a Creature with no children and no
systems. -/
theorem heading_wrap (M : JSMath K) (hpi : 0 < M.PI) (mouse : K × K) (draws : Nat → K × K)
    (x y : K) (w : World K) :
    (∀ (fl : K → K) (u : K), Rounding fl u → ∀ rSpeed,
      |w.creature.newHeadingFl M fl rSpeed|
        ≤ M.PI + u * (19 * |w.creature.absAngle + rSpeed| + 14 * M.PI)) ∧
    (∀ w', Creature.follow M mouse draws x y w = .ok w' →
      w'.creature.absAngle
        = w.creature.newHeadingFl M (fun x => x) (w.creature.newRSpeed M x y) ∧
      |w'.creature.absAngle| ≤ M.PI) ∧
    (w.creature.children = [] → w.creature.systems = [] →
      ∃ w', Creature.follow M mouse draws x y w = .ok w') := by
  refine ⟨fun fl u h rSpeed => newHeadingFl_bound h M hpi w.creature rSpeed, ?_,
    creature_follow_bare M mouse draws x y w⟩
  intro w' h
  have ha : w'.creature.absAngle = w.creature.newHeading M x y + M.PI - M.PI := by
    rw [creature_follow_body M mouse draws x y w w' h]
    rfl
  refine ⟨by rw [ha, newHeadingFl_id], ?_⟩
  obtain ⟨h1, h2⟩ := wrap_turn_bounds M hpi (w.creature.absAngle + w.creature.newRSpeed M x y)
  have hb : w'.creature.absAngle = w.creature.absAngle + w.creature.newRSpeed M x y
      - 2 * M.PI * ((⌊(w.creature.absAngle + w.creature.newRSpeed M x y) / (2 * M.PI)
        + 1 / 2⌋ : ℤ) : K) := by
    rw [ha]
    simp only [Creature.newHeading]
    ring
  rw [hb]
  exact abs_le.2 ⟨h1, h2.le⟩

/-- C16, checked on a Creature with no children and no systems, with a rounding
of relative error `1 / 32`. -/
theorem heading_wrap_witness :
    (∀ rSpeed : ℝ, |(headingEdge realMath).creature.newHeadingFl realMath
        (fun x : ℝ => x + x / 32) rSpeed|
      ≤ realMath.PI + 1 / 16
        * (19 * |(headingEdge realMath).creature.absAngle + rSpeed| + 14 * realMath.PI)) ∧
    (∀ w', Creature.follow realMath (0, 0) (fun _ => (0, 0)) 2 0 (headingEdge realMath) = .ok w' →
      w'.creature.absAngle = (headingEdge realMath).creature.newHeadingFl realMath
          (fun x => x) ((headingEdge realMath).creature.newRSpeed realMath 2 0) ∧
      |w'.creature.absAngle| ≤ realMath.PI) ∧
    ∃ w', Creature.follow realMath (0, 0) (fun _ => (0, 0)) 2 0 (headingEdge realMath)
      = .ok w' :=
  have h := heading_wrap realMath Real.pi_pos (0, 0) (fun _ => (0, 0)) 2 0 (headingEdge realMath)
  ⟨h.1 _ _ rounding_skew, h.2.1, h.2.2 rfl rfl⟩

end RoundingClaims

end Cursor
